import Mathlib

/-!
Verification development for the Hugim allocation engine
(`allocator.py` and `data_helpers.py`).

The engine is embedded shallowly:

* Python `dict`s (whose iteration order is insertion order) are embedded as
  association lists over `String` keys (`AList`), with `lookupA` (first match,
  which is the only match on the duplicate-free lists Python dicts produce),
  `updateA` (update the value at a present key), and `setA` (Python `d[k] = v`:
  update in place if present, else append).
* Python `set`s of camper ids are embedded as duplicate-free `List String`
  with `insertS` (`set.add`) and `unionS` (`set.update`); `len` is `.length`.
* `random.shuffle` is embedded as an oracle `Shuf`: a family of reordering
  functions indexed by a call counter that is threaded through the engine
  exactly once per `random.shuffle` call.  `Shuf.Lawful` states every oracle
  output is a permutation of its input, which is what `random.shuffle`
  guarantees.  A fixed oracle plays the role of a fixed random seed.
* Python `list.sort(key=...)` (a stable ascending sort) is embedded as a
  stable insertion sort `sortBy`; any two stable sorts for the same total
  preorder agree, so this is extensionally the source's sort.
* Module globals `PERIODS` and `PREFERENCES_PER_PERIOD` are passed as
  parameters (`periods`, `K`).
-/

namespace Hugim

/-- Association list over string keys, standing for a Python dict. -/
abbrev AList (α : Type) := List (String × α)

/-- Dict lookup: value at the first (in dicts: only) entry with the given key. -/
def lookupA {α : Type} : AList α → String → Option α
  | [], _ => none
  | (k', v) :: t, k => if k' = k then some v else lookupA t k

/-- Update the value at the first entry with the given key; no entry, no change
(Python would raise `KeyError`, which the engine never does on the states the
theorems quantify over). -/
def updateA {α : Type} : AList α → String → (α → α) → AList α
  | [], _, _ => []
  | (k', v) :: t, k, f => if k' = k then (k', f v) :: t else (k', v) :: updateA t k f

/-- Python `d[k] = v`: replace the value if the key is present, else append. -/
def setA {α : Type} (l : AList α) (k : String) (v : α) : AList α :=
  if (lookupA l k).isSome then updateA l k (fun _ => v) else l ++ [(k, v)]

/-- Python `defaultdict(list)`: `d[k].append(x)`. -/
def pushA {α : Type} (l : AList (List α)) (k : String) (x : α) : AList (List α) :=
  if (lookupA l k).isSome then updateA l k (fun xs => xs ++ [x]) else l ++ [(k, [x])]

/-- Python `del d[k]` (dict keys are unique; removing every match is the same). -/
def eraseA {α : Type} (l : AList α) (k : String) : AList α :=
  l.filter fun p => !(p.1 = k : Bool)

/-- Python `set.add` on a duplicate-free list. -/
def insertS (l : List String) (x : String) : List String :=
  if x ∈ l then l else l ++ [x]

/-- Python `set.update` on duplicate-free lists. -/
def unionS (l : List String) (xs : List String) : List String :=
  xs.foldl insertS l

/-- One activity instance for one period: `{'capacity': …, 'min': …, 'enrolled': set()}`
from `load_hugim` (allocator.py lines 75-79). -/
structure HugInfo where
  capacity : Nat
  min : Nat
  enrolled : List String
deriving DecidableEq

/-- One per-period assignment record: `{'hug': None, 'how': None}`
(allocator.py line 138).  `how` carries the raw string the engine stores
there: a `Pref_k` / `Random` / `Forced_minimum` tag or a diagnostic reason. -/
structure Assn where
  hug : Option String
  how : Option String
deriving DecidableEq

/-- A camper record as built by `load_preferences` (allocator.py lines 135-140). -/
structure Camper where
  camperID : String
  preferences : AList (List String)
  assignments : AList Assn
  scoreHistory : List Int
deriving DecidableEq

/-- The random oracle: family of reorderings indexed by the shuffle-call counter.
`shufN` serves `random.shuffle` on camper-index lists, `shufS` on name lists. -/
structure Shuf where
  shufN : Nat → List Nat → List Nat
  shufS : Nat → List String → List String

/-- What `random.shuffle` guarantees: each call permutes its list. -/
def Shuf.Lawful (S : Shuf) : Prop :=
  (∀ k l, (S.shufN k l).Perm l) ∧ (∀ k l, (S.shufS k l).Perm l)

/-- Oracle that leaves every list unchanged (one possible seeded stream). -/
def idShuf : Shuf := ⟨fun _ l => l, fun _ l => l⟩

/-- Oracle that reverses every list (another possible seeded stream). -/
def revShuf : Shuf := ⟨fun _ l => l.reverse, fun _ l => l.reverse⟩

/-- Period keys, taken from the first camper as the source does:
`periods = list(campers[0]['assignments'].keys())` (allocator.py line 148). -/
def periodsOf (campers : List Camper) : List String :=
  match campers with
  | [] => []
  | c :: _ => c.assignments.map Prod.fst

/-- The assignment record of a camper for one period. -/
def lookupAssn (c : Camper) (p : String) : Assn :=
  (lookupA c.assignments p).getD ⟨none, none⟩

/-- Overwrite both fields of one period's assignment record. -/
def setAssn (c : Camper) (p : String) (a : Assn) : Camper :=
  { c with assignments := updateA c.assignments p fun _ => a }

/-- Overwrite only the `how` field of one period's assignment record. -/
def setHow (c : Camper) (p : String) (how : Option String) : Camper :=
  { c with assignments := updateA c.assignments p fun a => { a with how := how } }

/-- A camper's preference list for one period. -/
def lookupPrefs (c : Camper) (p : String) : List String :=
  (lookupA c.preferences p).getD []

/-- Cumulative score: `sum(camper.get('score_history', []))` (allocator.py line 162). -/
def totalScore (c : Camper) : Int :=
  c.scoreHistory.sum

/-- Cumulative score of the camper at a list index. -/
def totalScoreAt (campers : List Camper) (idx : Nat) : Int :=
  match campers.get? idx with
  | some c => totalScore c
  | none => 0

/-- Stable insert for the embedding of Python's stable ascending sort. -/
def insSorted (le : Nat → Nat → Bool) (x : Nat) : List Nat → List Nat
  | [] => [x]
  | y :: t => if le x y then x :: y :: t else y :: insSorted le x t

/-- Stable insertion sort; extensionally Python's `list.sort` for a total
preorder, since the stable ascending reordering is unique. -/
def sortBy (le : Nat → Nat → Bool) : List Nat → List Nat
  | [] => []
  | x :: t => insSorted le x (sortBy le t)

/-- Fairness ordering: sort camper indices ascending by cumulative score
(allocator.py lines 160-165). -/
def sortByScore (campers : List Camper) (l : List Nat) : List Nat :=
  sortBy (fun i j => decide (totalScoreAt campers i ≤ totalScoreAt campers j)) l

/-- Indices of campers with no assignment yet in this period
(allocator.py line 158). -/
def unassignedIdxs (campers : List Camper) (period : String) : List Nat :=
  (List.range campers.length).filter fun i =>
    match campers.get? i with
    | some c => (lookupAssn c period).hug.isNone
    | none => false

/-- Cross-period duplicate check `already_has_hug` (allocator.py lines 151-156):
true when the camper already holds `hug` in a period other than `period`. -/
def alreadyHasHug (periods : List String) (c : Camper) (period hug : String) : Bool :=
  periods.any fun p => !(p = period : Bool) && ((lookupAssn c p).hug == some hug)

/-- Activities of the period that still have a free seat
(allocator.py line 215, data_helpers.py line 154). -/
def availableHugs (hp : AList HugInfo) : List String :=
  (hp.filter fun ph => ph.2.enrolled.length < ph.2.capacity).map Prod.fst

/-- Free activities the camper does not already hold in another period
(data_helpers.py line 168). -/
def assignableHugs (hp : AList HugInfo) (c : Camper) (period : String) : List String :=
  (availableHugs hp).filter fun hug =>
    !(alreadyHasHug (c.assignments.map Prod.fst) c period hug)

/-- The six diagnostic strings `get_unassignment_reason` can produce. -/
def ReasonStrings : List String :=
  ["No activities offered in this period.",
   "All activities full in this period.",
   "No activity available without repeating across periods.",
   "No preferences listed for this period.",
   "Preferences not available (full, not offered, or duplicate).",
   "Unknown reason (please report)."]

/-- Body of `get_unassignment_reason` (data_helpers.py lines 148-180) for the
camper record itself. -/
def reasonOfCamper (c : Camper) (period : String) (hp : AList HugInfo) : String :=
  if hp.isEmpty then "No activities offered in this period."
  else if (availableHugs hp).isEmpty then "All activities full in this period."
  else if (assignableHugs hp c period).isEmpty then
    "No activity available without repeating across periods."
  else if (lookupPrefs c period).isEmpty then "No preferences listed for this period."
  else if ((lookupPrefs c period).filter
      (fun hug => decide (hug ∈ assignableHugs hp c period))).isEmpty then
    "Preferences not available (full, not offered, or duplicate)."
  else "Unknown reason (please report)."

/-- Diagnosis `get_unassignment_reason` (data_helpers.py lines 146-180).
The `none` branch is unreachable: the engine only passes live indices
(Python would raise there). -/
def getUnassignmentReason (campers : List Camper) (camperIdx : Nat) (period : String)
    (hp : AList HugInfo) : String :=
  match campers.get? camperIdx with
  | none => "Unknown reason (please report)."
  | some c => reasonOfCamper c period hp

/-- The method string `f'Pref_{n}'`. -/
def prefStr (n : Nat) : String :=
  "Pref_" ++ toString n

/-- Working state of `assign_period`: the campers, the one period's registry
slice `hugim_for_period`, and the shuffle-call counter. -/
structure PSt where
  campers : List Camper
  hp : AList HugInfo
  rk : Nat
deriving DecidableEq

/-- Record an assignment: write `hug` and `how` into the camper's record for
the period and add the camper id to the activity's enrolled set
(allocator.py lines 186-189, 209-212, 224-227). -/
def assignIdx (st : PSt) (period hug how : String) (idx : Nat) : PSt :=
  match st.campers.get? idx with
  | none => st
  | some c =>
    { st with
      campers := st.campers.set idx (setAssn c period ⟨some hug, some how⟩)
      hp := updateA st.hp hug fun info => { info with enrolled := insertS info.enrolled c.camperID } }

/-- Demand collection for one preference rank (allocator.py lines 169-179):
each still-unassigned camper whose rank-`prefRank` preference names an offered,
not-already-held activity joins that activity's demand list. -/
def collectDemanders (campers : List Camper) (hp : AList HugInfo) (periods : List String)
    (period : String) (prefRank : Nat) (ul : List Nat) : AList (List Nat) :=
  ul.foldl (fun dem idx =>
    match campers.get? idx with
    | none => dem
    | some c =>
      match (lookupPrefs c period).get? prefRank with
      | none => dem
      | some hug =>
        if (lookupA hp hug).isSome && !(alreadyHasHug periods c period hug)
        then pushA dem hug idx else dem) []

/-- Shuffle each demand list in dict order, consuming one oracle index per list
(allocator.py lines 181-182). -/
def shuffleDem (S : Shuf) (k0 : Nat) : AList (List Nat) → AList (List Nat)
  | [] => []
  | p :: t => (p.1, S.shufN k0 p.2) :: shuffleDem S (k0 + 1) t

/-- Admission for one activity at one rank (allocator.py lines 183-189):
`spots = capacity - len(enrolled)`, admit `candidates[:spots]`.
With the capacity invariant `len(enrolled) ≤ capacity` the Nat subtraction
agrees with Python's int subtraction. -/
def admitHug (period : String) (prefRank : Nat) (st : PSt) (hug : String)
    (cands : List Nat) : PSt :=
  match lookupA st.hp hug with
  | none => st
  | some info =>
    let spots := info.capacity - info.enrolled.length
    (cands.take spots).foldl
      (fun s idx => assignIdx s period hug (prefStr (prefRank + 1)) idx) st

/-- One full preference-rank round (allocator.py lines 168-190 and 192-213;
the two source loops share this body): collect demand, shuffle each pool,
admit up to capacity, then refilter the unassigned list. -/
def processRank (S : Shuf) (periods : List String) (period : String)
    (st : PSt) (prefRank : Nat) (ul : List Nat) : PSt × List Nat :=
  let dem := collectDemanders st.campers st.hp periods period prefRank ul
  let dem2 := shuffleDem S st.rk dem
  let st1 := { st with rk := st.rk + dem.length }
  let st2 := dem2.foldl (fun s p => admitHug period prefRank s p.1 p.2) st1
  let ul2 := ul.filter fun i =>
    match st2.campers.get? i with
    | some c => (lookupAssn c period).hug.isNone
    | none => false
  (st2, ul2)

/-- Random-fill pass (allocator.py lines 214-228): shuffle the activities that
still have room, then give each remaining camper (skipping campers with an
empty preference list for this period) the first one with current room that
they do not already hold in another period. -/
def randomFill (S : Shuf) (periods : List String) (period : String)
    (st : PSt) (ul : List Nat) : PSt :=
  let avail := availableHugs st.hp
  let availSh := S.shufS st.rk avail
  let st1 := { st with rk := st.rk + 1 }
  ul.foldl (fun s idx =>
    match s.campers.get? idx with
    | none => s
    | some c =>
      if (lookupPrefs c period).isEmpty then s
      else
        match availSh.find? (fun hug =>
          match lookupA s.hp hug with
          | some info =>
            decide (info.enrolled.length < info.capacity) &&
              !(alreadyHasHug periods c period hug)
          | none => false) with
        | some hug => assignIdx s period hug "Random" idx
        | none => s) st1

/-- Reason annotation (allocator.py lines 229-232): every camper from the
post-rank unassigned list that is still without an activity gets the
diagnostic string written into the `how` field of the assignment record. -/
def annotateReasons (period : String) (st : PSt) (ul : List Nat) : PSt :=
  { st with
    campers := ul.foldl (fun cs idx =>
      match cs.get? idx with
      | none => cs
      | some c =>
        if (lookupAssn c period).hug.isNone
        then cs.set idx (setHow c period (some (getUnassignmentReason cs idx period st.hp)))
        else cs) st.campers }

/-- The full `assign_period` (allocator.py lines 147-232).  `K` is the module
global `PREFERENCES_PER_PERIOD`; the source runs ranks 0,1,2 and then
3..K-1, which is exactly the ranks `0..max 3 K - 1` (ranks past a camper's
list length collect no demand). -/
def assignPeriodSt (S : Shuf) (K : Nat) (period : String) (st0 : PSt) : PSt :=
  let periods := periodsOf st0.campers
  let ul0 := sortByScore st0.campers (unassignedIdxs st0.campers period)
  let ranks := List.range (max 3 K)
  let r1 := ranks.foldl
    (fun (acc : PSt × List Nat) r => processRank S periods period acc.1 r acc.2)
    (st0, ul0)
  let st2 := randomFill S periods period r1.1 r1.2
  annotateReasons period st2 r1.2

/-- Whole-week allocation state: campers, the full per-period registry, and
the shuffle-call counter. -/
structure GState where
  campers : List Camper
  hugim : AList (AList HugInfo)
  rk : Nat
deriving DecidableEq

/-- Run `assign_period(campers, hugim[period], period)` and write the mutated
period slice back (Python mutates it through the alias). -/
def assignPeriodG (S : Shuf) (K : Nat) (period : String) (g : GState) : GState :=
  let st := assignPeriodSt S K period ⟨g.campers, (lookupA g.hugim period).getD [], g.rk⟩
  ⟨st.campers, updateA g.hugim period fun _ => st.hp, st.rk⟩

/-- Cross-period enrollment aggregation `hug_to_campers`
(data_helpers.py lines 95-99). -/
def hugToCampers (hugim : AList (AList HugInfo)) : AList (List String) :=
  hugim.foldl (fun acc pp =>
    pp.2.foldl (fun acc2 ph =>
      setA acc2 ph.1 (unionS ((lookupA acc2 ph.1).getD []) ph.2.enrolled)) acc) []

/-- Per-activity minimum table `hug_minimums` (data_helpers.py lines 102-105):
plain dict writes, so for an activity offered in several periods the value of
the last period instance in iteration order wins. -/
def hugMinimums (hugim : AList (AList HugInfo)) : AList Nat :=
  hugim.foldl (fun acc pp =>
    pp.2.foldl (fun acc2 ph => setA acc2 ph.1 ph.2.min) acc) []

/-- Periods in which the activity is offered and has a free seat
(data_helpers.py lines 121-122). -/
def periodsWithRoom (hugim : AList (AList HugInfo)) (hug : String) : List String :=
  (hugim.filter fun pp =>
    match lookupA pp.2 hug with
    | some info => info.enrolled.length < info.capacity
    | none => false).map Prod.fst

/-- Working state of `fill_minimums`. -/
structure FState where
  campers : List Camper
  hugim : AList (AList HugInfo)
  htc : AList (List String)
  rk : Nat
deriving DecidableEq

/-- Force one camper into the activity in period `p`
(data_helpers.py lines 126-131). -/
def forcedAssign (st : FState) (idx : Nat) (c : Camper) (p hug : String) : FState :=
  { st with
    campers := st.campers.set idx (setAssn c p ⟨some hug, some "Forced_minimum"⟩)
    hugim := updateA st.hugim p fun m =>
      updateA m hug fun info => { info with enrolled := insertS info.enrolled c.camperID }
    htc := setA st.htc hug (insertS ((lookupA st.htc hug).getD []) c.camperID) }

/-- The camper loop of `fill_minimums` for one deficient activity
(data_helpers.py lines 120-134): for each candidate camper in shuffled order,
assign them into the first period instance with room where they are free;
stop once the shortfall reaches zero. -/
def fillCampersLoop (hug : String) : List Nat → Nat → FState → FState
  | [], _, st => st
  | idx :: rest, missing, st =>
    match st.campers.get? idx with
    | none => fillCampersLoop hug rest missing st
    | some c =>
      let pwr := periodsWithRoom st.hugim hug
      match pwr.find? (fun p => (lookupAssn c p).hug.isNone) with
      | some p =>
        let st1 := forcedAssign st idx c p hug
        if missing - 1 = 0 then st1 else fillCampersLoop hug rest (missing - 1) st1
      | none => fillCampersLoop hug rest missing st

/-- The working-state part of the force-fill Minimum Enforcer `fill_minimums`
(data_helpers.py lines 92-144): for each activity whose aggregated
cross-period enrollment is below its (last-instance) minimum, force in
shuffled not-yet-enrolled campers. -/
def fillMinimumsF (S : Shuf) (g : GState) : FState :=
  let st0 : FState := ⟨g.campers, g.hugim, hugToCampers g.hugim, g.rk⟩
  (hugMinimums g.hugim).foldl (fun st pr =>
    let hug := pr.1
    let requiredMin := pr.2
    let haveNow := ((lookupA st.htc hug).getD []).length
    if requiredMin ≤ haveNow then st
    else
      let availIdx := (List.range st.campers.length).filter fun i =>
        match st.campers.get? i with
        | some c => !(decide (c.camperID ∈ (lookupA st.htc hug).getD []))
        | none => false
      let availSh := S.shufN st.rk availIdx
      fillCampersLoop hug availSh (requiredMin - haveNow) { st with rk := st.rk + 1 }) st0

/-- The force-fill Minimum Enforcer `fill_minimums` (data_helpers.py
lines 92-144); the working `hug_to_campers` table is dropped at return. -/
def fillMinimums (S : Shuf) (g : GState) : GState :=
  let stf := fillMinimumsF S g
  ⟨stf.campers, stf.hugim, stf.rk⟩

/-- Working state of `enforce_minimums_cancel_and_reallocate`: campers,
registry, and `canceled_hugs_by_period`. -/
structure EState where
  campers : List Camper
  hugim : AList (AList HugInfo)
  canceled : AList (List String)
deriving DecidableEq

/-- Clear every camper's assignment for the canceled (activity, period) pair
(data_helpers.py lines 55-59). -/
def clearAssignments (campers : List Camper) (period hug : String) : List Camper :=
  campers.map fun c =>
    if (lookupAssn c period).hug == some hug
    then setAssn c period ⟨none, none⟩
    else c

/-- Cancel one under-minimum instance (data_helpers.py lines 53-63). -/
def cancelHug (st : EState) (period hug : String) : EState :=
  { campers := clearAssignments st.campers period hug
    hugim := updateA st.hugim period fun m => eraseA m hug
    canceled := setA st.canceled period (insertS ((lookupA st.canceled period).getD []) hug) }

/-- Cancel every under-minimum instance of one period, from a snapshot of the
period's keys (data_helpers.py lines 47-63); the Bool is whether anything
was canceled. -/
def cancelPeriod (st : EState) (period : String) : EState × Bool :=
  let m := (lookupA st.hugim period).getD []
  let under := (m.filter fun ph => ph.2.enrolled.length < ph.2.min).map Prod.fst
  (under.foldl (fun s hug => cancelHug s period hug) st, !under.isEmpty)

/-- One step of pass 1: handle one period and accumulate the `changes` flag. -/
def cancelStep (acc : EState × Bool) (period : String) : EState × Bool :=
  let r := cancelPeriod acc.1 period
  (r.1, acc.2 || r.2)

/-- Pass 1 of a loop iteration: cancel under-minimum instances in every
period; the Bool is the `changes` flag (data_helpers.py lines 44-63). -/
def cancelStage (st : EState) : EState × Bool :=
  (st.hugim.map Prod.fst).foldl cancelStep (st, false)

/-- Scan the camper's preference list (with its index) for the first activity
that is not canceled, is offered with room, and is not held in another period
(data_helpers.py lines 69-77). -/
def findPref (hugim : AList (AList HugInfo)) (canceled : AList (List String))
    (c : Camper) (period : String) : List String → Nat → Option (String × Nat)
  | [], _ => none
  | pref :: rest, i =>
    if decide (pref ∈ (lookupA canceled period).getD []) then
      findPref hugim canceled c period rest (i + 1)
    else
      match lookupA ((lookupA hugim period).getD []) pref with
      | some info =>
        if decide (info.enrolled.length < info.capacity) &&
            c.assignments.all (fun pa => (pa.1 == period) || !(pa.2.hug == some pref))
        then some (pref, i)
        else findPref hugim canceled c period rest (i + 1)
      | none => findPref hugim canceled c period rest (i + 1)

/-- Reallocate one unassigned camper in one period to their best remaining
preference, recording the rank actually achieved
(data_helpers.py lines 66-82). -/
def tryRealloc (st : EState) (period : String) (idx : Nat) : EState :=
  match st.campers.get? idx with
  | none => st
  | some c =>
    if (lookupAssn c period).hug.isNone then
      match findPref st.hugim st.canceled c period (lookupPrefs c period) 0 with
      | some pr =>
        { st with
          campers := st.campers.set idx
            (setAssn c period ⟨some pr.1, some (prefStr (pr.2 + 1))⟩)
          hugim := updateA st.hugim period fun m =>
            updateA m pr.1 fun info => { info with enrolled := insertS info.enrolled c.camperID } }
      | none => st
    else st

/-- Pass 2 of a loop iteration: redistribute unassigned campers
(data_helpers.py lines 64-82). -/
def reallocStage (st : EState) : EState :=
  (st.hugim.map Prod.fst).foldl (fun s period =>
    (List.range s.campers.length).foldl (fun s2 idx => tryRealloc s2 period idx) s) st

/-- Total number of activity instances remaining in the registry. -/
def instanceCount (st : EState) : Nat :=
  (st.hugim.map fun pp => pp.2.length).sum

/-- The fixed-point loop of `enforce_minimums_cancel_and_reallocate`
(data_helpers.py lines 42-82), with explicit fuel.  Returns the pass count,
the final state, and whether the fixed point was reached within the fuel. -/
def enforcePassesF : Nat → EState → Nat × EState × Bool
  | 0, st => (0, st, false)
  | fuel + 1, st =>
    let r := cancelStage st
    let st2 := reallocStage r.1
    if r.2 then
      let rec' := enforcePassesF fuel st2
      (rec'.1 + 1, rec'.2.1, rec'.2.2)
    else (1, st2, true)

/-- Initial `canceled_hugs_by_period`: an empty set per period
(data_helpers.py line 41). -/
def emptyCanceled (hugim : AList (AList HugInfo)) : AList (List String) :=
  hugim.map fun pp => (pp.1, ([] : List String))

/-- The cancel-and-reallocate Minimum Enforcer.  The fuel
`instanceCount + 1` always suffices (proved below), so this is the loop's
exact fixed point. -/
def enforceMinimums (g : GState) : EState :=
  let st0 : EState := ⟨g.campers, g.hugim, emptyCanceled g.hugim⟩
  (enforcePassesF (instanceCount st0 + 1) st0).2.1

/-- Number of executions of the `while changes:` body. -/
def passCount (st : EState) : Nat :=
  (enforcePassesF (instanceCount st + 1) st).1

/-- The Python list `str.split('_')` on the character level. -/
def splitChar (c : Char) : List Char → List (List Char)
  | [] => [[]]
  | x :: t =>
    let r := splitChar c t
    if x = c then [] :: r else (x :: r.headD []) :: r.tail

/-- Python `how.split('_')`. -/
def pySplitUnderscore (s : String) : List String :=
  (splitChar '_' s.toList).map fun l => String.mk l

/-- Python `str.startswith`. -/
def pyStartsWith (s pre : String) : Bool :=
  pre.toList.isPrefixOf s.toList

/-- Python `int(...)` on a digit string; `none` stands for the `ValueError`
case, which the engine-produced method strings never hit. -/
def pyToNat (l : List Char) : Option Nat :=
  if !l.isEmpty && l.all (fun ch => ch.isDigit)
  then some (l.foldl (fun n ch => n * 10 + (ch.toNat - 48)) 0)
  else none

/-- The scoring table `PREF_POINTS = {1:5, 2:4, 3:3, 4:2, 5:1}` with
`.get(n, 0)` (allocator.py lines 236, 243). -/
def PREF_POINTS (n : Nat) : Int :=
  if n = 1 then 5 else if n = 2 then 4 else if n = 3 then 3
  else if n = 4 then 2 else if n = 5 then 1 else 0

/-- Parse `int(how.split('_')[1])` out of a method string. -/
def rankOfHow (s : String) : Option Nat :=
  pyToNat ((pySplitUnderscore s).getD 1 "").toList

/-- Contribution of one period's method to the weekly score (allocator.py
lines 240-244): `Pref_n` scores `PREF_POINTS.get(n, 0)`, everything else 0. -/
def methodPoints (how : Option String) : Int :=
  match how with
  | none => 0
  | some s =>
    if s = "" then 0
    else if pyStartsWith s "Pref_" then
      match rankOfHow s with
      | some n => PREF_POINTS n
      | none => 0
    else 0

/-- Weekly score: sum of the per-period method points (allocator.py lines 237-244). -/
def weeklyScore (c : Camper) : Int :=
  c.assignments.foldl (fun acc pa => acc + methodPoints pa.2.how) 0

/-- The Scorer `calculate_and_store_weekly_scores` (allocator.py lines 234-245):
append each camper's weekly score to their score history. -/
def calcStoreWeeklyScores (campers : List Camper) : List Camper :=
  campers.map fun c => { c with scoreHistory := c.scoreHistory ++ [weeklyScore c] }

/-- The driver `run_allocation` (allocator.py lines 247-250): one
`assign_period` per period in order, then `fill_minimums`. -/
def runAllocation (S : Shuf) (K : Nat) (periods : List String) (g : GState) : GState :=
  fillMinimums S (periods.foldl (fun g2 p => assignPeriodG S K p g2) g)

/-- One row of the Assignment Table (allocator.py lines 266-273): camper id,
per-period activity (or empty), per-period method (or empty), latest weekly
score, cumulative score. -/
def assignmentRow (periods : List String) (c : Camper) :
    String × List String × List String × Int × Int :=
  (c.camperID,
   periods.map fun p => ((lookupAssn c p).hug).getD "",
   periods.map fun p => ((lookupAssn c p).how).getD "",
   (c.scoreHistory.getLast?).getD 0,
   c.scoreHistory.sum)

/-- The Assignment Table of `save_assignments` (allocator.py lines 254-274). -/
def assignmentTable (campers : List Camper) :
    List (String × List String × List String × Int × Int) :=
  campers.map (assignmentRow (periodsOf campers))

/-- The app's allocation pipeline up to the Assignment Table:
`run_allocation`, then the Scorer, then the table
(streamlit_app.py lines 418-428). -/
def fullTable (S : Shuf) (K : Nat) (periods : List String) (g : GState) :
    List (String × List String × List String × Int × Int) :=
  assignmentTable (calcStoreWeeklyScores (runAllocation S K periods g).campers)

/-! ## Invariants and specification predicates -/

/-- Capacity invariant for one period's registry slice. -/
def CapInv1 (hp : AList HugInfo) : Prop :=
  ∀ ph ∈ hp, ph.2.enrolled.length ≤ ph.2.capacity

/-- Capacity invariant: every instance's enrolled count is at most its capacity. -/
def CapInv (hugim : AList (AList HugInfo)) : Prop :=
  ∀ pp ∈ hugim, CapInv1 pp.2

/-- Uniqueness for one camper: no activity is the assignment of two different
periods. -/
def camperUnique (c : Camper) : Prop :=
  ∀ p1 ∈ c.assignments.map Prod.fst, ∀ p2 ∈ c.assignments.map Prod.fst,
    p1 ≠ p2 →
      (lookupAssn c p1).hug = none ∨ (lookupAssn c p1).hug ≠ (lookupAssn c p2).hug

/-- Uniqueness invariant over all campers. -/
def UniqueInv (campers : List Camper) : Prop :=
  ∀ c ∈ campers, camperUnique c

/-- One assignment record is mirrored in the registry: the assigned activity
exists in that period and the camper id is in its enrolled set. -/
def assnConsistB (hugim : AList (AList HugInfo)) (c : Camper) (pa : String × Assn) : Bool :=
  match pa.2.hug with
  | none => true
  | some h =>
    match lookupA hugim pa.1 with
    | some m =>
      match lookupA m h with
      | some info => decide (c.camperID ∈ info.enrolled)
      | none => false
    | none => false

/-- Consistency invariant: every recorded assignment is mirrored in the
registry's enrolled sets. -/
def ConsistInv (campers : List Camper) (hugim : AList (AList HugInfo)) : Prop :=
  ∀ c ∈ campers, ∀ p ∈ c.assignments.map Prod.fst,
    assnConsistB hugim c (p, lookupAssn c p) = true

/-- The camper holds the activity in no period other than `period`. -/
def NoOtherHold (c : Camper) (period hug : String) : Prop :=
  ∀ p, p ≠ period → (lookupAssn c p).hug ≠ some hug

/-- Every camper assigned in this period is enrolled in the period slice. -/
def PeriodConsist (campers : List Camper) (hp : AList HugInfo) (period : String) : Prop :=
  ∀ c ∈ campers, ∀ h, (lookupAssn c period).hug = some h →
    ∃ info, lookupA hp h = some info ∧ c.camperID ∈ info.enrolled

/-- The period slice evolves by enrollment growth (lookup view). -/
def GrowL (hp hp2 : AList HugInfo) : Prop :=
  ∀ h info, lookupA hp h = some info →
    ∃ info2, lookupA hp2 h = some info2 ∧ info.enrolled ⊆ info2.enrolled

/-- Well-formedness: every camper's assignment keys are exactly the period
list, and the registry's keys are the period list. -/
def WFState (periods : List String) (g : GState) : Prop :=
  (∀ c ∈ g.campers, c.assignments.map Prod.fst = periods) ∧
    g.hugim.map Prod.fst = periods

/-- The closed method set of the spec (plus the persisted diagnostic reasons,
which the code does store in `how`): shape of a final assignment record. -/
def methodOK (a : Assn) : Prop :=
  match a.hug with
  | some _ =>
    a.how = some "Random" ∨ a.how = some "Forced_minimum" ∨ ∃ n, a.how = some (prefStr n)
  | none => a.how = none ∨ ∃ s ∈ ReasonStrings, a.how = some s

/-- Relation between a camper before and after the cancel-and-reallocate
enforcer: identity and prefs fixed, and each period's record is unchanged,
cleared, or set to a preference at its true rank. -/
def ReassignOK (c0 c : Camper) : Prop :=
  c.camperID = c0.camperID ∧ c.preferences = c0.preferences ∧
    c.scoreHistory = c0.scoreHistory ∧
    c.assignments.map Prod.fst = c0.assignments.map Prod.fst ∧
    ∀ p ∈ c.assignments.map Prod.fst,
      lookupAssn c p = lookupAssn c0 p ∨ lookupAssn c p = ⟨none, none⟩ ∨
        ∃ i h, (lookupPrefs c0 p).get? i = some h ∧
          lookupAssn c p = ⟨some h, some (prefStr (i + 1))⟩

/-- Mins of the instances of one activity, in registry iteration order. -/
def minsList (hugim : AList (AList HugInfo)) (hug : String) : List Nat :=
  hugim.foldl (fun acc pp =>
    acc ++ (pp.2.filter fun ph => ph.1 = hug).map fun ph => ph.2.min) []

/-- Freshly loaded campers: every assignment record is `{'hug': None, 'how': None}`. -/
def FreshAssignments (campers : List Camper) : Prop :=
  ∀ c ∈ campers, ∀ pa ∈ c.assignments, pa.2 = (⟨none, none⟩ : Assn)

/-- Shape invariant for stored methods (the amended C5 property). -/
def MethodInvariant (campers : List Camper) : Prop :=
  ∀ c ∈ campers, ∀ pa ∈ c.assignments, methodOK pa.2

/-- Within one `assign_period` run, a camper record can change only in the
current period: identity, preferences, score history, assignment keys and all
other periods' records are fixed. -/
def OutsideEq (period : String) (c c' : Camper) : Prop :=
  c'.camperID = c.camperID ∧ c'.preferences = c.preferences ∧
    c'.scoreHistory = c.scoreHistory ∧
    c'.assignments.map Prod.fst = c.assignments.map Prod.fst ∧
    ∀ p, p ≠ period → lookupAssn c' p = lookupAssn c p

/-- Pointwise `OutsideEq` over the camper list. -/
def OutsideEqL (period : String) (campers campers' : List Camper) : Prop :=
  List.Forall₂ (OutsideEq period) campers campers'

/-- One instance evolves by enrollment growth only. -/
def InfoGrow (a b : HugInfo) : Prop :=
  b.capacity = a.capacity ∧ b.min = a.min ∧ a.enrolled ⊆ b.enrolled

/-- One period slice evolves by enrollment growth only. -/
def MapGrow (m m' : AList HugInfo) : Prop :=
  List.Forall₂ (fun ph ph' => ph'.1 = ph.1 ∧ InfoGrow ph.2 ph'.2) m m'

/-- The whole registry evolves by enrollment growth only. -/
def HugimGrow (h h' : AList (AList HugInfo)) : Prop :=
  List.Forall₂ (fun pp pp' => pp'.1 = pp.1 ∧ MapGrow pp.2 pp'.2) h h'

/-- Canceled bookkeeping invariant of the cancel-and-reallocate loop: a
canceled (activity, period) pair is out of the registry and is nobody's
assignment. -/
def CancInv (st : EState) : Prop :=
  (∀ p cs, lookupA st.canceled p = some cs →
    ∀ h ∈ cs, lookupA ((lookupA st.hugim p).getD []) h = none) ∧
  (∀ c ∈ st.campers, ∀ p cs, lookupA st.canceled p = some cs →
    ∀ h ∈ cs, (lookupAssn c p).hug ≠ some h)

/-- The `hug_to_campers` table covers every enrolled set of its activity. -/
def HtcSup (st : FState) : Prop :=
  ∀ pp ∈ st.hugim, ∀ ph ∈ pp.2, ph.2.enrolled ⊆ (lookupA st.htc ph.1).getD []

/-- Every remaining instance meets its minimum. -/
def MinSat (hugim : AList (AList HugInfo)) : Prop :=
  ∀ pp ∈ hugim, ∀ ph ∈ pp.2, ph.2.min ≤ ph.2.enrolled.length

instance (hp : AList HugInfo) : Decidable (CapInv1 hp) := by
  unfold CapInv1; infer_instance

instance (h : AList (AList HugInfo)) : Decidable (CapInv h) := by
  unfold CapInv; infer_instance

instance (c : Camper) : Decidable (camperUnique c) := by
  unfold camperUnique; infer_instance

instance (campers : List Camper) : Decidable (UniqueInv campers) := by
  unfold UniqueInv; infer_instance

instance (campers : List Camper) (h : AList (AList HugInfo)) :
    Decidable (ConsistInv campers h) := by
  unfold ConsistInv; infer_instance

instance (periods : List String) (g : GState) : Decidable (WFState periods g) := by
  unfold WFState; infer_instance

instance (campers : List Camper) : Decidable (FreshAssignments campers) := by
  unfold FreshAssignments; infer_instance

/-- Facts recorded for each member of a rank-r demand list at collection time
(allocator.py lines 170-179): the camper exists, their rank-r preference is
exactly this activity, the activity is offered, and the cross-period check
passed. -/
def DemOK (campers : List Camper) (hp : AList HugInfo) (periods : List String)
    (period : String) (prefRank : Nat) (hug : String) (idx : Nat) : Prop :=
  ∃ c, campers.get? idx = some c ∧ (lookupPrefs c period).get? prefRank = some hug ∧
    (lookupA hp hug).isSome = true ∧ alreadyHasHug periods c period hug = false

/-- Invariant of the demand-collection fold: keys are distinct, each demand
list is duplicate-free, drawn from the already-processed camper indices, made
of campers satisfying `DemOK`, and the lists are pairwise disjoint. -/
def DemInv (campers : List Camper) (hp : AList HugInfo) (periods : List String)
    (period : String) (prefRank : Nat) (seen : List Nat) (dem : AList (List Nat)) : Prop :=
  (dem.map Prod.fst).Nodup ∧
  ∀ h xs, lookupA dem h = some xs → xs.Nodup ∧
    (∀ i ∈ xs, i ∈ seen ∧ DemOK campers hp periods period prefRank h i) ∧
    ∀ h2 xs2, lookupA dem h2 = some xs2 → h ≠ h2 → ∀ i ∈ xs, i ∉ xs2

/-! ## Concrete states used by witnesses and counterexamples -/

/-- Two-camper, two-period input with all invariants satisfied. -/
def exCamperA : Camper :=
  ⟨"A", [("Aleph", ["X", "Y"]), ("Beth", ["Y"])],
   [("Aleph", ⟨none, none⟩), ("Beth", ⟨none, none⟩)], []⟩

/-- Second camper of the witness input, with a prior score. -/
def exCamperB : Camper :=
  ⟨"B", [("Aleph", ["X"]), ("Beth", ["X"])],
   [("Aleph", ⟨none, none⟩), ("Beth", ⟨none, none⟩)], [2]⟩

/-- Witness registry: two periods, two activities each. -/
def exRegW : AList (AList HugInfo) :=
  [("Aleph", [("X", ⟨1, 0, []⟩), ("Y", ⟨2, 1, []⟩)]),
   ("Beth", [("X", ⟨1, 0, []⟩), ("Y", ⟨2, 0, []⟩)])]

/-- Witness allocation state. -/
def gW : GState := ⟨[exCamperA, exCamperB], exRegW, 0⟩

/-- Low-priority camper (cumulative score 0) wanting X at rank 1. -/
def exC3lo : Camper := ⟨"A", [("P", ["X"])], [("P", ⟨none, none⟩)], [0]⟩

/-- High-priority-score camper (cumulative score 10) wanting X at rank 1. -/
def exC3hi : Camper := ⟨"B", [("P", ["X"])], [("P", ⟨none, none⟩)], [10]⟩

/-- One seat, two demanders: the shuffle decides who gets it. -/
def exC3st : PSt := ⟨[exC3lo, exC3hi], [("X", ⟨1, 0, []⟩)], 0⟩

/-- Two seats, two demanders: capacity covers the whole demand pool. -/
def exC3wst : PSt := ⟨[exC3lo, exC3hi], [("X", ⟨2, 0, []⟩)], 0⟩

/-- One camper who wants the one zero-capacity activity. -/
def exC5c : Camper := ⟨"A", [("P", ["X"])], [("P", ⟨none, none⟩)], []⟩

/-- State on which the run leaves a diagnostic string in the record. -/
def gC5 : GState := ⟨[exC5c], [("P", [("X", ⟨0, 0, []⟩)])], 0⟩

/-- A camper with an empty preference list for period P. -/
def exC6c : Camper := ⟨"E", [("P", [])], [("P", ⟨none, none⟩)], []⟩

/-- Empty-preferences camper while every activity is full. -/
def exC6cexSt : PSt := ⟨[exC6c], [("X", ⟨0, 0, []⟩)], 0⟩

/-- Empty-preferences camper while a seat is free. -/
def exC6witSt : PSt := ⟨[exC6c], [("X", ⟨1, 0, []⟩)], 0⟩

/-- Registry with a single instance below its minimum, no campers. -/
def gC8 : GState := ⟨[], [("P", [("X", ⟨5, 5, []⟩)])], 0⟩

/-- The corresponding enforcer start state. -/
def exC8E : EState := ⟨gC8.campers, gC8.hugim, emptyCanceled gC8.hugim⟩

/-- Enforcer witness input: X is under minimum, its enrollee can move to Y. -/
def gC4 : GState :=
  ⟨[⟨"A", [("P", ["X", "Y"])], [("P", ⟨some "X", some "Pref_1"⟩)], []⟩],
   [("P", [("X", ⟨5, 2, ["A"]⟩), ("Y", ⟨5, 0, []⟩)])], 0⟩

/-- An idle camper for the force-fill contrast examples. -/
def exC10c : Camper :=
  ⟨"B", [("P1", []), ("P2", [])], [("P1", ⟨none, none⟩), ("P2", ⟨none, none⟩)], []⟩

/-- X offered twice: first instance min 3, last instance min 1; one enrollee. -/
def gC10last : GState :=
  ⟨[exC10c], [("P1", [("X", ⟨5, 3, ["A"]⟩)]), ("P2", [("X", ⟨5, 1, []⟩)])], 0⟩

/-- Same registry with the min values swapped (last instance min 3). -/
def gC10swap : GState :=
  ⟨[exC10c], [("P1", [("X", ⟨5, 1, ["A"]⟩)]), ("P2", [("X", ⟨5, 3, []⟩)])], 0⟩

/-! ## Base lemmas: association lists, set lists, sorting, folds -/

theorem lookupA_mem {α : Type} {l : AList α} {k : String} {v : α}
    (h : lookupA l k = some v) : (k, v) ∈ l := by
  induction l with
  | nil => simp [lookupA] at h
  | cons p t ih =>
    obtain ⟨k0, v0⟩ := p
    by_cases hk : k0 = k
    · subst hk
      simp [lookupA] at h
      simp [h]
    · simp [lookupA, hk] at h
      exact List.mem_cons_of_mem _ (ih h)

theorem lookupA_isSome_iff {α : Type} {l : AList α} {k : String} :
    (lookupA l k).isSome ↔ k ∈ l.map Prod.fst := by
  induction l with
  | nil => simp [lookupA]
  | cons p t ih =>
    obtain ⟨k0, v0⟩ := p
    by_cases hk : k0 = k
    · subst hk; simp [lookupA]
    · simp [lookupA, hk, ih, Ne.symm hk]

theorem lookupA_eq_none {α : Type} {l : AList α} {k : String}
    (h : k ∉ l.map Prod.fst) : lookupA l k = none := by
  cases hl : lookupA l k with
  | none => rfl
  | some v =>
    exact absurd (lookupA_isSome_iff.1 (by simp [hl])) h

theorem lookupA_of_nodup_mem {α : Type} {l : AList α} {k : String} {v : α}
    (hnd : (l.map Prod.fst).Nodup) (h : (k, v) ∈ l) : lookupA l k = some v := by
  induction l with
  | nil => simp at h
  | cons p t ih =>
    obtain ⟨k0, v0⟩ := p
    rw [List.map_cons, List.nodup_cons] at hnd
    rcases List.mem_cons.1 h with h1 | h1
    · have h2 : k0 = k := (Prod.mk.injEq .. ▸ h1.symm).1
      have h3 : v0 = v := (Prod.mk.injEq .. ▸ h1.symm).2
      simp [lookupA, h2, h3]
    · have hk : k0 ≠ k := by
        intro he
        subst he
        exact hnd.1 (List.mem_map.2 ⟨(k0, v), h1, rfl⟩)
      simp [lookupA, hk]
      exact ih hnd.2 h1

theorem updateA_eq_of_lookup_none {α : Type} {l : AList α} {k : String} (f : α → α)
    (h : lookupA l k = none) : updateA l k f = l := by
  induction l with
  | nil => rfl
  | cons p t ih =>
    obtain ⟨k0, v0⟩ := p
    by_cases hk : k0 = k
    · subst hk; simp [lookupA] at h
    · simp [lookupA, hk] at h
      simp [updateA, hk, ih h]

theorem updateA_split {α : Type} {l : AList α} {k : String} {v : α} (f : α → α)
    (h : lookupA l k = some v) :
    ∃ l1 l2, l = l1 ++ (k, v) :: l2 ∧ (∀ pr ∈ l1, pr.1 ≠ k) ∧
      updateA l k f = l1 ++ (k, f v) :: l2 := by
  induction l with
  | nil => simp [lookupA] at h
  | cons p t ih =>
    obtain ⟨k0, v0⟩ := p
    by_cases hk : k0 = k
    · subst hk
      simp [lookupA] at h
      exact ⟨[], t, by simp [h], by simp, by simp [updateA, h]⟩
    · simp [lookupA, hk] at h
      obtain ⟨l1, l2, he, hn, hu⟩ := ih h
      exact ⟨(k0, v0) :: l1, l2, by simp [he], by simpa [hk] using hn,
        by simp [updateA, hk, hu]⟩

theorem lookupA_append {α : Type} (l1 l2 : AList α) (k : String) :
    lookupA (l1 ++ l2) k = ((lookupA l1 k).or (lookupA l2 k)) := by
  induction l1 with
  | nil => simp [lookupA]
  | cons p t ih =>
    obtain ⟨k0, v0⟩ := p
    by_cases hk : k0 = k
    · simp [lookupA, hk]
    · simp [lookupA, hk, ih]

theorem lookupA_updateA {α : Type} (l : AList α) (k k' : String) (f : α → α) :
    lookupA (updateA l k f) k' =
      if k' = k then (lookupA l k).map f else lookupA l k' := by
  induction l with
  | nil => simp [lookupA, updateA]
  | cons p t ih =>
    obtain ⟨k0, v0⟩ := p
    by_cases hk : k0 = k
    · subst hk
      by_cases hk' : k0 = k'
      · subst hk'; simp [updateA, lookupA]
      · have : ¬(k' = k0) := fun he => hk' he.symm
        simp [updateA, lookupA, hk', this]
    · by_cases hk' : k0 = k'
      · subst hk'
        have : ¬(k0 = k) := hk
        simp [updateA, lookupA, this, ih]
      · simp [updateA, lookupA, hk, hk', ih]

theorem lookupA_updateA_ne {α : Type} (l : AList α) {k k' : String} (f : α → α)
    (h : k' ≠ k) : lookupA (updateA l k f) k' = lookupA l k' := by
  simp [lookupA_updateA, h]

theorem mem_updateA {α : Type} {l : AList α} {k : String} {f : α → α} {pr : String × α}
    (h : pr ∈ updateA l k f) :
    pr ∈ l ∨ ∃ v, lookupA l k = some v ∧ pr = (k, f v) := by
  cases hl : lookupA l k with
  | none => rw [updateA_eq_of_lookup_none f hl] at h; exact Or.inl h
  | some v =>
    obtain ⟨l1, l2, he, _, hu⟩ := updateA_split f hl
    rw [hu] at h
    rcases List.mem_append.1 h with h1 | h1
    · exact Or.inl (he ▸ List.mem_append.2 (Or.inl h1))
    · rcases List.mem_cons.1 h1 with h2 | h2
      · exact Or.inr ⟨v, rfl, h2⟩
      · exact Or.inl (he ▸ List.mem_append.2 (Or.inr (List.mem_cons_of_mem _ h2)))

theorem keys_updateA {α : Type} (l : AList α) (k : String) (f : α → α) :
    (updateA l k f).map Prod.fst = l.map Prod.fst := by
  induction l with
  | nil => rfl
  | cons p t ih =>
    obtain ⟨k0, v0⟩ := p
    by_cases hk : k0 = k <;> simp [updateA, hk, ih]

theorem updateA_updateA {α : Type} (l : AList α) (k : String) (f g : α → α) :
    updateA (updateA l k f) k g = updateA l k (fun v => g (f v)) := by
  induction l with
  | nil => rfl
  | cons p t ih =>
    obtain ⟨k0, v0⟩ := p
    by_cases hk : k0 = k <;> simp [updateA, hk, ih]

theorem lookupA_setA {α : Type} (l : AList α) (k k' : String) (v : α) :
    lookupA (setA l k v) k' = if k' = k then some v else lookupA l k' := by
  unfold setA
  by_cases hs : (lookupA l k).isSome
  · simp [hs]
    obtain ⟨w, hw⟩ := Option.isSome_iff_exists.1 hs
    rw [lookupA_updateA]
    by_cases hk : k' = k <;> simp [hk, hw]
  · simp [hs, lookupA_append]
    have hn : lookupA l k = none := Option.not_isSome_iff_eq_none.1 hs
    by_cases hk : k' = k
    · subst hk; simp [hn, lookupA]
    · have hk2 : ¬(k = k') := fun he => hk he.symm
      simp [lookupA, hk, hk2]

theorem mem_setA {α : Type} {l : AList α} {k : String} {v : α} {pr : String × α}
    (h : pr ∈ setA l k v) : pr ∈ l ∨ pr = (k, v) := by
  unfold setA at h
  by_cases hs : (lookupA l k).isSome
  · simp [hs] at h
    rcases mem_updateA h with h1 | ⟨w, _, h2⟩
    · exact Or.inl h1
    · exact Or.inr h2
  · simp [hs] at h
    exact h

theorem lookupA_pushA {α : Type} (l : AList (List α)) (k k' : String) (x : α) :
    lookupA (pushA l k x) k' =
      if k' = k then some (((lookupA l k).getD []) ++ [x]) else lookupA l k' := by
  unfold pushA
  by_cases hs : (lookupA l k).isSome
  · simp [hs]
    obtain ⟨w, hw⟩ := Option.isSome_iff_exists.1 hs
    rw [lookupA_updateA]
    by_cases hk : k' = k <;> simp [hk, hw]
  · simp [hs, lookupA_append]
    have hn : lookupA l k = none := Option.not_isSome_iff_eq_none.1 hs
    by_cases hk : k' = k
    · subst hk; simp [hn, lookupA]
    · have hk2 : ¬(k = k') := fun he => hk he.symm
      simp [lookupA, hk, hk2]

theorem keys_pushA {α : Type} (l : AList (List α)) (k : String) (x : α) :
    (pushA l k x).map Prod.fst =
      if (lookupA l k).isSome then l.map Prod.fst else l.map Prod.fst ++ [k] := by
  unfold pushA
  by_cases hs : (lookupA l k).isSome <;> simp [hs, keys_updateA]

theorem lookupA_eraseA {α : Type} (l : AList α) (k k' : String) :
    lookupA (eraseA l k) k' = if k' = k then none else lookupA l k' := by
  induction l with
  | nil => simp [lookupA, eraseA]
  | cons p t ih =>
    obtain ⟨k0, v0⟩ := p
    by_cases hk : k0 = k
    · subst hk
      have h1 : eraseA ((k0, v0) :: t) k0 = eraseA t k0 := by simp [eraseA]
      rw [h1, ih]
      by_cases hk' : k' = k0
      · simp [hk']
      · have hk2 : ¬(k0 = k') := fun he => hk' he.symm
        simp [hk', lookupA, hk2]
    · have h1 : eraseA ((k0, v0) :: t) k = (k0, v0) :: eraseA t k := by
        simp [eraseA, hk]
      rw [h1]
      by_cases hk' : k0 = k'
      · subst hk'
        simp [lookupA, hk]
      · simp [lookupA, hk', ih]

theorem mem_eraseA {α : Type} {l : AList α} {k : String} {pr : String × α}
    (h : pr ∈ eraseA l k) : pr ∈ l := by
  exact List.mem_of_mem_filter h

theorem length_eraseA_le {α : Type} (l : AList α) (k : String) :
    (eraseA l k).length ≤ l.length :=
  List.length_filter_le _ _

theorem length_eraseA_lt {α : Type} {l : AList α} {k : String} {v : α}
    (h : (k, v) ∈ l) : (eraseA l k).length < l.length := by
  apply List.length_filter_lt_length_iff_exists.2
  exact ⟨(k, v), h, by simp⟩

theorem length_updateA {α : Type} (l : AList α) (k : String) (f : α → α) :
    (updateA l k f).length = l.length := by
  induction l with
  | nil => rfl
  | cons p t ih =>
    obtain ⟨k0, v0⟩ := p
    by_cases hk : k0 = k <;> simp [updateA, hk, ih]

theorem mem_insertS {x y : String} {l : List String} :
    y ∈ insertS l x ↔ y ∈ l ∨ y = x := by
  unfold insertS
  by_cases h : x ∈ l
  · simp [h]; intro he; exact he ▸ h
  · simp [h]

theorem subset_insertS (l : List String) (x : String) : l ⊆ insertS l x := by
  intro y hy; exact mem_insertS.2 (Or.inl hy)

theorem length_insertS_le (l : List String) (x : String) :
    (insertS l x).length ≤ l.length + 1 := by
  unfold insertS
  by_cases h : x ∈ l <;> simp [h]

theorem mem_unionS {x : String} {l xs : List String} :
    x ∈ unionS l xs ↔ x ∈ l ∨ x ∈ xs := by
  induction xs generalizing l with
  | nil => simp [unionS]
  | cons y t ih =>
    simp only [unionS, List.foldl_cons]
    rw [show (List.foldl insertS (insertS l y) t) = unionS (insertS l y) t from rfl] at *
    rw [ih, mem_insertS]
    constructor
    · rintro (⟨h | h⟩ | h)
      · exact Or.inl h
      · exact Or.inr (by simp [h])
      · exact Or.inr (by simp [h])
    · rintro (h | h)
      · exact Or.inl (Or.inl h)
      · rcases List.mem_cons.1 h with h1 | h1
        · exact Or.inl (Or.inr h1)
        · exact Or.inr h1

theorem subset_unionS_left (l xs : List String) : l ⊆ unionS l xs := by
  intro y hy; exact mem_unionS.2 (Or.inl hy)

theorem subset_unionS_right (l xs : List String) : xs ⊆ unionS l xs := by
  intro y hy; exact mem_unionS.2 (Or.inr hy)

theorem insSorted_perm (le : Nat → Nat → Bool) (x : Nat) (l : List Nat) :
    (insSorted le x l).Perm (x :: l) := by
  induction l with
  | nil => simp [insSorted]
  | cons y t ih =>
    unfold insSorted
    by_cases h : le x y
    · simp [h]
    · simp [h]
      exact (List.Perm.cons y ih).trans (List.Perm.swap x y t)

theorem sortBy_perm (le : Nat → Nat → Bool) (l : List Nat) :
    (sortBy le l).Perm l := by
  induction l with
  | nil => simp [sortBy]
  | cons x t ih =>
    unfold sortBy
    exact (insSorted_perm le x (sortBy le t)).trans (List.Perm.cons x ih)

theorem foldl_pres {α β : Type} (P : α → Prop) (step : α → β → α) (l : List β)
    (init : α) (h : ∀ s x, x ∈ l → P s → P (step s x)) (h0 : P init) :
    P (l.foldl step init) := by
  induction l generalizing init with
  | nil => exact h0
  | cons x t ih =>
    exact ih _ (fun s y hy => h s y (List.mem_cons_of_mem _ hy)) (h _ _ (by simp) h0)

theorem fold_cover {α β : Type} (Q : β → α → Prop) (step : α → β → α) (l : List β)
    (init : α) (mono : ∀ a b x, x ∈ l → Q x a → Q x (step a b))
    (cover : ∀ a b, b ∈ l → Q b (step a b)) :
    ∀ x ∈ l, Q x (l.foldl step init) := by
  induction l generalizing init with
  | nil => simp
  | cons y t ih =>
    intro x hx
    rcases List.mem_cons.1 hx with h1 | h1
    · subst h1
      simp only [List.foldl_cons]
      exact foldl_pres (Q x) step t _
        (fun s z hz => mono s z x (by simp) ) (cover init x (by simp))
    · exact ih _ (fun a b z hz => mono a b z (List.mem_cons_of_mem _ hz))
        (fun a b hb => cover a b (List.mem_cons_of_mem _ hb)) x h1

/-! ## Camper record lemmas -/

theorem keys_setAssn (c : Camper) (p : String) (a : Assn) :
    (setAssn c p a).assignments.map Prod.fst = c.assignments.map Prod.fst :=
  keys_updateA _ _ _

theorem keys_setHow (c : Camper) (p : String) (how : Option String) :
    (setHow c p how).assignments.map Prod.fst = c.assignments.map Prod.fst :=
  keys_updateA _ _ _

theorem lookupAssn_setAssn_ne (c : Camper) {p p' : String} (a : Assn) (h : p' ≠ p) :
    lookupAssn (setAssn c p a) p' = lookupAssn c p' := by
  simp [lookupAssn, setAssn, lookupA_updateA_ne _ _ h]

theorem lookupAssn_setAssn_self (c : Camper) {p : String} (a : Assn)
    (h : (lookupA c.assignments p).isSome) : lookupAssn (setAssn c p a) p = a := by
  obtain ⟨w, hw⟩ := Option.isSome_iff_exists.1 h
  simp [lookupAssn, setAssn, lookupA_updateA, hw]

theorem setAssn_of_lookup_none (c : Camper) {p : String} (a : Assn)
    (h : lookupA c.assignments p = none) : setAssn c p a = c := by
  unfold setAssn
  rw [updateA_eq_of_lookup_none _ h]

theorem lookupAssn_setHow_ne (c : Camper) {p p' : String} (how : Option String)
    (h : p' ≠ p) : lookupAssn (setHow c p how) p' = lookupAssn c p' := by
  simp [lookupAssn, setHow, lookupA_updateA_ne _ _ h]

theorem lookupAssn_setHow_hug (c : Camper) (p p' : String) (how : Option String) :
    (lookupAssn (setHow c p how) p').hug = (lookupAssn c p').hug := by
  by_cases h : p' = p
  · subst h
    cases hl : lookupA c.assignments p' with
    | none => simp [lookupAssn, setHow, lookupA_updateA, hl]
    | some a => simp [lookupAssn, setHow, lookupA_updateA, hl]
  · rw [lookupAssn_setHow_ne c how h]

theorem lookupAssn_setHow_self (c : Camper) {p : String} (how : Option String)
    (h : (lookupA c.assignments p).isSome) :
    lookupAssn (setHow c p how) p = { lookupAssn c p with how := how } := by
  obtain ⟨w, hw⟩ := Option.isSome_iff_exists.1 h
  simp [lookupAssn, setHow, lookupA_updateA, hw]

/-! ## Claim C7: the Scorer -/

theorem foldl_add_method (l : List (String × Assn)) :
    ∀ a : Int, l.foldl (fun acc pa => acc + methodPoints pa.2.how) a =
      a + (l.map fun pa => methodPoints pa.2.how).sum := by
  induction l with
  | nil => intro a; simp
  | cons x t ih =>
    intro a
    simp [List.foldl_cons, ih, add_assoc]

theorem weeklyScore_eq_sum (c : Camper) :
    weeklyScore c = (c.assignments.map fun pa => methodPoints pa.2.how).sum := by
  unfold weeklyScore
  rw [foldl_add_method]
  simp

/-- C7: the Scorer computes each weekly score as the sum over periods of the
fixed weight of the stored assignment method (Pref_1..Pref_5 scoring 5,4,3,2,1
and Random, Forced_minimum and unassigned scoring 0) and appends exactly this
value to the score history, leaving earlier entries unchanged. -/
theorem C7_scorerAppendsWeeklySum : ∀ (campers : List Camper) (i : Nat),
    ((calcStoreWeeklyScores campers).get? i =
      (campers.get? i).map fun c =>
        { c with scoreHistory := c.scoreHistory ++ [weeklyScore c] }) ∧
    (∀ c : Camper, weeklyScore c = (c.assignments.map fun pa => methodPoints pa.2.how).sum) ∧
    methodPoints (some (prefStr 1)) = 5 ∧ methodPoints (some (prefStr 2)) = 4 ∧
    methodPoints (some (prefStr 3)) = 3 ∧ methodPoints (some (prefStr 4)) = 2 ∧
    methodPoints (some (prefStr 5)) = 1 ∧ methodPoints (some "Random") = 0 ∧
    methodPoints (some "Forced_minimum") = 0 ∧ methodPoints none = 0 := by
  intro campers i
  refine ⟨?_, weeklyScore_eq_sum, ?_, ?_, ?_, ?_, ?_, ?_, ?_, ?_⟩
  · unfold calcStoreWeeklyScores
    rw [List.get?_map]
  all_goals decide

/-! ## Claim C9: determinism under a fixed random source -/

/-- C9: two allocation runs on identical camper and activity inputs with the
identical random source produce identical Assignment Tables (per-camper
activity, method, weekly score and cumulative score). -/
theorem C9_deterministicTable :
    ∀ (S : Shuf) (K : Nat) (periods : List String) (g : GState)
      (t1 t2 : List (String × List String × List String × Int × Int)),
    t1 = fullTable S K periods g → t2 = fullTable S K periods g → t1 = t2 := by
  intro S K periods g t1 t2 h1 h2
  rw [h1, h2]

/-- Witness for C9 at a concrete input. -/
theorem C9_deterministicTable_witness :
    fullTable idShuf 2 ["Aleph", "Beth"] gW = fullTable idShuf 2 ["Aleph", "Beth"] gW :=
  C9_deterministicTable idShuf 2 ["Aleph", "Beth"] gW _ _ rfl rfl

/-! ## Claim C10: aggregated minimum comes from the last period instance -/

theorem option_or_none {α : Type} (o : Option α) : o.or none = o := by
  cases o <;> rfl

theorem option_none_or {α : Type} (o : Option α) : (Option.none).or o = o := rfl

theorem option_some_or {α : Type} (a : α) (o : Option α) : (some a).or o = some a := rfl

theorem option_or_assoc {α : Type} (a b c : Option α) :
    (a.or b).or c = a.or (b.or c) := by
  cases a <;> rfl

theorem getLast?_cons_or {α : Type} (x : α) (xs : List α) :
    (x :: xs).getLast? = xs.getLast?.or (some x) := by
  induction xs generalizing x with
  | nil => rfl
  | cons y t ih =>
    rw [List.getLast?_cons_cons, ih y, option_or_assoc, option_some_or]

theorem getLast?_append_or {α : Type} (l1 l2 : List α) :
    (l1 ++ l2).getLast? = l2.getLast?.or l1.getLast? := by
  induction l1 with
  | nil => simp [option_or_none]
  | cons x t ih =>
    rw [List.cons_append, getLast?_cons_or, ih, getLast?_cons_or, option_or_assoc]

theorem minsList_step (hug : String) :
    ∀ (l : List (String × AList HugInfo)) (acc : List Nat),
      l.foldl (fun acc pp =>
        acc ++ (pp.2.filter fun ph => ph.1 = hug).map fun ph => ph.2.min) acc =
      acc ++ l.foldl (fun acc pp =>
        acc ++ (pp.2.filter fun ph => ph.1 = hug).map fun ph => ph.2.min) [] := by
  intro l
  induction l with
  | nil => intro acc; simp
  | cons pp t ih =>
    intro acc
    simp only [List.foldl_cons, List.nil_append]
    rw [ih]
    conv_rhs => rw [ih]
    simp [List.append_assoc]

theorem lookup_innerMin (hug : String) (m : AList HugInfo) :
    ∀ acc : AList Nat,
      lookupA (m.foldl (fun acc2 ph => setA acc2 ph.1 ph.2.min) acc) hug =
        (((m.filter fun ph => ph.1 = hug).map fun ph => ph.2.min).getLast?).or
          (lookupA acc hug) := by
  induction m with
  | nil => intro acc; rfl
  | cons ph t ih =>
    intro acc
    simp only [List.foldl_cons]
    rw [ih]
    by_cases hk : ph.1 = hug
    · rw [lookupA_setA, if_pos hk.symm]
      have hfc : List.filter (fun q => decide (q.1 = hug)) (ph :: t) =
          ph :: List.filter (fun q => decide (q.1 = hug)) t := by
        simp [hk]
      rw [hfc, List.map_cons, getLast?_cons_or, option_or_assoc, option_some_or]
    · rw [lookupA_setA, if_neg (fun he => hk he.symm)]
      have hfc : List.filter (fun q => decide (q.1 = hug)) (ph :: t) =
          List.filter (fun q => decide (q.1 = hug)) t := by
        simp [hk]
      rw [hfc]

theorem lookup_hugMinimums (hugim : AList (AList HugInfo)) (hug : String) :
    lookupA (hugMinimums hugim) hug = (minsList hugim hug).getLast? := by
  unfold hugMinimums minsList
  suffices h : ∀ (l : List (String × AList HugInfo)) (acc : AList Nat),
      lookupA (l.foldl (fun acc pp =>
        pp.2.foldl (fun acc2 ph => setA acc2 ph.1 ph.2.min) acc) acc) hug =
      ((l.foldl (fun acc pp =>
        acc ++ (pp.2.filter fun ph => ph.1 = hug).map fun ph => ph.2.min) []).getLast?).or
        (lookupA acc hug) by
    rw [h hugim []]
    simp [lookupA, option_or_none]
  intro l
  induction l with
  | nil => intro acc; rfl
  | cons pp t ih =>
    intro acc
    simp only [List.foldl_cons, List.nil_append]
    rw [ih, lookup_innerMin hug pp.2 acc]
    conv_rhs => rw [minsList_step hug t]
    rw [getLast?_append_or, option_or_assoc]

/-- C10: in the force-fill enforcer, an activity offered in several periods
with different minimum values is checked against the minimum of the LAST
period instance in iteration order (plain dict overwrite), not the first and
not the largest; concretely, with instance minimums [3, 1] the enforced
minimum is 1 (so one aggregate enrollee suffices), while swapping them to
[1, 3] makes the enforcer force-fill. -/
theorem C10_lastInstanceMinimumWins :
    (∀ (hugim : AList (AList HugInfo)) (hug : String),
      lookupA (hugMinimums hugim) hug = (minsList hugim hug).getLast?) ∧
    minsList gC10last.hugim "X" = [3, 1] ∧
    lookupA (hugMinimums gC10last.hugim) "X" = some 1 ∧
    (1 : Nat) ≠ 3 ∧ (1 : Nat) ≠ max 3 1 ∧
    (fillMinimums idShuf gC10last).campers = gC10last.campers ∧
    (fillMinimums idShuf gC10swap).campers ≠ gC10swap.campers := by
  refine ⟨lookup_hugMinimums, ?_, ?_, ?_, ?_, ?_, ?_⟩ <;> decide

/-! ## Claim C8: termination of the cancel-and-reallocate loop -/

theorem countH_updateA_le (l : AList (AList HugInfo)) (p : String)
    (f : AList HugInfo → AList HugInfo) (h : ∀ m, (f m).length ≤ m.length) :
    ((updateA l p f).map fun pp => pp.2.length).sum ≤ (l.map fun pp => pp.2.length).sum := by
  induction l with
  | nil => simp [updateA]
  | cons q t ih =>
    obtain ⟨k0, v0⟩ := q
    by_cases hk : k0 = p
    · simp [updateA, hk]
      have := h v0
      omega
    · simp [updateA, hk]
      omega

theorem countH_updateA_lt (l : AList (AList HugInfo)) (p : String)
    (f : AList HugInfo → AList HugInfo) (h : ∀ m, (f m).length ≤ m.length)
    {m : AList HugInfo} (hm : lookupA l p = some m) (hlt : (f m).length < m.length) :
    ((updateA l p f).map fun pp => pp.2.length).sum < (l.map fun pp => pp.2.length).sum := by
  induction l with
  | nil => simp [lookupA] at hm
  | cons q t ih =>
    obtain ⟨k0, v0⟩ := q
    by_cases hk : k0 = p
    · subst hk
      simp [lookupA] at hm
      subst hm
      have h2 := countH_updateA_le t k0 f h
      simp [updateA]
      omega
    · simp [lookupA, hk] at hm
      have h2 := ih hm
      simp [updateA, hk]
      omega

theorem countH_updateA_eq (l : AList (AList HugInfo)) (p : String)
    (f : AList HugInfo → AList HugInfo) (h : ∀ m, (f m).length = m.length) :
    ((updateA l p f).map fun pp => pp.2.length).sum = (l.map fun pp => pp.2.length).sum := by
  induction l with
  | nil => simp [updateA]
  | cons q t ih =>
    obtain ⟨k0, v0⟩ := q
    by_cases hk : k0 = p
    · simp [updateA, hk, h v0]
    · simp [updateA, hk]
      omega

theorem count_cancelHug_le (st : EState) (period hug : String) :
    instanceCount (cancelHug st period hug) ≤ instanceCount st := by
  unfold cancelHug instanceCount
  exact countH_updateA_le _ _ _ (fun m => length_eraseA_le m hug)

theorem count_cancelHug_lt (st : EState) (period hug : String)
    {m : AList HugInfo} (hm : lookupA st.hugim period = some m)
    {v : HugInfo} (hv : (hug, v) ∈ m) :
    instanceCount (cancelHug st period hug) < instanceCount st := by
  unfold cancelHug instanceCount
  exact countH_updateA_lt _ _ _ (fun m2 => length_eraseA_le m2 hug) hm (length_eraseA_lt hv)

theorem count_cancelFold_le (period : String) (under : List String) :
    ∀ st : EState,
      instanceCount (under.foldl (fun s hug => cancelHug s period hug) st) ≤ instanceCount st := by
  induction under with
  | nil => intro st; exact le_refl _
  | cons h0 t ih =>
    intro st
    exact (ih (cancelHug st period h0)).trans (count_cancelHug_le st period h0)

theorem count_cancelPeriod_le (st : EState) (period : String) :
    instanceCount (cancelPeriod st period).1 ≤ instanceCount st :=
  count_cancelFold_le period _ st

theorem count_cancelPeriod_lt (st : EState) (period : String)
    (hflag : (cancelPeriod st period).2 = true) :
    instanceCount (cancelPeriod st period).1 < instanceCount st := by
  cases hu : (((lookupA st.hugim period).getD []).filter fun ph =>
      decide (ph.2.enrolled.length < ph.2.min)).map Prod.fst with
  | nil =>
    have hf : (cancelPeriod st period).2 = false := by
      simp [cancelPeriod, hu]
    rw [hf] at hflag
    cases hflag
  | cons h0 tl =>
    have h1 : (cancelPeriod st period).1 =
        tl.foldl (fun s hug => cancelHug s period hug) (cancelHug st period h0) := by
      simp [cancelPeriod, hu]
    rw [h1]
    have h2 : h0 ∈ (((lookupA st.hugim period).getD []).filter fun ph =>
        decide (ph.2.enrolled.length < ph.2.min)).map Prod.fst := by
      rw [hu]; simp
    obtain ⟨ph, hph, hfst⟩ := List.mem_map.1 h2
    have hphm : ph ∈ (lookupA st.hugim period).getD [] := List.mem_of_mem_filter hph
    cases hlk : lookupA st.hugim period with
    | none =>
      rw [hlk] at hphm
      simp at hphm
    | some m =>
      rw [hlk] at hphm
      simp at hphm
      have hmem : (h0, ph.2) ∈ m := by
        rw [← hfst]
        simpa using hphm
      exact (count_cancelFold_le period tl _).trans_lt
        (count_cancelHug_lt st period h0 hlk hmem)

theorem count_cancelStepFold (ps : List String) :
    ∀ (st : EState) (b : Bool),
      instanceCount (ps.foldl cancelStep (st, b)).1 ≤ instanceCount st ∧
      ((ps.foldl cancelStep (st, b)).2 = true →
        b = true ∨ instanceCount (ps.foldl cancelStep (st, b)).1 < instanceCount st) := by
  induction ps with
  | nil =>
    intro st b
    exact ⟨le_refl _, fun hb => Or.inl hb⟩
  | cons p ps ih =>
    intro st b
    have hstep : (cancelStep (st, b) p) =
        ((cancelPeriod st p).1, b || (cancelPeriod st p).2) := rfl
    simp only [List.foldl_cons, hstep]
    obtain ⟨ihle, ihfl⟩ := ih (cancelPeriod st p).1 (b || (cancelPeriod st p).2)
    refine ⟨ihle.trans (count_cancelPeriod_le st p), ?_⟩
    intro hfl
    rcases ihfl hfl with hb | hlt
    · rcases Bool.or_eq_true_iff.1 hb with hb1 | hb2
      · exact Or.inl hb1
      · exact Or.inr (lt_of_le_of_lt ihle (count_cancelPeriod_lt st p hb2))
    · exact Or.inr (lt_of_lt_of_le hlt (count_cancelPeriod_le st p))

theorem count_cancelStage_le (st : EState) :
    instanceCount (cancelStage st).1 ≤ instanceCount st :=
  (count_cancelStepFold (st.hugim.map Prod.fst) st false).1

theorem count_cancelStage_lt (st : EState) (h : (cancelStage st).2 = true) :
    instanceCount (cancelStage st).1 < instanceCount st := by
  rcases (count_cancelStepFold (st.hugim.map Prod.fst) st false).2 h with hb | hlt
  · cases hb
  · exact hlt

theorem count_tryRealloc (st : EState) (period : String) (idx : Nat) :
    instanceCount (tryRealloc st period idx) = instanceCount st := by
  unfold tryRealloc
  cases st.campers.get? idx with
  | none => rfl
  | some c =>
    simp only
    by_cases hun : (lookupAssn c period).hug.isNone
    · simp only [hun, if_true]
      cases findPref st.hugim st.canceled c period (lookupPrefs c period) 0 with
      | none => rfl
      | some pr =>
        unfold instanceCount
        simp only
        exact countH_updateA_eq _ _ _ (fun m => length_updateA m pr.1 _)
    · simp [hun]

theorem count_reallocStage (st : EState) :
    instanceCount (reallocStage st) = instanceCount st := by
  unfold reallocStage
  apply foldl_pres (fun s => instanceCount s = instanceCount st)
  · intro s p _ hs
    apply foldl_pres (fun s2 => instanceCount s2 = instanceCount st)
    · intro s2 idx _ hs2
      rw [count_tryRealloc, hs2]
    · exact hs
  · rfl

theorem enforcePasses_done : ∀ (n : Nat) (st : EState), instanceCount st < n →
    (enforcePassesF n st).2.2 = true ∧ (enforcePassesF n st).1 ≤ instanceCount st + 1 := by
  intro n
  induction n with
  | zero => intro st h; omega
  | succ n ih =>
    intro st h
    cases hr : (cancelStage st).2 with
    | false =>
      have he : enforcePassesF (n + 1) st = (1, reallocStage (cancelStage st).1, true) := by
        simp [enforcePassesF, hr]
      rw [he]
      exact ⟨rfl, by omega⟩
    | true =>
      have hlt : instanceCount (reallocStage (cancelStage st).1) < instanceCount st := by
        rw [count_reallocStage]
        exact count_cancelStage_lt st hr
      have hn : instanceCount (reallocStage (cancelStage st).1) < n := by omega
      obtain ⟨hdone, hcnt⟩ := ih (reallocStage (cancelStage st).1) hn
      have he : enforcePassesF (n + 1) st =
          ((enforcePassesF n (reallocStage (cancelStage st).1)).1 + 1,
           (enforcePassesF n (reallocStage (cancelStage st).1)).2.1,
           (enforcePassesF n (reallocStage (cancelStage st).1)).2.2) := by
        simp [enforcePassesF, hr]
      rw [he]
      exact ⟨hdone, by omega⟩

/-- C8 (amended): the cancel-and-reallocate loop always terminates; every pass
either cancels an instance (the remaining-instance count strictly decreases)
or is the final pass, so the number of passes is at most the initial instance
count PLUS ONE (the final, non-cancelling pass). -/
theorem C8_terminationWithinCountPlusOne : ∀ st : EState,
    (enforcePassesF (instanceCount st + 1) st).2.2 = true ∧
    passCount st ≤ instanceCount st + 1 ∧
    ((cancelStage st).2 = false ∨
      instanceCount (reallocStage (cancelStage st).1) < instanceCount st) := by
  intro st
  obtain ⟨hdone, hcnt⟩ := enforcePasses_done (instanceCount st + 1) st (by omega)
  refine ⟨hdone, hcnt, ?_⟩
  cases hr : (cancelStage st).2 with
  | false => exact Or.inl rfl
  | true =>
    refine Or.inr ?_
    rw [count_reallocStage]
    exact count_cancelStage_lt st hr

/-- C8 counterexample to the claimed bound: a registry with exactly one
instance (which is under its minimum) takes two passes — one that cancels it
and one, final, that cancels nothing — exceeding the claimed bound of one
pass per initial instance. -/
theorem C8_passBoundCounterexample :
    instanceCount exC8E = 1 ∧ passCount exC8E = 2 ∧
      ¬(passCount exC8E ≤ instanceCount exC8E) := by
  refine ⟨by decide, by decide, by decide⟩

/-! ## Claim C1: capacity invariant -/

theorem updateA_id {α : Type} (l : AList α) (k : String) :
    updateA l k (fun v => v) = l := by
  induction l with
  | nil => rfl
  | cons p t ih =>
    obtain ⟨k0, v0⟩ := p
    by_cases hk : k0 = k <;> simp [updateA, hk, ih]

theorem capInv1_updateA_insert {hp : AList HugInfo} {hug : String} (id0 : String)
    {info : HugInfo} (hl : lookupA hp hug = some info)
    (hguard : info.enrolled.length < info.capacity) (hcap : CapInv1 hp) :
    CapInv1 (updateA hp hug fun i => { i with enrolled := insertS i.enrolled id0 }) := by
  intro ph hph
  rcases mem_updateA hph with h1 | ⟨v, hv, h2⟩
  · exact hcap ph h1
  · rw [hl] at hv
    injection hv with hv
    subst hv
    subst h2
    simpa using (length_insertS_le info.enrolled id0).trans (by omega)

theorem assignIdx_hp (st : PSt) (period hug how : String) (idx : Nat) :
    (assignIdx st period hug how idx).hp = st.hp ∨
    ∃ id0, (assignIdx st period hug how idx).hp =
      updateA st.hp hug fun i => { i with enrolled := insertS i.enrolled id0 } := by
  unfold assignIdx
  cases st.campers.get? idx with
  | none => exact Or.inl rfl
  | some c => exact Or.inr ⟨c.camperID, rfl⟩

theorem capInv1_assignIdx_guarded {st : PSt} {hug : String} {info : HugInfo}
    (period how : String) (idx : Nat)
    (hl : lookupA st.hp hug = some info)
    (hguard : info.enrolled.length < info.capacity) (hcap : CapInv1 st.hp) :
    CapInv1 (assignIdx st period hug how idx).hp := by
  rcases assignIdx_hp st period hug how idx with h | ⟨id0, h⟩
  · rw [h]; exact hcap
  · rw [h]; exact capInv1_updateA_insert id0 hl hguard hcap

theorem assignFold_hp (period hug how : String) (l : List Nat) :
    ∀ st : PSt, ∃ F : HugInfo → HugInfo,
      (l.foldl (fun s idx => assignIdx s period hug how idx) st).hp = updateA st.hp hug F ∧
      ∀ info, (F info).capacity = info.capacity ∧ (F info).min = info.min ∧
        info.enrolled ⊆ (F info).enrolled ∧
        (F info).enrolled.length ≤ info.enrolled.length + l.length := by
  induction l with
  | nil =>
    intro st
    exact ⟨fun v => v, (updateA_id st.hp hug).symm,
      fun info => ⟨rfl, rfl, fun a ha => ha, by simp⟩⟩
  | cons idx t ih =>
    intro st
    simp only [List.foldl_cons]
    obtain ⟨F2, hF2, hF2P⟩ := ih (assignIdx st period hug how idx)
    rcases assignIdx_hp st period hug how idx with h | ⟨id0, h⟩
    · refine ⟨F2, by rw [hF2, h], fun info => ?_⟩
      obtain ⟨h1, h2, h3, h4⟩ := hF2P info
      exact ⟨h1, h2, h3, by simp; omega⟩
    · refine ⟨fun v => F2 ({ v with enrolled := insertS v.enrolled id0 }), ?_, fun info => ?_⟩
      · rw [hF2, h, updateA_updateA]
      · obtain ⟨h1, h2, h3, h4⟩ := hF2P ({ info with enrolled := insertS info.enrolled id0 })
        refine ⟨h1, h2, ?_, ?_⟩
        · exact (subset_insertS info.enrolled id0).trans h3
        · have h5 := length_insertS_le info.enrolled id0
          simp at h4 ⊢
          omega

theorem capInv1_admitHug (period : String) (r : Nat) (st : PSt) (hug : String)
    (cands : List Nat) (hcap : CapInv1 st.hp) :
    CapInv1 (admitHug period r st hug cands).hp := by
  unfold admitHug
  cases hl : lookupA st.hp hug with
  | none => exact hcap
  | some info =>
    simp only
    obtain ⟨F, hF, hFP⟩ :=
      assignFold_hp period hug (prefStr (r + 1))
        (cands.take (info.capacity - info.enrolled.length)) st
    rw [hF]
    intro ph hph
    rcases mem_updateA hph with h1 | ⟨v, hv, h2⟩
    · exact hcap ph h1
    · rw [hl] at hv
      injection hv with hv
      subst hv
      subst h2
      obtain ⟨h1, h2, h3, h4⟩ := hFP info
      have hlen : (cands.take (info.capacity - info.enrolled.length)).length ≤
          info.capacity - info.enrolled.length := by
        rw [List.length_take]
        exact min_le_left _ _
      have hle : info.enrolled.length ≤ info.capacity :=
        hcap (hug, info) (lookupA_mem hl)
      simp only [h1]
      omega

theorem capInv1_processRank (S : Shuf) (periods : List String) (period : String)
    (st : PSt) (r : Nat) (ul : List Nat) (hcap : CapInv1 st.hp) :
    CapInv1 (processRank S periods period st r ul).1.hp := by
  unfold processRank
  simp only
  apply foldl_pres (fun s : PSt => CapInv1 s.hp)
  · intro s p _ hs
    exact capInv1_admitHug period r s p.1 p.2 hs
  · exact hcap

theorem capInv1_randomFill (S : Shuf) (periods : List String) (period : String)
    (st : PSt) (ul : List Nat) (hcap : CapInv1 st.hp) :
    CapInv1 (randomFill S periods period st ul).hp := by
  unfold randomFill
  simp only
  apply foldl_pres (fun s : PSt => CapInv1 s.hp)
  · intro s idx _ hs
    split
    · exact hs
    · split
      · exact hs
      · split
        · rename_i c hc hemp hug hf
          have hp := List.find?_some hf
          cases hl2 : lookupA s.hp hug with
          | none => rw [hl2] at hp; cases hp
          | some info =>
            rw [hl2] at hp
            simp only [Bool.and_eq_true, decide_eq_true_eq] at hp
            exact capInv1_assignIdx_guarded period "Random" idx hl2 hp.1 hs
        · exact hs
  · exact hcap

theorem annotateReasons_hp (period : String) (st : PSt) (ul : List Nat) :
    (annotateReasons period st ul).hp = st.hp := rfl

theorem capInv1_assignPeriodSt (S : Shuf) (K : Nat) (period : String) (st0 : PSt)
    (hcap : CapInv1 st0.hp) : CapInv1 (assignPeriodSt S K period st0).hp := by
  unfold assignPeriodSt
  simp only
  rw [annotateReasons_hp]
  apply capInv1_randomFill
  apply foldl_pres (fun acc : PSt × List Nat => CapInv1 acc.1.hp)
  · intro acc r _ hacc
    exact capInv1_processRank S (periodsOf st0.campers) period acc.1 r acc.2 hacc
  · exact hcap

theorem keys_assignPeriodG (S : Shuf) (K : Nat) (period : String) (g : GState) :
    (assignPeriodG S K period g).hugim.map Prod.fst = g.hugim.map Prod.fst :=
  keys_updateA _ _ _

theorem capInv_assignPeriodG (S : Shuf) (K : Nat) (period : String) (g : GState)
    (hcap : CapInv g.hugim) : CapInv (assignPeriodG S K period g).hugim := by
  intro pp hpp
  unfold assignPeriodG at hpp
  simp only at hpp
  rcases mem_updateA hpp with h1 | ⟨v, hv, h2⟩
  · exact hcap pp h1
  · subst h2
    simp only
    have hslice : (lookupA g.hugim period).getD [] = v := by rw [hv]; rfl
    rw [hslice]
    exact capInv1_assignPeriodSt S K period _ (hcap (period, v) (lookupA_mem hv))

theorem keys_forcedAssign (st : FState) (idx : Nat) (c : Camper) (p hug : String) :
    (forcedAssign st idx c p hug).hugim.map Prod.fst = st.hugim.map Prod.fst :=
  keys_updateA _ _ _

theorem periodsWithRoom_spec {st : AList (AList HugInfo)} {hug p : String}
    (hnd : (st.map Prod.fst).Nodup) (hroom : p ∈ periodsWithRoom st hug) :
    ∃ m info, lookupA st p = some m ∧ lookupA m hug = some info ∧
      info.enrolled.length < info.capacity ∧ (p, m) ∈ st := by
  obtain ⟨pp, hppf, hfst⟩ := List.mem_map.1 hroom
  have hppm : pp ∈ st := List.mem_of_mem_filter hppf
  have hpred := List.of_mem_filter hppf
  cases hl : lookupA pp.2 hug with
  | none => rw [hl] at hpred; cases hpred
  | some info =>
    rw [hl] at hpred
    simp only [decide_eq_true_eq] at hpred
    have hlk : lookupA st p = some pp.2 := by
      rw [← hfst]
      exact lookupA_of_nodup_mem hnd (by simpa using hppm)
    exact ⟨pp.2, info, hlk, hl, hpred, by rw [← hfst]; simpa using hppm⟩

theorem capInv_forcedAssign (st : FState) (idx : Nat) (c : Camper) (p hug : String)
    (hnd : (st.hugim.map Prod.fst).Nodup)
    (hroom : p ∈ periodsWithRoom st.hugim hug) (hcap : CapInv st.hugim) :
    CapInv (forcedAssign st idx c p hug).hugim := by
  obtain ⟨m, info, hlk, hl, hlt, hmem⟩ := periodsWithRoom_spec hnd hroom
  intro qq hqq
  unfold forcedAssign at hqq
  simp only at hqq
  rcases mem_updateA hqq with h1 | ⟨v, hv, h2⟩
  · exact hcap qq h1
  · rw [hlk] at hv
    injection hv with hv
    subst hv
    subst h2
    exact capInv1_updateA_insert c.camperID hl hlt (hcap (p, m) hmem)

theorem capInv_fillCampersLoop (hug : String) : ∀ (l : List Nat) (missing : Nat) (st : FState),
    (st.hugim.map Prod.fst).Nodup → CapInv st.hugim →
    CapInv (fillCampersLoop hug l missing st).hugim ∧
      ((fillCampersLoop hug l missing st).hugim.map Prod.fst).Nodup := by
  intro l
  induction l with
  | nil => intro missing st hnd hcap; exact ⟨hcap, hnd⟩
  | cons idx t ih =>
    intro missing st hnd hcap
    unfold fillCampersLoop
    cases st.campers.get? idx with
    | none => exact ih missing st hnd hcap
    | some c =>
      simp only
      cases hf : (periodsWithRoom st.hugim hug).find? (fun p => (lookupAssn c p).hug.isNone) with
      | none => exact ih missing st hnd hcap
      | some p =>
        simp only
        have hroom : p ∈ periodsWithRoom st.hugim hug := List.mem_of_find?_eq_some hf
        have hcap2 := capInv_forcedAssign st idx c p hug hnd hroom hcap
        have hnd2 : ((forcedAssign st idx c p hug).hugim.map Prod.fst).Nodup := by
          rw [keys_forcedAssign]; exact hnd
        by_cases hm : missing - 1 = 0
        · simp only [hm, if_true]
          exact ⟨hcap2, hnd2⟩
        · simp only [hm, if_false]
          exact ih (missing - 1) _ hnd2 hcap2

theorem capInv_fillMinimums (S : Shuf) (g : GState)
    (hnd : (g.hugim.map Prod.fst).Nodup) (hcap : CapInv g.hugim) :
    CapInv (fillMinimums S g).hugim ∧
      ((fillMinimums S g).hugim.map Prod.fst).Nodup := by
  unfold fillMinimums fillMinimumsF
  simp only
  apply foldl_pres (fun st : FState => CapInv st.hugim ∧ (st.hugim.map Prod.fst).Nodup)
  · intro st pr _ hst
    split
    · exact hst
    · exact capInv_fillCampersLoop pr.1 _ _ _ hst.2 hst.1
  · exact ⟨hcap, hnd⟩

theorem findPref_spec (hugim : AList (AList HugInfo)) (canceled : AList (List String))
    (c : Camper) (period : String) :
    ∀ (l : List String) (i0 : Nat) (pref : String) (j : Nat),
      findPref hugim canceled c period l i0 = some (pref, j) →
      i0 ≤ j ∧ l.get? (j - i0) = some pref ∧
      pref ∉ (lookupA canceled period).getD [] ∧
      ∃ info, lookupA ((lookupA hugim period).getD []) pref = some info ∧
        info.enrolled.length < info.capacity ∧
        (c.assignments.all fun pa => (pa.1 == period) || !(pa.2.hug == some pref)) = true := by
  intro l
  induction l with
  | nil => intro i0 pref j h; cases h
  | cons pref0 rest ih =>
    intro i0 pref j h
    unfold findPref at h
    by_cases hcanc : pref0 ∈ (lookupA canceled period).getD []
    · rw [if_pos (by simpa using hcanc)] at h
      obtain ⟨h1, h2, h3, h4⟩ := ih (i0 + 1) pref j h
      refine ⟨by omega, ?_, h3, h4⟩
      have : j - i0 = (j - (i0 + 1)) + 1 := by omega
      rw [this]
      simpa using h2
    · rw [if_neg (by simpa using hcanc)] at h
      cases hl : lookupA ((lookupA hugim period).getD []) pref0 with
      | none =>
        rw [hl] at h
        simp only at h
        obtain ⟨h1, h2, h3, h4⟩ := ih (i0 + 1) pref j h
        refine ⟨by omega, ?_, h3, h4⟩
        have : j - i0 = (j - (i0 + 1)) + 1 := by omega
        rw [this]
        simpa using h2
      | some info =>
        rw [hl] at h
        simp only at h
        by_cases hcond : (decide (info.enrolled.length < info.capacity) &&
            c.assignments.all fun pa => (pa.1 == period) || !(pa.2.hug == some pref0)) = true
        · rw [if_pos hcond] at h
          injection h with h
          obtain ⟨he1, he2⟩ := Prod.mk.injEq .. ▸ h
          subst he1
          subst he2
          simp only [Bool.and_eq_true, decide_eq_true_eq] at hcond
          exact ⟨le_refl _, by simp, hcanc, info, hl, hcond.1, hcond.2⟩
        · rw [if_neg hcond] at h
          obtain ⟨h1, h2, h3, h4⟩ := ih (i0 + 1) pref j h
          refine ⟨by omega, ?_, h3, h4⟩
          have : j - i0 = (j - (i0 + 1)) + 1 := by omega
          rw [this]
          simpa using h2

theorem capInv1_eraseA (m : AList HugInfo) (hug : String) (h : CapInv1 m) :
    CapInv1 (eraseA m hug) := fun ph hph => h ph (mem_eraseA hph)

theorem capInv_cancelHug (st : EState) (period hug : String) (h : CapInv st.hugim) :
    CapInv (cancelHug st period hug).hugim := by
  intro pp hpp
  unfold cancelHug at hpp
  simp only at hpp
  rcases mem_updateA hpp with h1 | ⟨v, hv, h2⟩
  · exact h pp h1
  · subst h2
    exact capInv1_eraseA v hug (h (period, v) (lookupA_mem hv))

theorem capInv_cancelPeriod (st : EState) (period : String) (h : CapInv st.hugim) :
    CapInv (cancelPeriod st period).1.hugim := by
  unfold cancelPeriod
  simp only
  apply foldl_pres (fun s : EState => CapInv s.hugim)
  · intro s hug _ hs
    exact capInv_cancelHug s period hug hs
  · exact h

theorem capInv_cancelStage (st : EState) (h : CapInv st.hugim) :
    CapInv (cancelStage st).1.hugim := by
  unfold cancelStage
  have := foldl_pres (fun acc : EState × Bool => CapInv acc.1.hugim)
    cancelStep (st.hugim.map Prod.fst) (st, false)
    (fun acc p _ hacc => capInv_cancelPeriod acc.1 p hacc) h
  exact this

theorem capInv_tryRealloc (st : EState) (period : String) (idx : Nat)
    (h : CapInv st.hugim) : CapInv (tryRealloc st period idx).hugim := by
  unfold tryRealloc
  cases hg : st.campers.get? idx with
  | none => exact h
  | some c =>
    simp only
    by_cases hun : (lookupAssn c period).hug.isNone = true
    · rw [if_pos hun]
      cases hf : findPref st.hugim st.canceled c period (lookupPrefs c period) 0 with
      | none => exact h
      | some pr =>
        obtain ⟨_, _, _, info, hinfo, hlt, _⟩ :=
          findPref_spec st.hugim st.canceled c period (lookupPrefs c period) 0 pr.1 pr.2
            (by rw [hf])
        intro qq hqq
        simp only at hqq
        rcases mem_updateA hqq with h1 | ⟨v, hv, h2⟩
        · exact h qq h1
        · subst h2
          have hslice : (lookupA st.hugim period).getD [] = v := by rw [hv]; rfl
          rw [hslice] at hinfo
          exact capInv1_updateA_insert c.camperID hinfo hlt (h (period, v) (lookupA_mem hv))
    · rw [if_neg hun]
      exact h

theorem capInv_reallocStage (st : EState) (h : CapInv st.hugim) :
    CapInv (reallocStage st).hugim := by
  unfold reallocStage
  apply foldl_pres (fun s : EState => CapInv s.hugim)
  · intro s p _ hs
    apply foldl_pres (fun s2 : EState => CapInv s2.hugim)
    · intro s2 idx _ hs2
      exact capInv_tryRealloc s2 p idx hs2
    · exact hs
  · exact h

theorem capInv_enforcePasses : ∀ (fuel : Nat) (st : EState), CapInv st.hugim →
    CapInv ((enforcePassesF fuel st).2.1).hugim := by
  intro fuel
  induction fuel with
  | zero => intro st h; exact h
  | succ n ih =>
    intro st h
    have h2 : CapInv (reallocStage (cancelStage st).1).hugim :=
      capInv_reallocStage _ (capInv_cancelStage st h)
    cases hr : (cancelStage st).2 with
    | false =>
      have he : enforcePassesF (n + 1) st = (1, reallocStage (cancelStage st).1, true) := by
        simp [enforcePassesF, hr]
      rw [he]
      exact h2
    | true =>
      have he : (enforcePassesF (n + 1) st).2.1 =
          (enforcePassesF n (reallocStage (cancelStage st).1)).2.1 := by
        simp [enforcePassesF, hr]
      rw [he]
      exact ih _ h2

theorem capInv_enforceMinimums (g : GState) (h : CapInv g.hugim) :
    CapInv (enforceMinimums g).hugim :=
  capInv_enforcePasses _ _ h

/-- C1: enrolled count never exceeds capacity: the Round Allocator pass for a
period, the force-fill enforcer, the cancel-and-reallocate enforcer, and the
whole `run_allocation` each preserve the capacity invariant (so it holds at
the end of any run started from a capacity-respecting registry, in particular
from freshly loaded empty enrollments). -/
theorem C1_capacityInvariant :
    ∀ (S : Shuf) (K : Nat) (period : String) (periods : List String) (g : GState),
    CapInv g.hugim → (g.hugim.map Prod.fst).Nodup →
    CapInv (assignPeriodG S K period g).hugim ∧
    CapInv (fillMinimums S g).hugim ∧
    CapInv (enforceMinimums g).hugim ∧
    CapInv (runAllocation S K periods g).hugim := by
  intro S K period periods g hcap hnd
  refine ⟨capInv_assignPeriodG S K period g hcap,
    (capInv_fillMinimums S g hnd hcap).1,
    capInv_enforceMinimums g hcap, ?_⟩
  unfold runAllocation
  have h := foldl_pres
    (fun g2 : GState => CapInv g2.hugim ∧ (g2.hugim.map Prod.fst).Nodup)
    (fun g2 p => assignPeriodG S K p g2) periods g
    (fun g2 p _ hg2 => ⟨capInv_assignPeriodG S K p g2 hg2.1,
      by rw [keys_assignPeriodG]; exact hg2.2⟩)
    ⟨hcap, hnd⟩
  exact (capInv_fillMinimums S _ h.2 h.1).1

/-- Witness for C1: the invariant hypotheses hold at the concrete two-period
input and the conclusion follows by the theorem. -/
theorem C1_capacityInvariant_witness :
    CapInv gW.hugim ∧ (gW.hugim.map Prod.fst).Nodup ∧
    (CapInv (assignPeriodG idShuf 2 "Aleph" gW).hugim ∧
     CapInv (fillMinimums idShuf gW).hugim ∧
     CapInv (enforceMinimums gW).hugim ∧
     CapInv (runAllocation idShuf 2 ["Aleph", "Beth"] gW).hugim) :=
  ⟨by decide, by decide,
    C1_capacityInvariant idShuf 2 "Aleph" ["Aleph", "Beth"] gW (by decide) (by decide)⟩

/-! ## Claim C5: shape of stored assignment methods -/

theorem methodOK_clear : methodOK (⟨none, none⟩ : Assn) := Or.inl rfl

theorem reason_mem_ReasonStrings (c : Camper) (period : String) (hp : AList HugInfo) :
    reasonOfCamper c period hp ∈ ReasonStrings := by
  unfold reasonOfCamper
  repeat' split
  all_goals decide

theorem minv_setAssn_mem {c : Camper} (hm : ∀ pa ∈ c.assignments, methodOK pa.2)
    (period : String) (a : Assn) (ha : methodOK a) :
    ∀ pa ∈ (setAssn c period a).assignments, methodOK pa.2 := by
  intro pa hpa
  rcases mem_updateA hpa with h1 | ⟨v, hv, h2⟩
  · exact hm pa h1
  · subst h2; exact ha

theorem minv_set_list {campers : List Camper} (hm : MethodInvariant campers) {idx : Nat}
    {c2 : Camper} (hc : ∀ pa ∈ c2.assignments, methodOK pa.2) :
    MethodInvariant (campers.set idx c2) := by
  intro c hcmem pa hpa
  rcases List.mem_or_eq_of_mem_set hcmem with h1 | h1
  · exact hm c h1 pa hpa
  · subst h1; exact hc pa hpa

theorem methodOK_tag {hug how : String}
    (hhow : how = "Random" ∨ how = "Forced_minimum" ∨ ∃ n, how = prefStr n) :
    methodOK ⟨some hug, some how⟩ := by
  unfold methodOK
  simp only
  rcases hhow with h | h | ⟨n, h⟩
  · exact Or.inl (by rw [h])
  · exact Or.inr (Or.inl (by rw [h]))
  · exact Or.inr (Or.inr ⟨n, by rw [h]⟩)

theorem minv_assignIdx (st : PSt) (period hug how : String) (idx : Nat)
    (hhow : how = "Random" ∨ how = "Forced_minimum" ∨ ∃ n, how = prefStr n)
    (hm : MethodInvariant st.campers) :
    MethodInvariant (assignIdx st period hug how idx).campers := by
  unfold assignIdx
  cases hg : st.campers.get? idx with
  | none => exact hm
  | some c =>
    exact minv_set_list hm
      (minv_setAssn_mem (hm c (List.get?_mem hg)) period _ (methodOK_tag hhow))

theorem minv_admitHug (period : String) (r : Nat) (st : PSt) (hug : String)
    (cands : List Nat) (hm : MethodInvariant st.campers) :
    MethodInvariant (admitHug period r st hug cands).campers := by
  unfold admitHug
  cases lookupA st.hp hug with
  | none => exact hm
  | some info =>
    apply foldl_pres (fun s : PSt => MethodInvariant s.campers)
    · intro s idx _ hs
      exact minv_assignIdx s period hug (prefStr (r + 1)) idx (Or.inr (Or.inr ⟨r + 1, rfl⟩)) hs
    · exact hm

theorem minv_processRank (S : Shuf) (periods : List String) (period : String)
    (st : PSt) (r : Nat) (ul : List Nat) (hm : MethodInvariant st.campers) :
    MethodInvariant (processRank S periods period st r ul).1.campers := by
  unfold processRank
  simp only
  apply foldl_pres (fun s : PSt => MethodInvariant s.campers)
  · intro s p _ hs
    exact minv_admitHug period r s p.1 p.2 hs
  · exact hm

theorem minv_randomFill (S : Shuf) (periods : List String) (period : String)
    (st : PSt) (ul : List Nat) (hm : MethodInvariant st.campers) :
    MethodInvariant (randomFill S periods period st ul).campers := by
  unfold randomFill
  simp only
  apply foldl_pres (fun s : PSt => MethodInvariant s.campers)
  · intro s idx _ hs
    split
    · exact hs
    · split
      · exact hs
      · split
        · rename_i c hc hemp hug hf
          exact minv_assignIdx s period hug "Random" idx (Or.inl rfl) hs
        · exact hs
  · exact hm

theorem minv_annotateReasons (period : String) (st : PSt) (ul : List Nat)
    (hm : MethodInvariant st.campers) :
    MethodInvariant (annotateReasons period st ul).campers := by
  unfold annotateReasons
  simp only
  apply foldl_pres (fun cs : List Camper => MethodInvariant cs)
  · intro cs idx _ hcs
    cases hg : cs.get? idx with
    | none => exact hcs
    | some c =>
      simp only
      by_cases hun : (lookupAssn c period).hug.isNone = true
      · rw [if_pos hun]
        apply minv_set_list hcs
        intro pa hpa
        rcases mem_updateA hpa with h1 | ⟨v, hv, h2⟩
        · exact hcs c (List.get?_mem hg) pa h1
        · subst h2
          have hvh : v.hug = none := by
            have : lookupAssn c period = v := by simp [lookupAssn, hv]
            rw [← this]
            exact Option.isNone_iff_eq_none.1 hun
          unfold methodOK
          simp only [hvh]
          refine Or.inr ⟨getUnassignmentReason cs idx period st.hp, ?_, rfl⟩
          unfold getUnassignmentReason
          rw [hg]
          exact reason_mem_ReasonStrings c period st.hp
      · rw [if_neg hun]
        exact hcs
  · exact hm

theorem minv_assignPeriodSt (S : Shuf) (K : Nat) (period : String) (st0 : PSt)
    (hm : MethodInvariant st0.campers) :
    MethodInvariant (assignPeriodSt S K period st0).campers := by
  unfold assignPeriodSt
  simp only
  apply minv_annotateReasons
  apply minv_randomFill
  apply foldl_pres (fun acc : PSt × List Nat => MethodInvariant acc.1.campers)
  · intro acc r _ hacc
    exact minv_processRank S (periodsOf st0.campers) period acc.1 r acc.2 hacc
  · exact hm

theorem minv_assignPeriodG (S : Shuf) (K : Nat) (period : String) (g : GState)
    (hm : MethodInvariant g.campers) :
    MethodInvariant (assignPeriodG S K period g).campers :=
  minv_assignPeriodSt S K period _ hm

theorem minv_forcedAssign (st : FState) (idx : Nat) (c : Camper) (p hug : String)
    (hc : st.campers.get? idx = some c) (hm : MethodInvariant st.campers) :
    MethodInvariant (forcedAssign st idx c p hug).campers := by
  unfold forcedAssign
  exact minv_set_list hm
    (minv_setAssn_mem (hm c (List.get?_mem hc)) p _ (methodOK_tag (Or.inr (Or.inl rfl))))

theorem minv_fillCampersLoop (hug : String) : ∀ (l : List Nat) (missing : Nat) (st : FState),
    MethodInvariant st.campers → MethodInvariant (fillCampersLoop hug l missing st).campers := by
  intro l
  induction l with
  | nil => intro missing st hm; exact hm
  | cons idx t ih =>
    intro missing st hm
    unfold fillCampersLoop
    cases hg : st.campers.get? idx with
    | none => exact ih missing st hm
    | some c =>
      simp only
      cases hf : (periodsWithRoom st.hugim hug).find? (fun p => (lookupAssn c p).hug.isNone) with
      | none => exact ih missing st hm
      | some p =>
        simp only
        have hm2 := minv_forcedAssign st idx c p hug hg hm
        by_cases hmiss : missing - 1 = 0
        · rw [if_pos hmiss]
          exact hm2
        · rw [if_neg hmiss]
          exact ih (missing - 1) _ hm2

theorem minv_fillMinimums (S : Shuf) (g : GState) (hm : MethodInvariant g.campers) :
    MethodInvariant (fillMinimums S g).campers := by
  unfold fillMinimums fillMinimumsF
  simp only
  apply foldl_pres (fun st : FState => MethodInvariant st.campers)
  · intro st pr _ hst
    split
    · exact hst
    · exact minv_fillCampersLoop pr.1 _ _ _ hst
  · exact hm

theorem minv_clearAssignments (campers : List Camper) (period hug : String)
    (hm : MethodInvariant campers) :
    MethodInvariant (clearAssignments campers period hug) := by
  intro c hc pa hpa
  obtain ⟨c0, hc0, hmap⟩ := List.mem_map.1 hc
  by_cases hcl : (lookupAssn c0 period).hug == some hug
  · rw [if_pos hcl] at hmap
    subst hmap
    exact minv_setAssn_mem (hm c0 hc0) period _ methodOK_clear pa hpa
  · rw [if_neg hcl] at hmap
    subst hmap
    exact hm c0 hc0 pa hpa

theorem minv_cancelHug (st : EState) (period hug : String)
    (hm : MethodInvariant st.campers) : MethodInvariant (cancelHug st period hug).campers :=
  minv_clearAssignments st.campers period hug hm

theorem minv_cancelPeriod (st : EState) (period : String)
    (hm : MethodInvariant st.campers) : MethodInvariant (cancelPeriod st period).1.campers := by
  unfold cancelPeriod
  simp only
  apply foldl_pres (fun s : EState => MethodInvariant s.campers)
  · intro s hug _ hs
    exact minv_cancelHug s period hug hs
  · exact hm

theorem minv_cancelStage (st : EState) (hm : MethodInvariant st.campers) :
    MethodInvariant (cancelStage st).1.campers := by
  unfold cancelStage
  exact foldl_pres (fun acc : EState × Bool => MethodInvariant acc.1.campers)
    cancelStep (st.hugim.map Prod.fst) (st, false)
    (fun acc p _ hacc => minv_cancelPeriod acc.1 p hacc) hm

theorem minv_tryRealloc (st : EState) (period : String) (idx : Nat)
    (hm : MethodInvariant st.campers) : MethodInvariant (tryRealloc st period idx).campers := by
  unfold tryRealloc
  cases hg : st.campers.get? idx with
  | none => exact hm
  | some c =>
    simp only
    by_cases hun : (lookupAssn c period).hug.isNone = true
    · rw [if_pos hun]
      cases findPref st.hugim st.canceled c period (lookupPrefs c period) 0 with
      | none => exact hm
      | some pr =>
        exact minv_set_list hm
          (minv_setAssn_mem (hm c (List.get?_mem hg)) period _
            (methodOK_tag (Or.inr (Or.inr ⟨pr.2 + 1, rfl⟩))))
    · rw [if_neg hun]
      exact hm

theorem minv_reallocStage (st : EState) (hm : MethodInvariant st.campers) :
    MethodInvariant (reallocStage st).campers := by
  unfold reallocStage
  apply foldl_pres (fun s : EState => MethodInvariant s.campers)
  · intro s p _ hs
    apply foldl_pres (fun s2 : EState => MethodInvariant s2.campers)
    · intro s2 idx _ hs2
      exact minv_tryRealloc s2 p idx hs2
    · exact hs
  · exact hm

theorem minv_enforcePasses : ∀ (fuel : Nat) (st : EState), MethodInvariant st.campers →
    MethodInvariant ((enforcePassesF fuel st).2.1).campers := by
  intro fuel
  induction fuel with
  | zero => intro st h; exact h
  | succ n ih =>
    intro st h
    have h2 : MethodInvariant (reallocStage (cancelStage st).1).campers :=
      minv_reallocStage _ (minv_cancelStage st h)
    cases hr : (cancelStage st).2 with
    | false =>
      have he : enforcePassesF (n + 1) st = (1, reallocStage (cancelStage st).1, true) := by
        simp [enforcePassesF, hr]
      rw [he]
      exact h2
    | true =>
      have he : (enforcePassesF (n + 1) st).2.1 =
          (enforcePassesF n (reallocStage (cancelStage st).1)).2.1 := by
        simp [enforcePassesF, hr]
      rw [he]
      exact ih _ h2

theorem minv_enforceMinimums (g : GState) (hm : MethodInvariant g.campers) :
    MethodInvariant (enforceMinimums g).campers :=
  minv_enforcePasses _ _ hm

theorem minv_fresh {campers : List Camper} (h : FreshAssignments campers) :
    MethodInvariant campers := by
  intro c hc pa hpa
  rw [h c hc pa hpa]
  exact methodOK_clear

/-- C5 (amended): starting from freshly loaded campers, after a run every
stored per-period method is either unset, one of Pref_k / Random /
Forced_minimum while an activity is assigned, or — when the camper ends the
period without an activity — one of the diagnostic UnassignedReason strings,
which the engine DOES persist into the `how` field of the assignment record
(this also holds after the cancel-and-reallocate enforcer). -/
theorem C5_methodShape :
    ∀ (S : Shuf) (K : Nat) (periods : List String) (g : GState),
    FreshAssignments g.campers →
    MethodInvariant (runAllocation S K periods g).campers ∧
    MethodInvariant (enforceMinimums (runAllocation S K periods g)).campers := by
  intro S K periods g hfresh
  have h1 : MethodInvariant (runAllocation S K periods g).campers := by
    unfold runAllocation
    apply minv_fillMinimums
    apply foldl_pres (fun g2 : GState => MethodInvariant g2.campers)
    · intro g2 p _ hg2
      exact minv_assignPeriodG S K p g2 hg2
    · exact minv_fresh hfresh
  exact ⟨h1, minv_enforceMinimums _ h1⟩

/-- Witness for C5 (amended) at the concrete two-period input. -/
theorem C5_methodShape_witness :
    FreshAssignments gW.campers ∧
    (MethodInvariant (runAllocation idShuf 2 ["Aleph", "Beth"] gW).campers ∧
     MethodInvariant (enforceMinimums (runAllocation idShuf 2 ["Aleph", "Beth"] gW)).campers) :=
  ⟨by decide, C5_methodShape idShuf 2 ["Aleph", "Beth"] gW (by decide)⟩

/-- C5 counterexample to the claim as stated: after a run on `gC5` the
participant ends the period unassigned and the diagnostic reason string is
stored in the assignment record's method field — a value outside the closed
set Pref_k / Random / Forced_minimum / Manual_Override / empty. -/
theorem C5_reasonPersistedCounterexample :
    ((runAllocation idShuf 1 ["P"] gC5).campers.map fun c => (lookupAssn c "P").how) =
      [some "All activities full in this period."] ∧
    ((runAllocation idShuf 1 ["P"] gC5).campers.map fun c => (lookupAssn c "P").hug) =
      [none] ∧
    "All activities full in this period." ∈ ReasonStrings ∧
    "All activities full in this period." ≠ "Random" ∧
    "All activities full in this period." ≠ "Forced_minimum" ∧
    "All activities full in this period." ≠ "Manual_Override" ∧
    pyStartsWith "All activities full in this period." "Pref_" = false := by
  refine ⟨by decide, by decide, by decide, by decide, by decide, by decide, by decide⟩

/-! ## Demand-collection invariant (shared by C2, C3, C6) -/

theorem lookupA_split {α : Type} {l : AList α} {k : String} {v : α}
    (h : lookupA l k = some v) :
    ∃ l1 l2, l = l1 ++ (k, v) :: l2 ∧ ∀ pr ∈ l1, pr.1 ≠ k := by
  obtain ⟨l1, l2, he, hn, _⟩ := updateA_split (fun x => x) h
  exact ⟨l1, l2, he, hn⟩

theorem nodup_append_singleton {α : Type} {l : List α} {k : α}
    (h : l.Nodup) (hk : k ∉ l) : (l ++ [k]).Nodup := by
  simp [List.nodup_append, h, hk]

theorem demInv_mono_seen {campers : List Camper} {hp : AList HugInfo}
    {periods : List String} {period : String} {prefRank : Nat} {seen seen' : List Nat}
    {dem : AList (List Nat)} (hsub : seen ⊆ seen')
    (h : DemInv campers hp periods period prefRank seen dem) :
    DemInv campers hp periods period prefRank seen' dem := by
  obtain ⟨hk, hl⟩ := h
  refine ⟨hk, fun h2 xs hx => ?_⟩
  obtain ⟨a, b, c⟩ := hl h2 xs hx
  exact ⟨a, fun i hi => ⟨hsub (b i hi).1, (b i hi).2⟩, c⟩

theorem demInv_push {campers : List Camper} {hp : AList HugInfo}
    {periods : List String} {period : String} {prefRank : Nat} {seen : List Nat}
    {dem : AList (List Nat)} {idx : Nat} {hug : String} {c : Camper}
    (hinv : DemInv campers hp periods period prefRank seen dem)
    (hidx : idx ∉ seen)
    (hc : campers.get? idx = some c)
    (hpref : (lookupPrefs c period).get? prefRank = some hug)
    (hoff : (lookupA hp hug).isSome = true)
    (halready : alreadyHasHug periods c period hug = false) :
    DemInv campers hp periods period prefRank (seen ++ [idx]) (pushA dem hug idx) := by
  obtain ⟨hkeys, hlists⟩ := hinv
  have hseenOf : ∀ h2 xs2, lookupA dem h2 = some xs2 → idx ∉ xs2 := by
    intro h2 xs2 hx2 hmem
    exact hidx ((hlists h2 xs2 hx2).2.1 idx hmem).1
  have hdemok : DemOK campers hp periods period prefRank hug idx :=
    ⟨c, hc, hpref, hoff, halready⟩
  constructor
  · rw [keys_pushA]
    by_cases hs : (lookupA dem hug).isSome
    · simp [hs, hkeys]
    · simp only [hs, Bool.false_eq_true, if_false]
      exact nodup_append_singleton hkeys (fun hmem => hs (lookupA_isSome_iff.2 hmem))
  · intro h xs hx
    rw [lookupA_pushA] at hx
    by_cases hh : h = hug
    · rw [if_pos hh] at hx
      injection hx with hx
      cases hold : lookupA dem hug with
      | some xs0 =>
        rw [hold] at hx
        simp only [Option.getD_some] at hx
        obtain ⟨hnd0, hmem0, hdisj0⟩ := hlists hug xs0 hold
        refine ⟨?_, ?_, ?_⟩
        · rw [← hx]
          exact nodup_append_singleton hnd0 (hseenOf hug xs0 hold)
        · intro i hi
          rw [← hx] at hi
          rcases List.mem_append.1 hi with hm | hm
          · exact ⟨List.mem_append.2 (Or.inl (hmem0 i hm).1),
              by rw [hh]; exact (hmem0 i hm).2⟩
          · simp at hm
            subst hm
            exact ⟨by simp, by rw [hh]; exact hdemok⟩
        · intro h2 xs2 hx2 hne i hi
          have hne2 : ¬(h2 = hug) := fun he => hne (hh.trans he.symm)
          rw [lookupA_pushA, if_neg hne2] at hx2
          rw [← hx] at hi
          rcases List.mem_append.1 hi with hm | hm
          · exact hdisj0 h2 xs2 hx2 (fun he => hne (hh.trans he)) i hm
          · simp at hm
            subst hm
            exact hseenOf h2 xs2 hx2
      | none =>
        rw [hold] at hx
        simp only [Option.getD_none, List.nil_append] at hx
        refine ⟨?_, ?_, ?_⟩
        · rw [← hx]
          exact List.nodup_singleton idx
        · intro i hi
          rw [← hx] at hi
          simp at hi
          subst hi
          exact ⟨by simp, by rw [hh]; exact hdemok⟩
        · intro h2 xs2 hx2 hne i hi
          have hne2 : ¬(h2 = hug) := fun he => hne (hh.trans he.symm)
          rw [lookupA_pushA, if_neg hne2] at hx2
          rw [← hx] at hi
          simp at hi
          subst hi
          exact hseenOf h2 xs2 hx2
    · rw [if_neg hh] at hx
      obtain ⟨hnd0, hmem0, hdisj0⟩ := hlists h xs hx
      refine ⟨hnd0, ?_, ?_⟩
      · intro i hi
        exact ⟨List.mem_append.2 (Or.inl (hmem0 i hi).1), (hmem0 i hi).2⟩
      · intro h2 xs2 hx2 hne i hi
        rw [lookupA_pushA] at hx2
        by_cases hh2 : h2 = hug
        · rw [if_pos hh2] at hx2
          injection hx2 with hx2
          intro hmem2
          rw [← hx2] at hmem2
          rcases List.mem_append.1 hmem2 with hm | hm
          · cases hold : lookupA dem hug with
            | some xs0 =>
              rw [hold] at hm
              simp only [Option.getD_some] at hm
              exact hdisj0 hug xs0 hold (hh2 ▸ hne) i hi hm
            | none =>
              rw [hold] at hm
              simp at hm
          · simp at hm
            subst hm
            exact hidx (hmem0 i hi).1
        · rw [if_neg hh2] at hx2
          exact hdisj0 h2 xs2 hx2 hne i hi

theorem collect_aux (campers : List Camper) (hp : AList HugInfo) (periods : List String)
    (period : String) (prefRank : Nat) :
    ∀ (ul seen : List Nat) (dem : AList (List Nat)),
    ul.Nodup → (∀ i ∈ ul, i ∉ seen) →
    DemInv campers hp periods period prefRank seen dem →
    DemInv campers hp periods period prefRank (seen ++ ul)
      (ul.foldl (fun dem idx =>
        match campers.get? idx with
        | none => dem
        | some c =>
          match (lookupPrefs c period).get? prefRank with
          | none => dem
          | some hug =>
            if (lookupA hp hug).isSome && !(alreadyHasHug periods c period hug)
            then pushA dem hug idx else dem) dem) := by
  intro ul
  induction ul with
  | nil =>
    intro seen dem _ _ h
    simpa using h
  | cons idx rest ih =>
    intro seen dem hnd hni hinv
    rw [List.foldl_cons]
    have hrw : seen ++ idx :: rest = (seen ++ [idx]) ++ rest := by simp
    rw [hrw]
    have hnd2 : rest.Nodup := (List.nodup_cons.1 hnd).2
    have hidxnotin : idx ∉ rest := (List.nodup_cons.1 hnd).1
    have hni2 : ∀ i ∈ rest, i ∉ seen ++ [idx] := by
      intro i hi hmem
      rcases List.mem_append.1 hmem with hm | hm
      · exact hni i (List.mem_cons_of_mem _ hi) hm
      · simp at hm
        subst hm
        exact hidxnotin hi
    refine ih (seen ++ [idx]) _ hnd2 hni2 ?_
    have hsub : seen ⊆ seen ++ [idx] := fun x hx => List.mem_append.2 (Or.inl hx)
    split
    · exact demInv_mono_seen hsub hinv
    · split
      · exact demInv_mono_seen hsub hinv
      · split
        · rename_i oc c hc opr hug hpr hguard
          rw [Bool.and_eq_true] at hguard
          exact demInv_push hinv (hni idx (by simp)) hc hpr hguard.1 (by simpa using hguard.2)
        · exact demInv_mono_seen hsub hinv

theorem collect_inv (campers : List Camper) (hp : AList HugInfo) (periods : List String)
    (period : String) (prefRank : Nat) (ul : List Nat) (hnd : ul.Nodup) :
    DemInv campers hp periods period prefRank ul
      (collectDemanders campers hp periods period prefRank ul) := by
  have h := collect_aux campers hp periods period prefRank ul [] []
    hnd (by simp) ⟨by simp, by intro h xs hx; simp [lookupA] at hx⟩
  unfold collectDemanders
  simpa using h

/-! ## Claim C3: rank-round admission under the random shuffle -/

theorem shuffleDem_append (S : Shuf) : ∀ (l1 l2 : AList (List Nat)) (k0 : Nat),
    shuffleDem S k0 (l1 ++ l2) = shuffleDem S k0 l1 ++ shuffleDem S (k0 + l1.length) l2 := by
  intro l1
  induction l1 with
  | nil => intro l2 k0; simp [shuffleDem]
  | cons x t ih =>
    intro l2 k0
    have harith : k0 + (t.length + 1) = (k0 + 1) + t.length := by omega
    simp only [List.cons_append, shuffleDem, List.append_eq, List.length_cons, harith, ih]

theorem mem_shuffleDem (S : Shuf) : ∀ (l : AList (List Nat)) (k0 : Nat)
    (pr : String × List Nat), pr ∈ shuffleDem S k0 l →
    ∃ pr0 ∈ l, pr.1 = pr0.1 ∧ ∃ k, pr.2 = S.shufN k pr0.2 := by
  intro l
  induction l with
  | nil => intro k0 pr h; cases h
  | cons x t ih =>
    intro k0 pr h
    rcases List.mem_cons.1 h with h1 | h1
    · exact ⟨x, by simp, by rw [h1], k0, by rw [h1]⟩
    · obtain ⟨pr0, hpr0, he1, k, he2⟩ := ih (k0 + 1) pr h1
      exact ⟨pr0, List.mem_cons_of_mem _ hpr0, he1, k, he2⟩

theorem get?_set_of_get?_some {α : Type} {l : List α} {i : Nat} {c : α} (a : α)
    (h : l.get? i = some c) : (l.set i a).get? i = some a := by
  have hlt : i < l.length := by
    by_contra hge
    rw [List.get?_eq_none.2 (by omega)] at h
    cases h
  rw [List.get?_eq_getElem?]
  rw [List.getElem?_set_self]
  simp [List.getElem?_eq_getElem, hlt]

theorem assignIdx_get?_ne (st : PSt) (period hug how : String) (idx j : Nat)
    (h : j ≠ idx) :
    (assignIdx st period hug how idx).campers.get? j = st.campers.get? j := by
  unfold assignIdx
  cases st.campers.get? idx with
  | none => rfl
  | some c =>
    simp only
    exact List.get?_set_ne _ _ (fun he => h he.symm)

theorem assignIdx_hp_lookup_ne (st : PSt) (period hug how : String) (idx : Nat)
    {h2 : String} (hne : h2 ≠ hug) :
    lookupA (assignIdx st period hug how idx).hp h2 = lookupA st.hp h2 := by
  unfold assignIdx
  cases st.campers.get? idx with
  | none => rfl
  | some c =>
    simp only
    exact lookupA_updateA_ne _ _ hne

theorem assignFold_get?_ne (period hug how : String) (j : Nat) :
    ∀ (l : List Nat) (st : PSt), j ∉ l →
    ((l.foldl (fun s idx => assignIdx s period hug how idx) st).campers.get? j =
      st.campers.get? j) := by
  intro l
  induction l with
  | nil => intro st _; rfl
  | cons idx t ih =>
    intro st hj
    rw [List.foldl_cons, ih _ (fun hm => hj (List.mem_cons_of_mem _ hm)),
      assignIdx_get?_ne st period hug how idx j (fun he => hj (he ▸ List.mem_cons_self ..))]

theorem assignFold_hp_lookup_ne (period hug how : String) {h2 : String} (hne : h2 ≠ hug) :
    ∀ (l : List Nat) (st : PSt),
    lookupA ((l.foldl (fun s idx => assignIdx s period hug how idx) st)).hp h2 =
      lookupA st.hp h2 := by
  intro l
  induction l with
  | nil => intro st; rfl
  | cons idx t ih =>
    intro st
    rw [List.foldl_cons, ih, assignIdx_hp_lookup_ne st period hug how idx hne]

theorem admitHug_get?_not_mem (period : String) (r : Nat) (st : PSt) (hug : String)
    (cands : List Nat) (j : Nat) (hj : j ∉ cands) :
    (admitHug period r st hug cands).campers.get? j = st.campers.get? j := by
  unfold admitHug
  cases lookupA st.hp hug with
  | none => rfl
  | some info =>
    exact assignFold_get?_ne period hug (prefStr (r + 1)) j _ st
      (fun hm => hj (List.take_subset _ _ hm))

theorem admitHug_hp_lookup_ne (period : String) (r : Nat) (st : PSt) (hug : String)
    (cands : List Nat) {h2 : String} (hne : h2 ≠ hug) :
    lookupA (admitHug period r st hug cands).hp h2 = lookupA st.hp h2 := by
  unfold admitHug
  cases lookupA st.hp hug with
  | none => rfl
  | some info => exact assignFold_hp_lookup_ne period hug (prefStr (r + 1)) hne _ st

theorem admitFold_get?_ne (period : String) (r : Nat) (j : Nat) :
    ∀ (entries : AList (List Nat)) (st : PSt), (∀ pr ∈ entries, j ∉ pr.2) →
    ((entries.foldl (fun s p => admitHug period r s p.1 p.2) st).campers.get? j =
      st.campers.get? j) := by
  intro entries
  induction entries with
  | nil => intro st _; rfl
  | cons e t ih =>
    intro st he
    rw [List.foldl_cons, ih _ (fun pr hpr => he pr (List.mem_cons_of_mem _ hpr)),
      admitHug_get?_not_mem period r st e.1 e.2 j (he e (by simp))]

theorem admitFold_hp_lookup_ne (period : String) (r : Nat) (hug : String) :
    ∀ (entries : AList (List Nat)) (st : PSt), (∀ pr ∈ entries, pr.1 ≠ hug) →
    lookupA ((entries.foldl (fun s p => admitHug period r s p.1 p.2) st)).hp hug =
      lookupA st.hp hug := by
  intro entries
  induction entries with
  | nil => intro st _; rfl
  | cons e t ih =>
    intro st he
    rw [List.foldl_cons, ih _ (fun pr hpr => he pr (List.mem_cons_of_mem _ hpr)),
      admitHug_hp_lookup_ne period r st e.1 e.2 ((he e (by simp)).symm)]

theorem assignFold_full (period hug how : String) :
    ∀ (l : List Nat) (st : PSt), l.Nodup →
    (∀ i ∈ l, ∃ c, st.campers.get? i = some c ∧ (lookupA c.assignments period).isSome = true) →
    ∀ i ∈ l, ∃ c2,
      (l.foldl (fun s idx => assignIdx s period hug how idx) st).campers.get? i = some c2 ∧
      lookupAssn c2 period = ⟨some hug, some how⟩ := by
  intro l
  induction l with
  | nil => intro st _ _ i hi; cases hi
  | cons idx t ih =>
    intro st hnd hex i hi
    obtain ⟨c, hc, hsome⟩ := hex idx (by simp)
    have hst1 : (assignIdx st period hug how idx).campers =
        st.campers.set idx (setAssn c period ⟨some hug, some how⟩) := by
      unfold assignIdx
      rw [hc]
    rw [List.foldl_cons]
    rcases List.mem_cons.1 hi with h1 | h1
    · subst h1
      refine ⟨setAssn c period ⟨some hug, some how⟩, ?_, ?_⟩
      · rw [assignFold_get?_ne period hug how i t _ (List.nodup_cons.1 hnd).1, hst1]
        exact get?_set_of_get?_some _ hc
      · exact lookupAssn_setAssn_self c _ hsome
    · apply ih (assignIdx st period hug how idx) (List.nodup_cons.1 hnd).2 _ i h1
      intro j hj
      obtain ⟨cj, hcj, hjsome⟩ := hex j (List.mem_cons_of_mem _ hj)
      refine ⟨cj, ?_, hjsome⟩
      rw [assignIdx_get?_ne st period hug how idx j
        (fun he => (List.nodup_cons.1 hnd).1 (he ▸ hj))]
      exact hcj

theorem shuffleDem_cons (S : Shuf) (k0 : Nat) (p : String × List Nat)
    (t : AList (List Nat)) :
    shuffleDem S k0 (p :: t) = (p.1, S.shufN k0 p.2) :: shuffleDem S (k0 + 1) t := rfl

/-- C3 (amended): in a rank round, whenever the remaining capacity of an
activity at the time of rank-r processing covers its whole rank-r demand
pool, every member of the pool is admitted to that activity at rank r (so
denial can only happen under scarcity, where the admitted subset is chosen by
the shuffle and need not respect the cumulative-score priority order). -/
theorem C3_wholePoolAdmittedWhenCapacitySuffices :
    ∀ (S : Shuf) (periods : List String) (period : String) (st : PSt) (prefRank : Nat)
      (ul : List Nat) (hug : String) (cands : List Nat) (info : HugInfo),
    S.Lawful → ul.Nodup →
    (∀ c ∈ st.campers, (lookupA c.assignments period).isSome = true) →
    lookupA (collectDemanders st.campers st.hp periods period prefRank ul) hug = some cands →
    lookupA st.hp hug = some info →
    cands.length ≤ info.capacity - info.enrolled.length →
    ∀ idx ∈ cands, ∃ c2,
      (processRank S periods period st prefRank ul).1.campers.get? idx = some c2 ∧
      lookupAssn c2 period = ⟨some hug, some (prefStr (prefRank + 1))⟩ := by
  intro S periods period st prefRank ul hug cands info hS hnd HK hdem hinfo hcap idx hidx
  obtain ⟨hkeys, hlists⟩ := collect_inv st.campers st.hp periods period prefRank ul hnd
  obtain ⟨hndc, hmemc, hdisjc⟩ := hlists hug cands hdem
  obtain ⟨l1, l2, hdecomp, hl1ne⟩ := lookupA_split hdem
  have hkeys2 := hkeys
  rw [hdecomp] at hkeys2
  simp only [List.map_append, List.map_cons] at hkeys2
  have hhugl2 : ∀ pr ∈ l2, pr.1 ≠ hug := by
    intro pr hpr he
    have hmid : (hug :: l2.map Prod.fst).Nodup := hkeys2.of_append_right
    exact (List.nodup_cons.1 hmid).1 (he ▸ List.mem_map.2 ⟨pr, hpr, rfl⟩)
  have hlookOf : ∀ pr, pr ∈ l1 ∨ pr ∈ l2 →
      lookupA (collectDemanders st.campers st.hp periods period prefRank ul) pr.1 =
        some pr.2 := by
    intro pr hpr
    apply lookupA_of_nodup_mem hkeys
    rw [hdecomp]
    rcases hpr with h1 | h1
    · exact List.mem_append.2 (Or.inl (by simpa using h1))
    · exact List.mem_append.2 (Or.inr (List.mem_cons_of_mem _ (by simpa using h1)))
  have hnotin : ∀ (l0 : AList (List Nat)) (hl0 : ∀ pr ∈ l0, pr ∈ l1 ∨ pr ∈ l2)
      (hne0 : ∀ pr ∈ l0, pr.1 ≠ hug) (k0 : Nat) (i : Nat), i ∈ cands →
      ∀ pr ∈ shuffleDem S k0 l0, i ∉ pr.2 := by
    intro l0 hl0 hne0 k0 i hi pr hpr hmem
    obtain ⟨pr0, hpr0, hke, k, hsh⟩ := mem_shuffleDem S l0 k0 pr hpr
    rw [hsh] at hmem
    have hmem0 : i ∈ pr0.2 := ((hS.1 k pr0.2).mem_iff).1 hmem
    exact hdisjc pr0.1 pr0.2 (hlookOf pr0 (hl0 pr0 hpr0))
      (fun he => hne0 pr0 hpr0 he.symm) i hi hmem0
  unfold processRank
  simp only
  rw [hdecomp, shuffleDem_append, shuffleDem_cons, List.foldl_append, List.foldl_cons]
  have hMpres : ∀ i ∈ cands,
      ((shuffleDem S st.rk l1).foldl (fun s p => admitHug period prefRank s p.1 p.2)
        { st with rk := st.rk + (l1 ++ (hug, cands) :: l2).length }).campers.get? i =
      st.campers.get? i := by
    intro i hi
    exact admitFold_get?_ne period prefRank i (shuffleDem S st.rk l1) _
      (fun pr hpr => hnotin l1 (fun q hq => Or.inl hq) hl1ne st.rk i hi pr hpr)
  have hMhp : lookupA
      ((shuffleDem S st.rk l1).foldl (fun s p => admitHug period prefRank s p.1 p.2)
        { st with rk := st.rk + (l1 ++ (hug, cands) :: l2).length }).hp hug =
      some info := by
    rw [admitFold_hp_lookup_ne period prefRank hug (shuffleDem S st.rk l1) _
      (fun pr hpr => by
        obtain ⟨pr0, hpr0, hke, k, hsh⟩ := mem_shuffleDem S l1 st.rk pr hpr
        rw [hke]
        exact hl1ne pr0 hpr0)]
    exact hinfo
  set stM : PSt :=
    (shuffleDem S st.rk l1).foldl (fun s p => admitHug period prefRank s p.1 p.2)
      { st with rk := st.rk + (l1 ++ (hug, cands) :: l2).length }
  have hAdm : admitHug period prefRank stM hug (S.shufN (st.rk + l1.length) cands) =
      (S.shufN (st.rk + l1.length) cands).foldl
        (fun s idx => assignIdx s period hug (prefStr (prefRank + 1)) idx) stM := by
    unfold admitHug
    rw [hMhp]
    simp only
    rw [List.take_of_length_le]
    rw [(hS.1 (st.rk + l1.length) cands).length_eq]
    exact hcap
  have hShNodup : (S.shufN (st.rk + l1.length) cands).Nodup :=
    (hS.1 (st.rk + l1.length) cands).nodup_iff.2 hndc
  have hAll := assignFold_full period hug (prefStr (prefRank + 1))
    (S.shufN (st.rk + l1.length) cands) stM hShNodup
    (by
      intro i hi
      have hic : i ∈ cands := ((hS.1 (st.rk + l1.length) cands).mem_iff).1 hi
      obtain ⟨c, hc, _, _, _⟩ := (hmemc i hic).2
      refine ⟨c, ?_, HK c (List.get?_mem hc)⟩
      rw [hMpres i hic]
      exact hc)
  have hidxSh : idx ∈ S.shufN (st.rk + l1.length) cands :=
    ((hS.1 (st.rk + l1.length) cands).mem_iff).2 hidx
  obtain ⟨c2, hc2, hc2a⟩ := hAll idx hidxSh
  refine ⟨c2, ?_, hc2a⟩
  rw [admitFold_get?_ne period prefRank idx (shuffleDem S (st.rk + l1.length + 1) l2) _
    (fun pr hpr => hnotin l2 (fun q hq => Or.inr hq) hhugl2 (st.rk + l1.length + 1)
      idx hidx pr hpr)]
  rw [hAdm]
  exact hc2

/-- Witness for the amended C3 at a concrete state with two rank-1 demanders
and two free seats: both are admitted at rank 1. -/
theorem C3_wholePoolAdmitted_witness :
    Shuf.Lawful idShuf ∧ ([0, 1] : List Nat).Nodup ∧
    (∀ c ∈ exC3wst.campers, (lookupA c.assignments "P").isSome = true) ∧
    lookupA (collectDemanders exC3wst.campers exC3wst.hp ["P"] "P" 0 [0, 1]) "X" =
      some [0, 1] ∧
    lookupA exC3wst.hp "X" = some ⟨2, 0, []⟩ ∧
    ([0, 1] : List Nat).length ≤ 2 - 0 ∧
    (∀ idx ∈ ([0, 1] : List Nat), ∃ c2,
      (processRank idShuf ["P"] "P" exC3wst 0 [0, 1]).1.campers.get? idx = some c2 ∧
      lookupAssn c2 "P" = ⟨some "X", some (prefStr 1)⟩) :=
  ⟨⟨fun _ l => List.Perm.refl l, fun _ l => List.Perm.refl l⟩, by decide, by decide,
    by decide, by decide, by decide,
    C3_wholePoolAdmittedWhenCapacitySuffices idShuf ["P"] "P" exC3wst 0 [0, 1] "X"
      [0, 1] ⟨2, 0, []⟩
      ⟨fun _ l => List.Perm.refl l, fun _ l => List.Perm.refl l⟩
      (by decide) (by decide) (by decide) (by decide) (by decide)⟩

/-- C3 counterexample to the claim as stated: one seat is available at rank-1
processing, both campers demand X at rank 1, the lower-priority camper (B,
cumulative score 10 > 0) is admitted by a lawful shuffle outcome while the
higher-priority camper (A) is denied. -/
theorem C3_priorityCounterexample :
    Shuf.Lawful revShuf ∧
    totalScore exC3lo < totalScore exC3hi ∧
    (lookupA exC3st.hp "X").map (fun i => i.capacity - i.enrolled.length) = some 1 ∧
    lookupA (collectDemanders exC3st.campers exC3st.hp ["P"] "P" 0
      (sortByScore exC3st.campers (unassignedIdxs exC3st.campers "P"))) "X" =
      some [0, 1] ∧
    ((assignPeriodSt revShuf 1 "P" exC3st).campers.map fun c =>
      (c.camperID, (lookupAssn c "P").hug, (lookupAssn c "P").how)) =
      [("A", none, some "All activities full in this period."),
       ("B", some "X", some "Pref_1")] :=
  ⟨⟨fun _ l => l.reverse_perm, fun _ l => l.reverse_perm⟩,
    by decide, by decide, by decide, by decide⟩

/-! ## Claim C6: campers with an empty preference list -/

theorem processRank_empty_prefs (S : Shuf) (periods : List String) (period : String)
    (st : PSt) (r : Nat) (ul : List Nat) (i : Nat) (c : Camper)
    (hS : S.Lawful) (hnd : ul.Nodup) (hc : st.campers.get? i = some c)
    (hpr : lookupPrefs c period = []) (hun : (lookupAssn c period).hug = none)
    (hiul : i ∈ ul) :
    (processRank S periods period st r ul).1.campers.get? i = some c ∧
    i ∈ (processRank S periods period st r ul).2 ∧
    (processRank S periods period st r ul).2.Nodup := by
  obtain ⟨hkeys, hlists⟩ := collect_inv st.campers st.hp periods period r ul hnd
  have hnotin : ∀ pr ∈ shuffleDem S st.rk
      (collectDemanders st.campers st.hp periods period r ul), i ∉ pr.2 := by
    intro pr hpr2 hmem
    obtain ⟨pr0, hpr0, hke, k, hsh⟩ := mem_shuffleDem S _ st.rk pr hpr2
    rw [hsh] at hmem
    have hmem0 : i ∈ pr0.2 := ((hS.1 k pr0.2).mem_iff).1 hmem
    have hlook : lookupA (collectDemanders st.campers st.hp periods period r ul) pr0.1 =
        some pr0.2 := lookupA_of_nodup_mem hkeys (by simpa using hpr0)
    obtain ⟨cj, hcj, hgets, _, _⟩ := ((hlists pr0.1 pr0.2 hlook).2.1 i hmem0).2
    rw [hc] at hcj
    injection hcj with hcj
    subst hcj
    rw [hpr] at hgets
    simp at hgets
  have hfold : ((shuffleDem S st.rk
      (collectDemanders st.campers st.hp periods period r ul)).foldl
        (fun s p => admitHug period r s p.1 p.2)
        { st with rk := st.rk + (collectDemanders st.campers st.hp periods period r ul).length
          }).campers.get? i = some c := by
    rw [admitFold_get?_ne period r i _ _ hnotin]
    exact hc
  refine ⟨?_, ?_, ?_⟩
  · unfold processRank
    simp only
    exact hfold
  · unfold processRank
    simp only
    apply List.mem_filter.2
    refine ⟨hiul, ?_⟩
    rw [hfold]
    simp [hun]
  · unfold processRank
    simp only
    exact List.Nodup.filter _ hnd

theorem randomFill_empty_prefs (S : Shuf) (periods : List String) (period : String)
    (st : PSt) (ul : List Nat) (i : Nat) (c : Camper)
    (hc : st.campers.get? i = some c) (hpr : lookupPrefs c period = []) :
    (randomFill S periods period st ul).campers.get? i = some c := by
  unfold randomFill
  simp only
  apply foldl_pres (fun s : PSt => s.campers.get? i = some c)
  · intro s j _ hs
    by_cases hji : j = i
    · subst hji
      rw [hs]
      simp only
      rw [if_pos (by rw [hpr]; rfl)]
      exact hs
    · split
      · exact hs
      · split
        · exact hs
        · split
          · rename_i cj hcj hemp hug hf
            rw [assignIdx_get?_ne s period hug "Random" j i (fun he => hji he.symm)]
            exact hs
          · exact hs
  · exact hc

theorem annotateStep_get?_ne (period : String) (hp : AList HugInfo) (j i : Nat)
    (hne : j ≠ i) (cs : List Camper) :
    (match cs.get? j with
      | none => cs
      | some cj =>
        if (lookupAssn cj period).hug.isNone
        then cs.set j (setHow cj period (some (getUnassignmentReason cs j period hp)))
        else cs).get? i = cs.get? i := by
  cases cs.get? j with
  | none => rfl
  | some cj =>
    simp only
    by_cases hu : (lookupAssn cj period).hug.isNone = true
    · rw [if_pos hu]
      exact List.get?_set_ne _ _ hne
    · rw [if_neg hu]

theorem annotateFold_get?_not_mem (period : String) (hp : AList HugInfo) (i : Nat) :
    ∀ (ul : List Nat) (cs : List Camper), i ∉ ul →
    (ul.foldl (fun cs idx =>
      match cs.get? idx with
      | none => cs
      | some cj =>
        if (lookupAssn cj period).hug.isNone
        then cs.set idx (setHow cj period (some (getUnassignmentReason cs idx period hp)))
        else cs) cs).get? i = cs.get? i := by
  intro ul
  induction ul with
  | nil => intro cs _; rfl
  | cons j t ih =>
    intro cs hni
    rw [List.foldl_cons, ih _ (fun hm => hni (List.mem_cons_of_mem _ hm))]
    exact annotateStep_get?_ne period hp j i (fun he => hni (he ▸ List.mem_cons_self ..)) cs

theorem annotateFold_at (period : String) (hp : AList HugInfo) (i : Nat) (c : Camper) :
    ∀ (ul : List Nat) (cs : List Camper), ul.Nodup → cs.get? i = some c →
    (lookupAssn c period).hug = none → i ∈ ul →
    (ul.foldl (fun cs idx =>
      match cs.get? idx with
      | none => cs
      | some cj =>
        if (lookupAssn cj period).hug.isNone
        then cs.set idx (setHow cj period (some (getUnassignmentReason cs idx period hp)))
        else cs) cs).get? i =
      some (setHow c period (some (reasonOfCamper c period hp))) := by
  intro ul
  induction ul with
  | nil => intro cs _ _ _ hmem; cases hmem
  | cons j t ih =>
    intro cs hnd hc hun hmem
    rw [List.foldl_cons]
    by_cases hji : j = i
    · subst hji
      have hstep : (match cs.get? j with
          | none => cs
          | some cj =>
            if (lookupAssn cj period).hug.isNone
            then cs.set j (setHow cj period (some (getUnassignmentReason cs j period hp)))
            else cs) = cs.set j (setHow c period (some (reasonOfCamper c period hp))) := by
        rw [hc]
        simp only
        rw [if_pos (by rw [hun]; rfl)]
        unfold getUnassignmentReason
        rw [hc]
      rw [hstep]
      rw [annotateFold_get?_not_mem period hp j t _ (List.nodup_cons.1 hnd).1]
      exact get?_set_of_get?_some _ hc
    · apply ih _ (List.nodup_cons.1 hnd).2 ?_ hun ?_
      · rw [annotateStep_get?_ne period hp j i hji cs]
        exact hc
      · rcases List.mem_cons.1 hmem with h1 | h1
        · exact absurd h1.symm hji
        · exact h1

/-- C6 (amended): a camper with an empty preference list for a period is never
assigned by the Round Allocator (in particular never random-filled): they end
the pass unassigned and the diagnostic reason is written into their record;
that reason is "No preferences listed for this period." precisely when some
activity is offered with a free seat that the camper does not already hold —
otherwise one of the earlier diagnoses (no activities offered / all full / no
non-repeating activity) is reported instead. -/
theorem C6_emptyPrefsNeverRandomFilled :
    ∀ (S : Shuf) (K : Nat) (period : String) (st : PSt) (i : Nat) (c : Camper),
    S.Lawful →
    st.campers.get? i = some c →
    lookupPrefs c period = [] →
    (lookupAssn c period).hug = none →
    ((assignPeriodSt S K period st).campers.get? i =
      some (setHow c period
        (some (reasonOfCamper c period (assignPeriodSt S K period st).hp)))) ∧
    ((lookupAssn (setHow c period
        (some (reasonOfCamper c period (assignPeriodSt S K period st).hp))) period).hug =
      none) ∧
    (¬(assignPeriodSt S K period st).hp.isEmpty = true →
      ¬(availableHugs (assignPeriodSt S K period st).hp).isEmpty = true →
      ¬(assignableHugs (assignPeriodSt S K period st).hp c period).isEmpty = true →
      reasonOfCamper c period (assignPeriodSt S K period st).hp =
        "No preferences listed for this period.") := by
  intro S K period st i c hS hc hpr hun
  have hiul0 : i ∈ sortByScore st.campers (unassignedIdxs st.campers period) := by
    apply ((sortBy_perm _ _).mem_iff).2
    apply List.mem_filter.2
    constructor
    · apply List.mem_range.2
      by_contra hge
      rw [List.get?_eq_none.2 (by omega)] at hc
      cases hc
    · rw [hc]
      simp [hun]
  have hnd0 : (sortByScore st.campers (unassignedIdxs st.campers period)).Nodup :=
    (sortBy_perm _ _).nodup_iff.2 (List.Nodup.filter _ (List.nodup_range _))
  set acc : PSt × List Nat :=
    (List.range (max 3 K)).foldl
      (fun acc r => processRank S (periodsOf st.campers) period acc.1 r acc.2)
      (st, sortByScore st.campers (unassignedIdxs st.campers period)) with haccdef
  have hfold := foldl_pres
    (fun acc : PSt × List Nat =>
      acc.1.campers.get? i = some c ∧ i ∈ acc.2 ∧ acc.2.Nodup)
    (fun acc r => processRank S (periodsOf st.campers) period acc.1 r acc.2)
    (List.range (max 3 K))
    (st, sortByScore st.campers (unassignedIdxs st.campers period))
    (fun acc r _ hacc =>
      processRank_empty_prefs S (periodsOf st.campers) period acc.1 r acc.2 i c hS
        hacc.2.2 hacc.1 hpr hun hacc.2.1)
    ⟨hc, hiul0, hnd0⟩
  rw [← haccdef] at hfold
  have h2 := randomFill_empty_prefs S (periodsOf st.campers) period acc.1 acc.2 i c
    hfold.1 hpr
  constructor
  · show (assignPeriodSt S K period st).campers.get? i = _
    unfold assignPeriodSt
    simp only
    unfold annotateReasons
    simp only
    rw [annotateFold_at period _ i c _ _ hfold.2.2 h2 hun hfold.2.1]
  · constructor
    · rw [lookupAssn_setHow_hug]
      exact hun
    · intro h1 h2b h3
      unfold reasonOfCamper
      rw [if_neg h1, if_neg h2b, if_neg h3, if_pos (by rw [hpr]; rfl)]

/-- Witness for the amended C6: with a free seat available, the
empty-preferences camper is left unassigned with reason "No preferences
listed for this period." and is not random-filled. -/
theorem C6_emptyPrefs_witness :
    Shuf.Lawful idShuf ∧
    exC6witSt.campers.get? 0 = some exC6c ∧
    lookupPrefs exC6c "P" = [] ∧
    (lookupAssn exC6c "P").hug = none ∧
    ((assignPeriodSt idShuf 1 "P" exC6witSt).campers.get? 0 =
      some (setHow exC6c "P"
        (some (reasonOfCamper exC6c "P" (assignPeriodSt idShuf 1 "P" exC6witSt).hp)))) ∧
    reasonOfCamper exC6c "P" (assignPeriodSt idShuf 1 "P" exC6witSt).hp =
      "No preferences listed for this period." := by
  have h := C6_emptyPrefsNeverRandomFilled idShuf 1 "P" exC6witSt 0 exC6c
    ⟨fun _ l => List.Perm.refl l, fun _ l => List.Perm.refl l⟩
    (by decide) (by decide) (by decide)
  exact ⟨⟨fun _ l => List.Perm.refl l, fun _ l => List.Perm.refl l⟩,
    by decide, by decide, by decide, h.1,
    h.2.2 (by decide) (by decide) (by decide)⟩

/-- C6 counterexample to the claim as stated: when every activity of the
period is full, the empty-preferences camper ends the pass unassigned but
with the reason "All activities full in this period.", not "no preferences
listed" (the diagnosis checks fullness first). -/
theorem C6_reasonCounterexample :
    lookupPrefs exC6c "P" = [] ∧
    ((assignPeriodSt idShuf 1 "P" exC6cexSt).campers.map fun c =>
      ((lookupAssn c "P").hug, (lookupAssn c "P").how)) =
      [(none, some "All activities full in this period.")] ∧
    "All activities full in this period." ≠ "No preferences listed for this period." := by
  refine ⟨by decide, by decide, by decide⟩


/-! ## Claim C2: cross-period uniqueness -/

theorem uniq_setAssn_some {c : Camper} {period hug : String} (how : Option String)
    (hu : camperUnique c) (hno : NoOtherHold c period hug) :
    camperUnique (setAssn c period ⟨some hug, how⟩) := by
  intro p1 hp1 p2 hp2 hne
  rw [keys_setAssn] at hp1 hp2
  by_cases h1 : p1 = period
  · subst h1
    right
    rw [lookupAssn_setAssn_self c _ (lookupA_isSome_iff.2 hp1),
      lookupAssn_setAssn_ne c _ (Ne.symm hne)]
    exact fun he => hno p2 (Ne.symm hne) he.symm
  · by_cases h2 : p2 = period
    · subst h2
      right
      rw [lookupAssn_setAssn_ne c _ h1,
        lookupAssn_setAssn_self c _ (lookupA_isSome_iff.2 hp2)]
      exact hno p1 h1
    · rw [lookupAssn_setAssn_ne c _ h1, lookupAssn_setAssn_ne c _ h2]
      exact hu p1 hp1 p2 hp2 hne

theorem uniq_setAssn_none {c : Camper} {period : String}
    (hu : camperUnique c) : camperUnique (setAssn c period ⟨none, none⟩) := by
  intro p1 hp1 p2 hp2 hne
  rw [keys_setAssn] at hp1 hp2
  by_cases h1 : p1 = period
  · subst h1
    left
    rw [lookupAssn_setAssn_self c _ (lookupA_isSome_iff.2 hp1)]
  · by_cases h2 : p2 = period
    · subst h2
      rw [lookupAssn_setAssn_ne c _ h1,
        lookupAssn_setAssn_self c _ (lookupA_isSome_iff.2 hp2)]
      cases hh : (lookupAssn c p1).hug with
      | none => exact Or.inl rfl
      | some x => exact Or.inr (by simp)
    · rw [lookupAssn_setAssn_ne c _ h1, lookupAssn_setAssn_ne c _ h2]
      exact hu p1 hp1 p2 hp2 hne

theorem uniq_setHow {c : Camper} {period : String} {how : Option String}
    (hu : camperUnique c) : camperUnique (setHow c period how) := by
  intro p1 hp1 p2 hp2 hne
  rw [keys_setHow] at hp1 hp2
  rw [lookupAssn_setHow_hug, lookupAssn_setHow_hug]
  exact hu p1 hp1 p2 hp2 hne

theorem forall2_refl {α : Type} {R : α → α → Prop} (hr : ∀ a, R a a) :
    ∀ l : List α, List.Forall₂ R l l
  | [] => List.Forall₂.nil
  | a :: t => List.Forall₂.cons (hr a) (forall2_refl hr t)

theorem forall2_trans {α : Type} {R : α → α → Prop}
    (hr : ∀ a b c, R a b → R b c → R a c) :
    ∀ {l1 l2 l3 : List α}, List.Forall₂ R l1 l2 → List.Forall₂ R l2 l3 →
      List.Forall₂ R l1 l3 := by
  intro l1 l2 l3 h12 h23
  induction h12 generalizing l3 with
  | nil => cases h23; exact List.Forall₂.nil
  | cons hab h ih =>
    cases h23 with
    | cons hbc h2 => exact List.Forall₂.cons (hr _ _ _ hab hbc) (ih h2)

theorem forall2_get_right {α : Type} {R : α → α → Prop} :
    ∀ {l1 l2 : List α}, List.Forall₂ R l1 l2 → ∀ {i : Nat} {b : α},
      l2.get? i = some b → ∃ a, l1.get? i = some a ∧ R a b := by
  intro l1 l2 h
  induction h with
  | nil => intro i b hb; simp at hb
  | cons hab h ih =>
    intro i b hb
    cases i with
    | zero =>
      rw [List.get?_cons_zero] at hb
      cases hb
      exact ⟨_, rfl, hab⟩
    | succ n =>
      rw [List.get?_cons_succ] at hb
      exact ih hb

theorem forall2_set_right {α : Type} {R : α → α → Prop} :
    ∀ {l1 l2 : List α}, List.Forall₂ R l1 l2 → ∀ {i : Nat} {b' : α},
      (∀ a, l1.get? i = some a → R a b') →
      List.Forall₂ R l1 (l2.set i b') := by
  intro l1 l2 h
  induction h with
  | nil =>
    intro i b' _
    rw [List.set_nil]
    exact List.Forall₂.nil
  | cons hab h ih =>
    intro i b' hr
    cases i with
    | zero =>
      rw [List.set_cons_zero]
      exact List.Forall₂.cons (hr _ (by rw [List.get?_cons_zero])) h
    | succ n =>
      rw [List.set_cons_succ]
      exact List.Forall₂.cons hab
        (ih (fun a ha => hr a (by rw [List.get?_cons_succ]; exact ha)))

theorem forall2_mem_right {α : Type} {R : α → α → Prop} :
    ∀ {l1 l2 : List α}, List.Forall₂ R l1 l2 → ∀ {b : α}, b ∈ l2 →
      ∃ a ∈ l1, R a b := by
  intro l1 l2 h
  induction h with
  | nil => intro b hb; cases hb
  | cons hab h ih =>
    intro b hb
    rcases List.mem_cons.1 hb with h1 | h1
    · subst h1
      exact ⟨_, List.mem_cons_self _ _, hab⟩
    · obtain ⟨a, ha, har⟩ := ih h1
      exact ⟨a, List.mem_cons_of_mem _ ha, har⟩

theorem outsideEq_refl (period : String) (c : Camper) : OutsideEq period c c :=
  ⟨rfl, rfl, rfl, rfl, fun _ _ => rfl⟩

theorem outsideEq_trans {period : String} {a b c : Camper}
    (h1 : OutsideEq period a b) (h2 : OutsideEq period b c) : OutsideEq period a c :=
  ⟨h2.1.trans h1.1, h2.2.1.trans h1.2.1, h2.2.2.1.trans h1.2.2.1,
   h2.2.2.2.1.trans h1.2.2.2.1,
   fun p hp => (h2.2.2.2.2 p hp).trans (h1.2.2.2.2 p hp)⟩

theorem outsideEq_setAssn (period : String) (c : Camper) (a : Assn) :
    OutsideEq period c (setAssn c period a) :=
  ⟨rfl, rfl, rfl, keys_setAssn c period a, fun p hp => lookupAssn_setAssn_ne c a hp⟩

theorem outsideEq_setHow (period : String) (c : Camper) (how : Option String) :
    OutsideEq period c (setHow c period how) :=
  ⟨rfl, rfl, rfl, keys_setHow c period how, fun p hp => lookupAssn_setHow_ne c how hp⟩

theorem outsideEqL_refl (period : String) (campers : List Camper) :
    OutsideEqL period campers campers :=
  forall2_refl (outsideEq_refl period) campers

theorem outsideEqL_trans {period : String} {l1 l2 l3 : List Camper}
    (h1 : OutsideEqL period l1 l2) (h2 : OutsideEqL period l2 l3) :
    OutsideEqL period l1 l3 := by
  refine forall2_trans ?_ h1 h2
  intro a b c hab hbc
  exact outsideEq_trans hab hbc

theorem outsideEqL_set {period : String} {campers0 campers : List Camper}
    (h : OutsideEqL period campers0 campers) {idx : Nat} {c2 : Camper}
    (hc : ∀ c0, campers0.get? idx = some c0 → OutsideEq period c0 c2) :
    OutsideEqL period campers0 (campers.set idx c2) :=
  forall2_set_right h hc

theorem uniqueInv_set {campers : List Camper} (hu : UniqueInv campers) {idx : Nat}
    {c2 : Camper} (hc : camperUnique c2) : UniqueInv (campers.set idx c2) := by
  intro c hcm
  rcases List.mem_or_eq_of_mem_set hcm with h1 | h1
  · exact hu c h1
  · subst h1; exact hc

theorem keysAll_of_outsideEqL {period : String} {campers0 campers : List Camper}
    {periods : List String} (h : OutsideEqL period campers0 campers)
    (hk : ∀ c ∈ campers0, c.assignments.map Prod.fst = periods) :
    ∀ c ∈ campers, c.assignments.map Prod.fst = periods := by
  intro c hc
  obtain ⟨c0, hc0, ho⟩ := forall2_mem_right h hc
  rw [ho.2.2.2.1]
  exact hk c0 hc0

theorem noOtherHold_transfer {c0 c : Camper} {periods : List String} {period hug : String}
    (hkeys : c0.assignments.map Prod.fst = periods)
    (halready : alreadyHasHug periods c0 period hug = false)
    (ho : OutsideEq period c0 c) : NoOtherHold c period hug := by
  intro p hp heq
  rw [ho.2.2.2.2 p hp] at heq
  by_cases hpin : p ∈ c0.assignments.map Prod.fst
  · have hpper : p ∈ periods := hkeys ▸ hpin
    have hcontra : alreadyHasHug periods c0 period hug = true := by
      unfold alreadyHasHug
      rw [List.any_eq_true]
      refine ⟨p, hpper, ?_⟩
      simp [hp, heq]
    rw [hcontra] at halready
    cases halready
  · rw [lookupAssn, lookupA_eq_none hpin] at heq
    simp at heq

theorem noOtherHold_self {c : Camper} {periods : List String} {period hug : String}
    (hkeys : c.assignments.map Prod.fst = periods)
    (halready : alreadyHasHug periods c period hug = false) : NoOtherHold c period hug :=
  noOtherHold_transfer hkeys halready (outsideEq_refl period c)


theorem uniq_assignIdx_direct {period hug how : String} {campers0 : List Camper}
    {st : PSt} {idx : Nat}
    (h1 : OutsideEqL period campers0 st.campers)
    (h2 : UniqueInv st.campers)
    (hno : ∀ c, st.campers.get? idx = some c → NoOtherHold c period hug) :
    UniqueInv (assignIdx st period hug how idx).campers ∧
    OutsideEqL period campers0 (assignIdx st period hug how idx).campers := by
  unfold assignIdx
  cases hc : st.campers.get? idx with
  | none => exact ⟨h2, h1⟩
  | some c =>
    simp only
    refine ⟨uniqueInv_set h2 (uniq_setAssn_some _ (h2 c (List.get?_mem hc)) (hno c hc)), ?_⟩
    refine outsideEqL_set h1 (fun c1 hc1 => ?_)
    obtain ⟨c0, hc0, ho⟩ := forall2_get_right h1 hc
    rw [hc0] at hc1
    cases hc1
    exact outsideEq_trans ho (outsideEq_setAssn period c _)

theorem uniq_assignIdx {period hug how : String} {periods : List String}
    {campers0 : List Camper} {st : PSt} {idx : Nat}
    (h1 : OutsideEqL period campers0 st.campers)
    (h2 : UniqueInv st.campers)
    (h3 : ∀ c0, campers0.get? idx = some c0 →
      alreadyHasHug periods c0 period hug = false)
    (h4 : ∀ c0 ∈ campers0, c0.assignments.map Prod.fst = periods) :
    UniqueInv (assignIdx st period hug how idx).campers ∧
    OutsideEqL period campers0 (assignIdx st period hug how idx).campers := by
  refine uniq_assignIdx_direct h1 h2 (fun c hc => ?_)
  obtain ⟨c0, hc0, ho⟩ := forall2_get_right h1 hc
  exact noOtherHold_transfer (h4 c0 (List.get?_mem hc0)) (h3 c0 hc0) ho

theorem uniq_assignFold (period hug how : String) (periods : List String)
    (campers0 : List Camper) :
    ∀ (l : List Nat) (st : PSt),
    OutsideEqL period campers0 st.campers →
    UniqueInv st.campers →
    (∀ i ∈ l, ∀ c0, campers0.get? i = some c0 →
      alreadyHasHug periods c0 period hug = false) →
    (∀ c0 ∈ campers0, c0.assignments.map Prod.fst = periods) →
    UniqueInv ((l.foldl (fun s idx => assignIdx s period hug how idx) st).campers) ∧
    OutsideEqL period campers0
      ((l.foldl (fun s idx => assignIdx s period hug how idx) st).campers) := by
  intro l
  induction l with
  | nil => intro st h1 h2 _ _; exact ⟨h2, h1⟩
  | cons idx t ih =>
    intro st h1 h2 h3 h4
    rw [List.foldl_cons]
    have hstep := @uniq_assignIdx period hug how periods campers0 st idx h1 h2
      (h3 idx (by simp)) h4
    exact ih _ hstep.2 hstep.1 (fun i hi => h3 i (List.mem_cons_of_mem _ hi)) h4

theorem uniq_admitHug (period : String) (r : Nat) (hug : String) (cands : List Nat)
    (periods : List String) (campers0 : List Camper) (st : PSt)
    (h1 : OutsideEqL period campers0 st.campers)
    (h2 : UniqueInv st.campers)
    (h3 : ∀ i ∈ cands, ∀ c0, campers0.get? i = some c0 →
      alreadyHasHug periods c0 period hug = false)
    (h4 : ∀ c0 ∈ campers0, c0.assignments.map Prod.fst = periods) :
    UniqueInv ((admitHug period r st hug cands).campers) ∧
    OutsideEqL period campers0 ((admitHug period r st hug cands).campers) := by
  unfold admitHug
  cases lookupA st.hp hug with
  | none => exact ⟨h2, h1⟩
  | some info =>
    exact uniq_assignFold period hug (prefStr (r + 1)) periods campers0 _ st h1 h2
      (fun i hi => h3 i (List.take_subset _ _ hi)) h4

theorem processRank_snd_nodup (S : Shuf) (periods : List String) (period : String)
    (st : PSt) (r : Nat) (ul : List Nat) (h : ul.Nodup) :
    (processRank S periods period st r ul).2.Nodup := by
  unfold processRank
  simp only
  exact h.filter _


theorem uniq_processRank (S : Shuf) (periods : List String) (period : String)
    (st : PSt) (r : Nat) (ul : List Nat)
    (hS : S.Lawful) (hnd : ul.Nodup)
    (h2 : UniqueInv st.campers)
    (h4 : ∀ c0 ∈ st.campers, c0.assignments.map Prod.fst = periods) :
    UniqueInv ((processRank S periods period st r ul).1.campers) ∧
    OutsideEqL period st.campers ((processRank S periods period st r ul).1.campers) := by
  have hdeminv := collect_inv st.campers st.hp periods period r ul hnd
  unfold processRank
  simp only
  apply foldl_pres
    (fun s : PSt => UniqueInv s.campers ∧ OutsideEqL period st.campers s.campers)
  · intro s pr hpr hs
    obtain ⟨pr0, hpr0, hfst, k, hsnd⟩ := mem_shuffleDem S _ _ pr hpr
    have hlook : lookupA (collectDemanders st.campers st.hp periods period r ul) pr0.1 =
        some pr0.2 := lookupA_of_nodup_mem hdeminv.1 hpr0
    have hdem := (hdeminv.2 pr0.1 pr0.2 hlook).2.1
    refine uniq_admitHug period r pr.1 pr.2 periods st.campers s hs.2 hs.1 ?_ h4
    intro i hi c0 hc0
    rw [hsnd] at hi
    have hi2 : i ∈ pr0.2 := (hS.1 k pr0.2).mem_iff.1 hi
    have hok := (hdem i hi2).2
    unfold DemOK at hok
    obtain ⟨c, hgc, hpref, hoff, halr⟩ := hok
    rw [hgc] at hc0
    cases hc0
    rw [hfst]
    exact halr
  · exact ⟨h2, outsideEqL_refl period st.campers⟩

theorem uniq_randomFill (S : Shuf) (periods : List String) (period : String)
    (st : PSt) (ul : List Nat) (campers0 : List Camper)
    (h1 : OutsideEqL period campers0 st.campers)
    (h2 : UniqueInv st.campers)
    (h4 : ∀ c0 ∈ campers0, c0.assignments.map Prod.fst = periods) :
    UniqueInv ((randomFill S periods period st ul).campers) ∧
    OutsideEqL period campers0 ((randomFill S periods period st ul).campers) := by
  unfold randomFill
  simp only
  apply foldl_pres
    (fun s : PSt => UniqueInv s.campers ∧ OutsideEqL period campers0 s.campers)
  · intro s idx _ hs
    split
    · exact hs
    · split
      · exact hs
      · split
        · rename_i oc c hc hprefs hos hug hf
          have hp := List.find?_some hf
          cases hl2 : lookupA s.hp hug with
          | none => rw [hl2] at hp; cases hp
          | some info =>
            rw [hl2] at hp
            simp only [Bool.and_eq_true] at hp
            have halr : alreadyHasHug periods c period hug = false := by
              cases hx : alreadyHasHug periods c period hug
              · rfl
              · rw [hx] at hp; simp at hp
            refine uniq_assignIdx_direct hs.2 hs.1 (fun c2 hc2 => ?_)
            rw [hc] at hc2
            cases hc2
            exact noOtherHold_self
              (keysAll_of_outsideEqL hs.2 h4 c (List.get?_mem hc)) halr
        · exact hs
  · exact ⟨h2, h1⟩

theorem uniq_annotateReasons (period : String) (st : PSt) (ul : List Nat)
    (campers0 : List Camper)
    (h1 : OutsideEqL period campers0 st.campers)
    (h2 : UniqueInv st.campers) :
    UniqueInv ((annotateReasons period st ul).campers) ∧
    OutsideEqL period campers0 ((annotateReasons period st ul).campers) := by
  unfold annotateReasons
  simp only
  apply foldl_pres
    (fun cs : List Camper => UniqueInv cs ∧ OutsideEqL period campers0 cs)
  · intro cs idx _ hcs
    split
    · exact hcs
    · split
      · rename_i c hc hcond
        refine ⟨uniqueInv_set hcs.1 (uniq_setHow (hcs.1 c (List.get?_mem hc))), ?_⟩
        refine outsideEqL_set hcs.2 (fun c1 hc1 => ?_)
        obtain ⟨c0, hc0, ho⟩ := forall2_get_right hcs.2 hc
        rw [hc0] at hc1
        cases hc1
        exact outsideEq_trans ho (outsideEq_setHow period c _)
      · exact hcs
  · exact ⟨h2, h1⟩

theorem uniq_assignPeriodSt (S : Shuf) (K : Nat) (period : String) (st0 : PSt)
    (hS : S.Lawful)
    (h2 : UniqueInv st0.campers)
    (hkeys : ∀ c ∈ st0.campers, c.assignments.map Prod.fst = periodsOf st0.campers) :
    UniqueInv ((assignPeriodSt S K period st0).campers) ∧
    OutsideEqL period st0.campers ((assignPeriodSt S K period st0).campers) := by
  unfold assignPeriodSt
  simp only
  have hmain : ∀ (rs : List Nat) (acc : PSt × List Nat),
      UniqueInv acc.1.campers → OutsideEqL period st0.campers acc.1.campers →
      acc.2.Nodup →
      (UniqueInv ((rs.foldl (fun (a : PSt × List Nat) r =>
          processRank S (periodsOf st0.campers) period a.1 r a.2) acc).1.campers) ∧
       OutsideEqL period st0.campers ((rs.foldl (fun (a : PSt × List Nat) r =>
          processRank S (periodsOf st0.campers) period a.1 r a.2) acc).1.campers)) ∧
      ((rs.foldl (fun (a : PSt × List Nat) r =>
          processRank S (periodsOf st0.campers) period a.1 r a.2) acc).2).Nodup := by
    intro rs
    induction rs with
    | nil => intro acc ha hb hc; exact ⟨⟨ha, hb⟩, hc⟩
    | cons r t ih =>
      intro acc ha hb hc
      rw [List.foldl_cons]
      have hstep := uniq_processRank S (periodsOf st0.campers) period acc.1 r acc.2
        hS hc ha (keysAll_of_outsideEqL hb hkeys)
      exact ih _ hstep.1 (outsideEqL_trans hb hstep.2)
        (processRank_snd_nodup S _ period acc.1 r acc.2 hc)
  have hndu : (unassignedIdxs st0.campers period).Nodup := by
    unfold unassignedIdxs
    exact (List.nodup_range _).filter _
  have hul0 : (sortByScore st0.campers (unassignedIdxs st0.campers period)).Nodup := by
    unfold sortByScore
    exact (sortBy_perm _ _).nodup_iff.2 hndu
  have hr := hmain (List.range (max 3 K))
    (st0, sortByScore st0.campers (unassignedIdxs st0.campers period))
    h2 (outsideEqL_refl period st0.campers) hul0
  have hrf := uniq_randomFill S (periodsOf st0.campers) period
    ((List.range (max 3 K)).foldl (fun (a : PSt × List Nat) r =>
      processRank S (periodsOf st0.campers) period a.1 r a.2)
      (st0, sortByScore st0.campers (unassignedIdxs st0.campers period))).1
    ((List.range (max 3 K)).foldl (fun (a : PSt × List Nat) r =>
      processRank S (periodsOf st0.campers) period a.1 r a.2)
      (st0, sortByScore st0.campers (unassignedIdxs st0.campers period))).2
    st0.campers hr.1.2 hr.1.1 hkeys
  exact uniq_annotateReasons period _ _ st0.campers hrf.2 hrf.1


theorem assnConsistB_none {hugim : AList (AList HugInfo)} {c : Camper}
    {p : String} {a : Assn} (hh : a.hug = none) :
    assnConsistB hugim c (p, a) = true := by
  simp [assnConsistB, hh]

theorem assnConsistB_intro {hugim : AList (AList HugInfo)} {c : Camper}
    {p h : String} {a : Assn} {m : AList HugInfo} {info : HugInfo}
    (hh : a.hug = some h) (hm : lookupA hugim p = some m)
    (hi : lookupA m h = some info) (hmem : c.camperID ∈ info.enrolled) :
    assnConsistB hugim c (p, a) = true := by
  simp only [assnConsistB, hh, hm, hi]
  exact decide_eq_true hmem

theorem assnConsistB_spec {hugim : AList (AList HugInfo)} {c : Camper} {p h : String}
    {a : Assn} (hh : a.hug = some h) (hb : assnConsistB hugim c (p, a) = true) :
    ∃ m info, lookupA hugim p = some m ∧ lookupA m h = some info ∧
      c.camperID ∈ info.enrolled := by
  simp only [assnConsistB, hh] at hb
  cases hm : lookupA hugim p with
  | none => simp only [hm] at hb; simp at hb
  | some m =>
    simp only [hm] at hb
    cases hi : lookupA m h with
    | none => simp only [hi] at hb; simp at hb
    | some info =>
      simp only [hi] at hb
      exact ⟨m, info, rfl, hi, of_decide_eq_true hb⟩

theorem assnConsistB_congr {hugim hugim2 : AList (AList HugInfo)} {c c2 : Camper}
    {p : String} {a : Assn}
    (hl : lookupA hugim2 p = lookupA hugim p) (hid : c2.camperID = c.camperID)
    (hb : assnConsistB hugim c (p, a) = true) :
    assnConsistB hugim2 c2 (p, a) = true := by
  cases hh : a.hug with
  | none => exact assnConsistB_none hh
  | some h =>
    obtain ⟨m, info, hm, hi, hmem⟩ := assnConsistB_spec hh hb
    refine assnConsistB_intro hh ?_ hi ?_
    · rw [hl]; exact hm
    · rw [hid]; exact hmem

theorem growL_updateA_insert (hp : AList HugInfo) (hug : String) (id0 : String) :
    GrowL hp
      (updateA hp hug fun info => { info with enrolled := insertS info.enrolled id0 }) := by
  intro h info hl
  rw [lookupA_updateA]
  by_cases hh : h = hug
  · subst hh
    rw [if_pos rfl, hl]
    exact ⟨_, rfl, subset_insertS _ _⟩
  · rw [if_neg hh]
    exact ⟨info, hl, fun x hx => hx⟩

theorem periodConsist_assignIdx {st : PSt} {period hug how : String} {idx : Nat}
    (hsome : (lookupA st.hp hug).isSome = true)
    (hpc : PeriodConsist st.campers st.hp period) :
    PeriodConsist (assignIdx st period hug how idx).campers
      (assignIdx st period hug how idx).hp period := by
  unfold assignIdx
  cases hc : st.campers.get? idx with
  | none => exact hpc
  | some c =>
    simp only
    intro c2 hc2 h hh
    rcases List.mem_or_eq_of_mem_set hc2 with h1 | h1
    · obtain ⟨info, hli, hmem⟩ := hpc c2 h1 h hh
      obtain ⟨info2, hli2, hsub⟩ := growL_updateA_insert st.hp hug c.camperID h info hli
      exact ⟨info2, hli2, hsub hmem⟩
    · subst h1
      by_cases hper : (lookupA c.assignments period).isSome
      · rw [lookupAssn_setAssn_self c _ hper] at hh
        cases hh
        obtain ⟨v, hv⟩ := Option.isSome_iff_exists.1 hsome
        rw [lookupA_updateA, if_pos rfl, hv]
        exact ⟨_, rfl, mem_insertS.2 (Or.inr rfl)⟩
      · rw [Option.not_isSome_iff_eq_none] at hper
        rw [setAssn_of_lookup_none c _ hper] at hh ⊢
        obtain ⟨info, hli, hmem⟩ := hpc c (List.get?_mem hc) h hh
        obtain ⟨info2, hli2, hsub⟩ := growL_updateA_insert st.hp hug c.camperID h info hli
        exact ⟨info2, hli2, hsub hmem⟩

theorem assignIdx_hp_isSome (st : PSt) (period hug how : String) (idx : Nat) (h2 : String)
    (h : (lookupA st.hp h2).isSome = true) :
    (lookupA (assignIdx st period hug how idx).hp h2).isSome = true := by
  unfold assignIdx
  cases st.campers.get? idx with
  | none => exact h
  | some c =>
    simp only
    rw [lookupA_updateA]
    by_cases hh : h2 = hug
    · rw [if_pos hh]
      subst hh
      obtain ⟨v, hv⟩ := Option.isSome_iff_exists.1 h
      rw [hv]
      rfl
    · rw [if_neg hh]
      exact h

theorem periodConsist_assignFold (period hug how : String) :
    ∀ (l : List Nat) (st : PSt), (lookupA st.hp hug).isSome = true →
    PeriodConsist st.campers st.hp period →
    PeriodConsist ((l.foldl (fun s idx => assignIdx s period hug how idx) st).campers)
      ((l.foldl (fun s idx => assignIdx s period hug how idx) st).hp) period := by
  intro l
  induction l with
  | nil => intro st _ hpc; exact hpc
  | cons idx t ih =>
    intro st hsome hpc
    rw [List.foldl_cons]
    exact ih _ (assignIdx_hp_isSome st period hug how idx hug hsome)
      (periodConsist_assignIdx hsome hpc)

theorem periodConsist_admitHug (period : String) (r : Nat) (st : PSt) (hug : String)
    (cands : List Nat) (hpc : PeriodConsist st.campers st.hp period) :
    PeriodConsist ((admitHug period r st hug cands).campers)
      ((admitHug period r st hug cands).hp) period := by
  unfold admitHug
  cases hl : lookupA st.hp hug with
  | none => exact hpc
  | some info =>
    exact periodConsist_assignFold period hug _ _ st (by rw [hl]; rfl) hpc

theorem periodConsist_processRank (S : Shuf) (periods : List String) (period : String)
    (st : PSt) (r : Nat) (ul : List Nat)
    (hpc : PeriodConsist st.campers st.hp period) :
    PeriodConsist ((processRank S periods period st r ul).1.campers)
      ((processRank S periods period st r ul).1.hp) period := by
  unfold processRank
  simp only
  apply foldl_pres (fun s : PSt => PeriodConsist s.campers s.hp period)
  · intro s pr _ hs
    exact periodConsist_admitHug period r s pr.1 pr.2 hs
  · exact hpc


theorem periodConsist_randomFill (S : Shuf) (periods : List String) (period : String)
    (st : PSt) (ul : List Nat)
    (hpc : PeriodConsist st.campers st.hp period) :
    PeriodConsist ((randomFill S periods period st ul).campers)
      ((randomFill S periods period st ul).hp) period := by
  unfold randomFill
  simp only
  apply foldl_pres (fun s : PSt => PeriodConsist s.campers s.hp period)
  · intro s idx _ hs
    split
    · exact hs
    · split
      · exact hs
      · split
        · rename_i oc c hc hprefs hos hug hf
          have hp := List.find?_some hf
          cases hl2 : lookupA s.hp hug with
          | none => rw [hl2] at hp; cases hp
          | some info =>
            exact periodConsist_assignIdx (by rw [hl2]; rfl) hs
        · exact hs
  · exact hpc

theorem periodConsist_annotateReasons (period : String) (st : PSt) (ul : List Nat)
    (hpc : PeriodConsist st.campers st.hp period) :
    PeriodConsist ((annotateReasons period st ul).campers)
      ((annotateReasons period st ul).hp) period := by
  unfold annotateReasons
  simp only
  apply foldl_pres (fun cs : List Camper => PeriodConsist cs st.hp period)
  · intro cs idx _ hcs
    split
    · exact hcs
    · split
      · rename_i c hc hcond
        intro c2 hc2 h hh
        rcases List.mem_or_eq_of_mem_set hc2 with h1 | h1
        · exact hcs c2 h1 h hh
        · subst h1
          rw [lookupAssn_setHow_hug] at hh
          exact hcs c (List.get?_mem hc) h hh
      · exact hcs
  · exact hpc

theorem assignIdx_hp_keys (st : PSt) (period hug how : String) (idx : Nat) :
    (assignIdx st period hug how idx).hp.map Prod.fst = st.hp.map Prod.fst := by
  unfold assignIdx
  cases st.campers.get? idx with
  | none => rfl
  | some c =>
    simp only
    exact keys_updateA _ _ _

theorem assignFold_hp_keys (period hug how : String) :
    ∀ (l : List Nat) (st : PSt),
    ((l.foldl (fun s idx => assignIdx s period hug how idx) st).hp.map Prod.fst =
      st.hp.map Prod.fst) := by
  intro l
  induction l with
  | nil => intro st; rfl
  | cons idx t ih =>
    intro st
    rw [List.foldl_cons, ih, assignIdx_hp_keys]

theorem admitHug_hp_keys (period : String) (r : Nat) (st : PSt) (hug : String)
    (cands : List Nat) :
    (admitHug period r st hug cands).hp.map Prod.fst = st.hp.map Prod.fst := by
  unfold admitHug
  cases lookupA st.hp hug with
  | none => rfl
  | some info => exact assignFold_hp_keys period hug _ _ st

theorem processRank_hp_keys (S : Shuf) (periods : List String) (period : String)
    (st : PSt) (r : Nat) (ul : List Nat) :
    (processRank S periods period st r ul).1.hp.map Prod.fst = st.hp.map Prod.fst := by
  unfold processRank
  simp only
  apply foldl_pres (fun s : PSt => s.hp.map Prod.fst = st.hp.map Prod.fst)
  · intro s pr _ hs
    rw [admitHug_hp_keys]
    exact hs
  · rfl

theorem randomFill_hp_keys (S : Shuf) (periods : List String) (period : String)
    (st : PSt) (ul : List Nat) :
    (randomFill S periods period st ul).hp.map Prod.fst = st.hp.map Prod.fst := by
  unfold randomFill
  simp only
  apply foldl_pres (fun s : PSt => s.hp.map Prod.fst = st.hp.map Prod.fst)
  · intro s idx _ hs
    split
    · exact hs
    · split
      · exact hs
      · split
        · rw [assignIdx_hp_keys]
          exact hs
        · exact hs
  · rfl

theorem assignPeriodSt_hp_keys (S : Shuf) (K : Nat) (period : String) (st0 : PSt) :
    (assignPeriodSt S K period st0).hp.map Prod.fst = st0.hp.map Prod.fst := by
  unfold assignPeriodSt
  simp only
  rw [annotateReasons_hp, randomFill_hp_keys]
  apply foldl_pres
    (fun acc : PSt × List Nat => acc.1.hp.map Prod.fst = st0.hp.map Prod.fst)
  · intro acc r _ hacc
    rw [processRank_hp_keys]
    exact hacc
  · rfl

theorem periodConsist_assignPeriodSt (S : Shuf) (K : Nat) (period : String) (st0 : PSt)
    (hpc : PeriodConsist st0.campers st0.hp period) :
    PeriodConsist ((assignPeriodSt S K period st0).campers)
      ((assignPeriodSt S K period st0).hp) period := by
  unfold assignPeriodSt
  simp only
  apply periodConsist_annotateReasons
  apply periodConsist_randomFill
  apply foldl_pres
    (fun acc : PSt × List Nat => PeriodConsist acc.1.campers acc.1.hp period)
  · intro acc r _ hacc
    exact periodConsist_processRank S _ period acc.1 r acc.2 hacc
  · exact hpc

theorem periodsOf_eq {periods : List String} {campers : List Camper}
    (hk : ∀ c ∈ campers, c.assignments.map Prod.fst = periods) :
    ∀ c ∈ campers, c.assignments.map Prod.fst = periodsOf campers := by
  intro c hc
  cases campers with
  | nil => cases hc
  | cons c0 t =>
    have h0 : periodsOf (c0 :: t) = c0.assignments.map Prod.fst := rfl
    rw [h0, hk c hc, hk c0 (List.mem_cons_self _ _)]

theorem periodConsist_init {g : GState} {period : String}
    (hcons : ConsistInv g.campers g.hugim) :
    PeriodConsist g.campers ((lookupA g.hugim period).getD []) period := by
  intro c hc h hh
  have hkey : period ∈ c.assignments.map Prod.fst := by
    by_contra hne
    rw [lookupAssn, lookupA_eq_none hne] at hh
    simp at hh
  obtain ⟨m, info, hm, hi, hmem⟩ := assnConsistB_spec hh (hcons c hc period hkey)
  rw [hm]
  exact ⟨info, hi, hmem⟩

theorem consist_assignPeriodG (S : Shuf) (K : Nat) (period : String) (g : GState)
    (periods : List String) (hS : S.Lawful) (hWF : WFState periods g)
    (huniq : UniqueInv g.campers)
    (hcons : ConsistInv g.campers g.hugim) :
    ConsistInv (assignPeriodG S K period g).campers
      (assignPeriodG S K period g).hugim := by
  have hkeysP := periodsOf_eq (fun c hc => hWF.1 c hc)
  have huo := uniq_assignPeriodSt S K period
    ⟨g.campers, (lookupA g.hugim period).getD [], g.rk⟩ hS huniq hkeysP
  have hpc := periodConsist_assignPeriodSt S K period
    ⟨g.campers, (lookupA g.hugim period).getD [], g.rk⟩ (periodConsist_init hcons)
  have hkeyshp := assignPeriodSt_hp_keys S K period
    ⟨g.campers, (lookupA g.hugim period).getD [], g.rk⟩
  unfold assignPeriodG
  simp only
  intro c2 hc2 p hp2
  obtain ⟨c0, hc0, ho⟩ := forall2_mem_right huo.2 hc2
  by_cases hpp : p = period
  · subst hpp
    cases hh : (lookupAssn c2 p).hug with
    | none => exact assnConsistB_none hh
    | some h =>
      obtain ⟨info, hli, hmem⟩ := hpc c2 hc2 h hh
      cases hgm : lookupA g.hugim p with
      | none =>
        exfalso
        have hmemk : h ∈ ((assignPeriodSt S K p
            ⟨g.campers, (lookupA g.hugim p).getD [], g.rk⟩).hp.map Prod.fst) :=
          lookupA_isSome_iff.1 (by rw [hli]; rfl)
        rw [hkeyshp] at hmemk
        simp only [hgm] at hmemk
        simp at hmemk
      | some m0 =>
        refine assnConsistB_intro hh ?_ hli hmem
        rw [lookupA_updateA, if_pos rfl, hgm]
        rfl
  · have hkeq : c2.assignments.map Prod.fst = c0.assignments.map Prod.fst := ho.2.2.2.1
    have hlp : lookupAssn c2 p = lookupAssn c0 p := ho.2.2.2.2 p hpp
    have hb0 := hcons c0 hc0 p (by rw [← hkeq]; exact hp2)
    have hb2 := assnConsistB_congr
      (lookupA_updateA_ne g.hugim (fun _ => (assignPeriodSt S K period
        ⟨g.campers, (lookupA g.hugim period).getD [], g.rk⟩).hp) hpp) ho.1 hb0
    rw [hlp]
    exact hb2


theorem consist_grow_updateA {campers : List Camper} {hugim : AList (AList HugInfo)}
    (p hug id0 : String) {m : AList HugInfo}
    (hm : lookupA hugim p = some m)
    (hcons : ConsistInv campers hugim) :
    ConsistInv campers (updateA hugim p fun mm =>
      updateA mm hug fun info => { info with enrolled := insertS info.enrolled id0 }) := by
  intro c hc q hq
  have hb := hcons c hc q hq
  cases hh : (lookupAssn c q).hug with
  | none => exact assnConsistB_none hh
  | some h =>
    obtain ⟨m1, info1, hm1, hi1, hmem1⟩ := assnConsistB_spec hh hb
    by_cases hqp : q = p
    · rw [hqp, hm] at hm1
      cases hm1
      have hm2 : lookupA (updateA hugim p fun mm =>
          updateA mm hug fun info =>
            { info with enrolled := insertS info.enrolled id0 }) q =
          some (updateA m hug fun info =>
            { info with enrolled := insertS info.enrolled id0 }) := by
        rw [lookupA_updateA, if_pos hqp, hm]
        rfl
      by_cases hhh : h = hug
      · have hi2 : lookupA (updateA m hug fun info =>
            { info with enrolled := insertS info.enrolled id0 }) h =
            some { info1 with enrolled := insertS info1.enrolled id0 } := by
          rw [lookupA_updateA, if_pos hhh, ← hhh, hi1]
          rfl
        exact assnConsistB_intro hh hm2 hi2 (subset_insertS _ _ hmem1)
      · have hi2 : lookupA (updateA m hug fun info =>
            { info with enrolled := insertS info.enrolled id0 }) h = some info1 := by
          rw [lookupA_updateA, if_neg hhh]
          exact hi1
        exact assnConsistB_intro hh hm2 hi2 hmem1
    · refine assnConsistB_intro hh ?_ hi1 hmem1
      rw [lookupA_updateA_ne _ _ hqp]
      exact hm1

theorem consist_forcedAssign {st : FState} {idx : Nat} {c : Camper} {p hug : String}
    {m : AList HugInfo} {info : HugInfo}
    (hc : st.campers.get? idx = some c)
    (hm : lookupA st.hugim p = some m) (hi : lookupA m hug = some info)
    (hcons : ConsistInv st.campers st.hugim) :
    ConsistInv (forcedAssign st idx c p hug).campers
      (forcedAssign st idx c p hug).hugim := by
  have hgrow := consist_grow_updateA p hug c.camperID hm hcons
  intro c2 hc2 q hq
  unfold forcedAssign at hc2 ⊢
  simp only at hc2 ⊢
  rcases List.mem_or_eq_of_mem_set hc2 with h1 | h1
  · exact hgrow c2 h1 q hq
  · subst h1
    rw [keys_setAssn] at hq
    by_cases hqp : q = p
    · rw [hqp] at hq ⊢
      rw [lookupAssn_setAssn_self c _ (lookupA_isSome_iff.2 hq)]
      have hm2 : lookupA (updateA st.hugim p fun mm =>
          updateA mm hug fun info =>
            { info with enrolled := insertS info.enrolled c.camperID }) p =
          some (updateA m hug fun info =>
            { info with enrolled := insertS info.enrolled c.camperID }) := by
        rw [lookupA_updateA, if_pos rfl, hm]
        rfl
      have hi2 : lookupA (updateA m hug fun info =>
          { info with enrolled := insertS info.enrolled c.camperID }) hug =
          some { info with enrolled := insertS info.enrolled c.camperID } := by
        rw [lookupA_updateA, if_pos rfl, hi]
        rfl
      exact assnConsistB_intro rfl hm2 hi2 (mem_insertS.2 (Or.inr rfl))
    · rw [lookupAssn_setAssn_ne c _ hqp]
      exact assnConsistB_congr rfl rfl (hgrow c (List.get?_mem hc) q hq)

theorem htc_lookup_grow (pp : String × AList HugInfo) (acc : AList (List String))
    (h2 : String) :
    (lookupA acc h2).getD [] ⊆
      (lookupA (pp.2.foldl (fun acc2 ph =>
        setA acc2 ph.1 (unionS ((lookupA acc2 ph.1).getD []) ph.2.enrolled)) acc)
        h2).getD [] := by
  apply foldl_pres
    (fun acc2 : AList (List String) =>
      (lookupA acc h2).getD [] ⊆ (lookupA acc2 h2).getD [])
  · intro acc2 ph _ hsub x hx
    rw [lookupA_setA]
    by_cases hh : h2 = ph.1
    · rw [if_pos hh]
      refine subset_unionS_left _ _ ?_
      rw [← hh]
      exact hsub hx
    · rw [if_neg hh]
      exact hsub hx
  · exact fun x hx => hx

theorem htcSup_init (hugim : AList (AList HugInfo)) :
    ∀ pp ∈ hugim, ∀ ph ∈ pp.2, ph.2.enrolled ⊆
      (lookupA (hugToCampers hugim) ph.1).getD [] := by
  unfold hugToCampers
  intro pp hpp
  refine fold_cover
    (fun (pp2 : String × AList HugInfo) (acc : AList (List String)) =>
      ∀ ph ∈ pp2.2, ph.2.enrolled ⊆ (lookupA acc ph.1).getD [])
    _ _ _ ?_ ?_ pp hpp
  · intro a b x _ hq ph hph y hy
    exact htc_lookup_grow b a ph.1 (hq ph hph hy)
  · intro a b _
    refine fold_cover
      (fun (ph2 : String × HugInfo) (acc2 : AList (List String)) =>
        ph2.2.enrolled ⊆ (lookupA acc2 ph2.1).getD [])
      _ _ _ ?_ ?_
    · intro a2 b2 x2 _ hsub y hy
      rw [lookupA_setA]
      by_cases hh : x2.1 = b2.1
      · rw [if_pos hh]
        refine subset_unionS_left _ _ ?_
        rw [← hh]
        exact hsub hy
      · rw [if_neg hh]
        exact hsub hy
    · intro a2 b2 _ y hy
      rw [lookupA_setA, if_pos rfl]
      exact subset_unionS_right _ _ hy

theorem htcSup_forcedAssign {st : FState} {idx : Nat} {c : Camper} {p hug : String}
    {m : AList HugInfo} (hm : lookupA st.hugim p = some m)
    (hsup : HtcSup st) : HtcSup (forcedAssign st idx c p hug) := by
  have hhtc : ∀ x h2, x ∈ (lookupA st.htc h2).getD [] →
      x ∈ (lookupA (setA st.htc hug
        (insertS ((lookupA st.htc hug).getD []) c.camperID)) h2).getD [] := by
    intro x h2 hx
    rw [lookupA_setA]
    by_cases hh : h2 = hug
    · rw [if_pos hh]
      refine subset_insertS _ _ ?_
      rw [← hh]
      exact hx
    · rw [if_neg hh]
      exact hx
  intro pp hpp ph hph
  unfold forcedAssign at hpp ⊢
  simp only at hpp ⊢
  rcases mem_updateA hpp with h1 | ⟨m1, hm1, h2⟩
  · intro x hx
    exact hhtc x ph.1 (hsup pp h1 ph hph hx)
  · rw [hm] at hm1
    cases hm1
    subst h2
    rcases mem_updateA hph with h3 | ⟨info, hinfo, h4⟩
    · intro x hx
      exact hhtc x ph.1 (hsup (p, m) (lookupA_mem hm) ph h3 hx)
    · subst h4
      intro x hx
      rcases mem_insertS.1 hx with h5 | h5
      · exact hhtc x hug
          (hsup (p, m) (lookupA_mem hm) (hug, info) (lookupA_mem hinfo) h5)
      · rw [lookupA_setA, if_pos rfl]
        exact mem_insertS.2 (Or.inr h5)


theorem uniq_fillCampersLoop (hug : String) : ∀ (l : List Nat) (missing : Nat) (st : FState),
    l.Nodup → (st.hugim.map Prod.fst).Nodup →
    (∀ i ∈ l, ∀ c2, st.campers.get? i = some c2 →
      ∀ q, (lookupAssn c2 q).hug ≠ some hug) →
    UniqueInv st.campers → ConsistInv st.campers st.hugim → HtcSup st →
    UniqueInv ((fillCampersLoop hug l missing st).campers) ∧
    ConsistInv ((fillCampersLoop hug l missing st).campers)
      ((fillCampersLoop hug l missing st).hugim) ∧
    HtcSup (fillCampersLoop hug l missing st) ∧
    ((fillCampersLoop hug l missing st).hugim.map Prod.fst).Nodup := by
  intro l
  induction l with
  | nil => intro missing st _ hnd _ hu hcons hsup; exact ⟨hu, hcons, hsup, hnd⟩
  | cons idx rest ih =>
    intro missing st hlnd hnd hnh hu hcons hsup
    unfold fillCampersLoop
    cases hc : st.campers.get? idx with
    | none =>
      exact ih missing st (List.nodup_cons.1 hlnd).2 hnd
        (fun i hi => hnh i (List.mem_cons_of_mem _ hi)) hu hcons hsup
    | some c =>
      simp only
      cases hf : (periodsWithRoom st.hugim hug).find?
          (fun p => (lookupAssn c p).hug.isNone) with
      | none =>
        exact ih missing st (List.nodup_cons.1 hlnd).2 hnd
          (fun i hi => hnh i (List.mem_cons_of_mem _ hi)) hu hcons hsup
      | some p =>
        simp only
        have hroom : p ∈ periodsWithRoom st.hugim hug := List.mem_of_find?_eq_some hf
        obtain ⟨m, info, hm, hi, hlt, hmem⟩ := periodsWithRoom_spec hnd hroom
        have hcu : camperUnique (setAssn c p ⟨some hug, some "Forced_minimum"⟩) :=
          uniq_setAssn_some _ (hu c (List.get?_mem hc))
            (fun q _ => hnh idx (List.mem_cons_self _ _) c hc q)
        have hu1 : UniqueInv (forcedAssign st idx c p hug).campers := by
          unfold forcedAssign
          simp only
          exact uniqueInv_set hu hcu
        have hcons1 := consist_forcedAssign hc hm hi hcons
        have hsup1 := @htcSup_forcedAssign st idx c p hug m hm hsup
        have hnd1 : ((forcedAssign st idx c p hug).hugim.map Prod.fst).Nodup := by
          rw [keys_forcedAssign]
          exact hnd
        have hnh1 : ∀ i ∈ rest, ∀ c2,
            (forcedAssign st idx c p hug).campers.get? i = some c2 →
            ∀ q, (lookupAssn c2 q).hug ≠ some hug := by
          intro i hi2 c2 hc2 q
          have hne : idx ≠ i := fun he => (List.nodup_cons.1 hlnd).1 (he ▸ hi2)
          unfold forcedAssign at hc2
          simp only at hc2
          rw [List.get?_set_ne _ _ hne] at hc2
          exact hnh i (List.mem_cons_of_mem _ hi2) c2 hc2 q
        by_cases hms : missing - 1 = 0
        · simp only [hms, if_true]
          exact ⟨hu1, hcons1, hsup1, hnd1⟩
        · simp only [hms, if_false]
          exact ih (missing - 1) _ (List.nodup_cons.1 hlnd).2 hnd1 hnh1 hu1 hcons1 hsup1

theorem uniq_fillMinimumsF (S : Shuf) (g : GState) (hS : S.Lawful)
    (hnd : (g.hugim.map Prod.fst).Nodup)
    (hu : UniqueInv g.campers)
    (hcons : ConsistInv g.campers g.hugim) :
    UniqueInv (fillMinimumsF S g).campers ∧
    ConsistInv (fillMinimumsF S g).campers (fillMinimumsF S g).hugim ∧
    HtcSup (fillMinimumsF S g) ∧
    ((fillMinimumsF S g).hugim.map Prod.fst).Nodup := by
  unfold fillMinimumsF
  simp only
  apply foldl_pres (fun st : FState => UniqueInv st.campers ∧
    ConsistInv st.campers st.hugim ∧ HtcSup st ∧ (st.hugim.map Prod.fst).Nodup)
  · intro st pr _ hst
    obtain ⟨hu1, hcons1, hsup1, hnd1⟩ := hst
    split
    · exact ⟨hu1, hcons1, hsup1, hnd1⟩
    · set availIdx := (List.range st.campers.length).filter (fun i =>
        match st.campers.get? i with
        | some c => !(decide (c.camperID ∈ (lookupA st.htc pr.1).getD []))
        | none => false) with havail
      have hndA : availIdx.Nodup := (List.nodup_range _).filter _
      have hndSh : (S.shufN st.rk availIdx).Nodup :=
        (hS.1 st.rk availIdx).nodup_iff.2 hndA
      have hnh : ∀ i ∈ S.shufN st.rk availIdx, ∀ c2, st.campers.get? i = some c2 →
          ∀ q, (lookupAssn c2 q).hug ≠ some pr.1 := by
        intro i hi c2 hc2 q heq
        have hi2 : i ∈ availIdx := (hS.1 st.rk availIdx).mem_iff.1 hi
        have hpred := List.of_mem_filter hi2
        simp only [hc2] at hpred
        have hnotin : c2.camperID ∉ (lookupA st.htc pr.1).getD [] := by
          intro hmemb
          rw [decide_eq_true hmemb] at hpred
          simp at hpred
        have hqk : q ∈ c2.assignments.map Prod.fst := by
          by_contra hno
          rw [lookupAssn, lookupA_eq_none hno] at heq
          simp at heq
        obtain ⟨m, info, hm, hi3, hmem⟩ :=
          assnConsistB_spec heq (hcons1 c2 (List.get?_mem hc2) q hqk)
        exact hnotin (hsup1 (q, m) (lookupA_mem hm) (pr.1, info) (lookupA_mem hi3) hmem)
      exact uniq_fillCampersLoop pr.1 (S.shufN st.rk availIdx) _ _
        hndSh hnd1 hnh hu1 hcons1 hsup1
  · exact ⟨hu, hcons, htcSup_init g.hugim, hnd⟩

theorem uniq_fillMinimums (S : Shuf) (g : GState) (hS : S.Lawful)
    (hnd : (g.hugim.map Prod.fst).Nodup)
    (hu : UniqueInv g.campers)
    (hcons : ConsistInv g.campers g.hugim) :
    UniqueInv (fillMinimums S g).campers :=
  (uniq_fillMinimumsF S g hS hnd hu hcons).1


theorem noOtherHold_of_all {c : Camper} {period pref : String}
    (hall : (c.assignments.all fun pa =>
      (pa.1 == period) || !(pa.2.hug == some pref)) = true) :
    NoOtherHold c period pref := by
  intro p hp heq
  cases hl : lookupA c.assignments p with
  | none =>
    rw [lookupAssn, hl] at heq
    simp at heq
  | some a =>
    have hmem : (p, a) ∈ c.assignments := lookupA_mem hl
    rw [lookupAssn, hl] at heq
    simp only [Option.getD_some] at heq
    have hb := List.all_eq_true.1 hall (p, a) hmem
    simp [hp, heq] at hb

theorem uniq_clearAssignments (campers : List Camper) (period hug : String)
    (hu : UniqueInv campers) : UniqueInv (clearAssignments campers period hug) := by
  intro c hc
  obtain ⟨c0, hc0, hmap⟩ := List.mem_map.1 hc
  by_cases hcl : (lookupAssn c0 period).hug == some hug
  · rw [if_pos hcl] at hmap
    subst hmap
    exact uniq_setAssn_none (hu c0 hc0)
  · rw [if_neg hcl] at hmap
    subst hmap
    exact hu c0 hc0

theorem uniq_cancelHug (st : EState) (period hug : String)
    (hu : UniqueInv st.campers) : UniqueInv (cancelHug st period hug).campers :=
  uniq_clearAssignments st.campers period hug hu

theorem uniq_cancelPeriod (st : EState) (period : String)
    (hu : UniqueInv st.campers) : UniqueInv (cancelPeriod st period).1.campers := by
  unfold cancelPeriod
  simp only
  apply foldl_pres (fun s : EState => UniqueInv s.campers)
  · intro s hug _ hs
    exact uniq_cancelHug s period hug hs
  · exact hu

theorem uniq_cancelStage (st : EState) (hu : UniqueInv st.campers) :
    UniqueInv (cancelStage st).1.campers := by
  unfold cancelStage
  exact foldl_pres (fun acc : EState × Bool => UniqueInv acc.1.campers)
    cancelStep (st.hugim.map Prod.fst) (st, false)
    (fun acc p _ hacc => uniq_cancelPeriod acc.1 p hacc) hu

theorem uniq_tryRealloc (st : EState) (period : String) (idx : Nat)
    (hu : UniqueInv st.campers) : UniqueInv (tryRealloc st period idx).campers := by
  unfold tryRealloc
  cases hg : st.campers.get? idx with
  | none => exact hu
  | some c =>
    simp only
    by_cases hun : (lookupAssn c period).hug.isNone = true
    · rw [if_pos hun]
      cases hfp : findPref st.hugim st.canceled c period (lookupPrefs c period) 0 with
      | none => exact hu
      | some pr =>
        obtain ⟨h1, h2, h3, info, hl, hlt, hall⟩ :=
          findPref_spec st.hugim st.canceled c period (lookupPrefs c period) 0 pr.1 pr.2 hfp
        exact uniqueInv_set hu
          (uniq_setAssn_some _ (hu c (List.get?_mem hg)) (noOtherHold_of_all hall))
    · rw [if_neg hun]
      exact hu

theorem uniq_reallocStage (st : EState) (hu : UniqueInv st.campers) :
    UniqueInv (reallocStage st).campers := by
  unfold reallocStage
  apply foldl_pres (fun s : EState => UniqueInv s.campers)
  · intro s p _ hs
    apply foldl_pres (fun s2 : EState => UniqueInv s2.campers)
    · intro s2 idx _ hs2
      exact uniq_tryRealloc s2 p idx hs2
    · exact hs
  · exact hu

theorem uniq_enforcePasses : ∀ (fuel : Nat) (st : EState), UniqueInv st.campers →
    UniqueInv ((enforcePassesF fuel st).2.1).campers := by
  intro fuel
  induction fuel with
  | zero => intro st h; exact h
  | succ n ih =>
    intro st h
    have h2 : UniqueInv (reallocStage (cancelStage st).1).campers :=
      uniq_reallocStage _ (uniq_cancelStage st h)
    cases hr : (cancelStage st).2 with
    | false =>
      have he : enforcePassesF (n + 1) st = (1, reallocStage (cancelStage st).1, true) := by
        simp [enforcePassesF, hr]
      rw [he]
      exact h2
    | true =>
      have he : (enforcePassesF (n + 1) st).2.1 =
          (enforcePassesF n (reallocStage (cancelStage st).1)).2.1 := by
        simp [enforcePassesF, hr]
      rw [he]
      exact ih _ h2

theorem uniq_enforceMinimums (g : GState) (hu : UniqueInv g.campers) :
    UniqueInv (enforceMinimums g).campers :=
  uniq_enforcePasses _ _ hu

theorem uniq_assignPeriodG (S : Shuf) (K : Nat) (period : String) (g : GState)
    (periods : List String) (hS : S.Lawful) (hWF : WFState periods g)
    (hu : UniqueInv g.campers) :
    UniqueInv (assignPeriodG S K period g).campers ∧
    WFState periods (assignPeriodG S K period g) := by
  have hkeysP := periodsOf_eq (fun c hc => hWF.1 c hc)
  have huo := uniq_assignPeriodSt S K period
    ⟨g.campers, (lookupA g.hugim period).getD [], g.rk⟩ hS hu hkeysP
  refine ⟨huo.1, keysAll_of_outsideEqL huo.2 hWF.1, ?_⟩
  rw [keys_assignPeriodG]
  exact hWF.2

theorem uniq_runAllocation (S : Shuf) (K : Nat) (periods : List String) (g : GState)
    (hS : S.Lawful) (hWF : WFState periods g)
    (hnd : (g.hugim.map Prod.fst).Nodup)
    (hu : UniqueInv g.campers) (hcons : ConsistInv g.campers g.hugim) :
    UniqueInv (runAllocation S K periods g).campers := by
  unfold runAllocation
  have hmain : ∀ (ps : List String) (g2 : GState), WFState periods g2 →
      (g2.hugim.map Prod.fst).Nodup → UniqueInv g2.campers →
      ConsistInv g2.campers g2.hugim →
      WFState periods (ps.foldl (fun gg p => assignPeriodG S K p gg) g2) ∧
      ((ps.foldl (fun gg p => assignPeriodG S K p gg) g2).hugim.map Prod.fst).Nodup ∧
      UniqueInv ((ps.foldl (fun gg p => assignPeriodG S K p gg) g2).campers) ∧
      ConsistInv ((ps.foldl (fun gg p => assignPeriodG S K p gg) g2).campers)
        ((ps.foldl (fun gg p => assignPeriodG S K p gg) g2).hugim) := by
    intro ps
    induction ps with
    | nil => intro g2 a b c d; exact ⟨a, b, c, d⟩
    | cons p t ih =>
      intro g2 a b c d
      rw [List.foldl_cons]
      have h1 := uniq_assignPeriodG S K p g2 periods hS a c
      have h2 := consist_assignPeriodG S K p g2 periods hS a c d
      have h3 : ((assignPeriodG S K p g2).hugim.map Prod.fst).Nodup := by
        rw [keys_assignPeriodG]
        exact b
      exact ih _ h1.2 h3 h1.1 h2
  have hres := hmain periods g hWF hnd hu hcons
  exact uniq_fillMinimums S _ hS hres.2.1 hres.2.2.1 hres.2.2.2

/-- C2: cross-period uniqueness.  Under a lawful random source, on a
dict-wellformed state (camper assignment keys and registry keys are the
period list, registry keys distinct) satisfying the uniqueness invariant and
the enrollment-consistency invariant, each assigning phase — a Round
Allocator pass (rank rounds plus random fill), the force-fill Minimum
Enforcer, the cancel-and-reallocate Minimum Enforcer, and the whole
`run_allocation` — preserves the uniqueness invariant: no activity is the
assignment of two different periods of one participant. -/
theorem C2_uniquenessInvariant :
    ∀ (S : Shuf) (K : Nat) (periods : List String) (g : GState) (period : String),
    S.Lawful → WFState periods g → (g.hugim.map Prod.fst).Nodup →
    UniqueInv g.campers → ConsistInv g.campers g.hugim →
    UniqueInv (assignPeriodG S K period g).campers ∧
    UniqueInv (fillMinimums S g).campers ∧
    UniqueInv (enforceMinimums g).campers ∧
    UniqueInv (runAllocation S K periods g).campers := by
  intro S K periods g period hS hWF hnd hu hcons
  exact ⟨(uniq_assignPeriodG S K period g periods hS hWF hu).1,
    uniq_fillMinimums S g hS hnd hu hcons,
    uniq_enforceMinimums g hu,
    uniq_runAllocation S K periods g hS hWF hnd hu hcons⟩

/-- Witness for C2: all hypotheses hold at the concrete two-period input
under the identity oracle, and the conclusion follows by the theorem. -/
theorem C2_uniquenessInvariant_witness :
    idShuf.Lawful ∧ WFState ["Aleph", "Beth"] gW ∧ (gW.hugim.map Prod.fst).Nodup ∧
    UniqueInv gW.campers ∧ ConsistInv gW.campers gW.hugim ∧
    (UniqueInv (assignPeriodG idShuf 2 "Aleph" gW).campers ∧
     UniqueInv (fillMinimums idShuf gW).campers ∧
     UniqueInv (enforceMinimums gW).campers ∧
     UniqueInv (runAllocation idShuf 2 ["Aleph", "Beth"] gW).campers) :=
  ⟨⟨fun _ l => List.Perm.refl l, fun _ l => List.Perm.refl l⟩, by decide, by decide,
   by decide, by decide,
   C2_uniquenessInvariant idShuf 2 ["Aleph", "Beth"] gW "Aleph"
     ⟨fun _ l => List.Perm.refl l, fun _ l => List.Perm.refl l⟩
     (by decide) (by decide) (by decide) (by decide)⟩


/-! ## Claim C4: cancel-and-reallocate convergence -/

theorem cancelPeriod_false {st : EState} {p : String}
    (h : (cancelPeriod st p).2 = false) :
    (cancelPeriod st p).1 = st ∧
    ∀ ph ∈ ((lookupA st.hugim p).getD [] : AList HugInfo),
      ph.2.min ≤ ph.2.enrolled.length := by
  unfold cancelPeriod at h ⊢
  simp only at h ⊢
  have hemp : ((((lookupA st.hugim p).getD [] : AList HugInfo).filter fun ph =>
      ph.2.enrolled.length < ph.2.min).map Prod.fst) = [] := by
    cases hx : ((((lookupA st.hugim p).getD [] : AList HugInfo).filter fun ph =>
        ph.2.enrolled.length < ph.2.min).map Prod.fst) with
    | nil => rfl
    | cons a t =>
      rw [hx] at h
      simp [List.isEmpty] at h
  constructor
  · rw [hemp]
    rfl
  · intro ph hph
    by_contra hlt
    push_neg at hlt
    have hmem : ph.1 ∈ ((((lookupA st.hugim p).getD [] : AList HugInfo).filter fun ph2 =>
        ph2.2.enrolled.length < ph2.2.min).map Prod.fst) :=
      List.mem_map.2 ⟨ph, List.mem_filter.2 ⟨hph, by simpa using hlt⟩, rfl⟩
    rw [hemp] at hmem
    cases hmem

theorem cancelStep_flag_mono : ∀ (ps : List String) (acc : EState × Bool),
    acc.2 = true → (ps.foldl cancelStep acc).2 = true := by
  intro ps
  induction ps with
  | nil => intro acc h; exact h
  | cons p t ih =>
    intro acc h
    rw [List.foldl_cons]
    refine ih _ ?_
    show (acc.2 || (cancelPeriod acc.1 p).2) = true
    rw [h]
    rfl

theorem cancelFold_false : ∀ (ps : List String) (acc : EState × Bool),
    (ps.foldl cancelStep acc).2 = false →
    (ps.foldl cancelStep acc) = acc ∧
    ∀ p ∈ ps, ∀ ph ∈ ((lookupA acc.1.hugim p).getD [] : AList HugInfo),
      ph.2.min ≤ ph.2.enrolled.length := by
  intro ps
  induction ps with
  | nil => intro acc _; exact ⟨rfl, by simp⟩
  | cons p t ih =>
    intro acc h2
    rw [List.foldl_cons] at h2 ⊢
    have hstep : (cancelStep acc p).2 = false := by
      cases hx : (cancelStep acc p).2 with
      | false => rfl
      | true => rw [cancelStep_flag_mono t _ hx] at h2; cases h2
    have hor : acc.2 = false ∧ (cancelPeriod acc.1 p).2 = false := by
      have hor0 : (acc.2 || (cancelPeriod acc.1 p).2) = false := hstep
      rw [Bool.or_eq_false_iff] at hor0
      exact hor0
    have hcp := cancelPeriod_false hor.2
    have hacc : cancelStep acc p = acc := by
      show ((cancelPeriod acc.1 p).1, acc.2 || (cancelPeriod acc.1 p).2) = acc
      rw [hcp.1, hor.2, Bool.or_false]
    rw [hacc] at h2 ⊢
    obtain ⟨hfix, hmin⟩ := ih acc h2
    refine ⟨hfix, ?_⟩
    intro q hq ph hph
    rcases List.mem_cons.1 hq with h3 | h3
    · subst h3
      exact hcp.2 ph hph
    · exact hmin q h3 ph hph

theorem cancelStage_false (st : EState) (hnd : (st.hugim.map Prod.fst).Nodup)
    (h : (cancelStage st).2 = false) :
    (cancelStage st).1 = st ∧ MinSat st.hugim := by
  unfold cancelStage at h ⊢
  obtain ⟨hfix, hmin⟩ := cancelFold_false (st.hugim.map Prod.fst) (st, false) h
  refine ⟨by rw [hfix], ?_⟩
  intro pp hpp ph hph
  have hk : pp.1 ∈ st.hugim.map Prod.fst := List.mem_map.2 ⟨pp, hpp, rfl⟩
  have hl : lookupA st.hugim pp.1 = some pp.2 := lookupA_of_nodup_mem hnd hpp
  refine hmin pp.1 hk ph ?_
  rw [hl]
  exact hph

theorem length_le_length_insertS (l : List String) (x : String) :
    l.length ≤ (insertS l x).length := by
  unfold insertS
  split
  · exact le_refl _
  · simp

theorem minSat_updateA_insert {hugim : AList (AList HugInfo)} {p pref id0 : String}
    (h : MinSat hugim) :
    MinSat (updateA hugim p fun m => updateA m pref fun info =>
      { info with enrolled := insertS info.enrolled id0 }) := by
  intro pp hpp ph hph
  rcases mem_updateA hpp with h1 | ⟨m, hm, h2⟩
  · exact h pp h1 ph hph
  · subst h2
    rcases mem_updateA hph with h3 | ⟨info, hinfo, h4⟩
    · exact h (p, m) (lookupA_mem hm) ph h3
    · subst h4
      have hmin := h (p, m) (lookupA_mem hm) (pref, info) (lookupA_mem hinfo)
      exact le_trans hmin (length_le_length_insertS _ _)

theorem minSat_tryRealloc (st : EState) (period : String) (idx : Nat)
    (h : MinSat st.hugim) : MinSat (tryRealloc st period idx).hugim := by
  unfold tryRealloc
  cases st.campers.get? idx with
  | none => exact h
  | some c =>
    simp only
    split
    · split
      · exact minSat_updateA_insert h
      · exact h
    · exact h

theorem minSat_reallocStage (st : EState) (h : MinSat st.hugim) :
    MinSat (reallocStage st).hugim := by
  unfold reallocStage
  apply foldl_pres (fun s : EState => MinSat s.hugim)
  · intro s p _ hs
    apply foldl_pres (fun s2 : EState => MinSat s2.hugim)
    · intro s2 idx _ hs2
      exact minSat_tryRealloc s2 p idx hs2
    · exact hs
  · exact h

theorem keys_cancelHug (st : EState) (period hug : String) :
    (cancelHug st period hug).hugim.map Prod.fst = st.hugim.map Prod.fst :=
  keys_updateA _ _ _

theorem keys_cancelPeriod (st : EState) (period : String) :
    (cancelPeriod st period).1.hugim.map Prod.fst = st.hugim.map Prod.fst := by
  unfold cancelPeriod
  simp only
  apply foldl_pres
    (fun s : EState => s.hugim.map Prod.fst = st.hugim.map Prod.fst)
  · intro s hug _ hs
    rw [keys_cancelHug]
    exact hs
  · rfl

theorem keys_cancelStage (st : EState) :
    (cancelStage st).1.hugim.map Prod.fst = st.hugim.map Prod.fst := by
  unfold cancelStage
  exact foldl_pres
    (fun acc : EState × Bool => acc.1.hugim.map Prod.fst = st.hugim.map Prod.fst)
    cancelStep (st.hugim.map Prod.fst) (st, false)
    (fun acc p _ hacc => by
      show (cancelPeriod acc.1 p).1.hugim.map Prod.fst = st.hugim.map Prod.fst
      rw [keys_cancelPeriod]
      exact hacc) rfl

theorem keys_tryRealloc (st : EState) (period : String) (idx : Nat) :
    (tryRealloc st period idx).hugim.map Prod.fst = st.hugim.map Prod.fst := by
  unfold tryRealloc
  cases st.campers.get? idx with
  | none => rfl
  | some c =>
    simp only
    split
    · split
      · exact keys_updateA _ _ _
      · rfl
    · rfl

theorem keys_reallocStage (st : EState) :
    (reallocStage st).hugim.map Prod.fst = st.hugim.map Prod.fst := by
  unfold reallocStage
  apply foldl_pres
    (fun s : EState => s.hugim.map Prod.fst = st.hugim.map Prod.fst)
  · intro s p _ hs
    apply foldl_pres
      (fun s2 : EState => s2.hugim.map Prod.fst = st.hugim.map Prod.fst)
    · intro s2 idx _ hs2
      rw [keys_tryRealloc]
      exact hs2
    · exact hs
  · rfl

theorem minSat_enforcePasses : ∀ (fuel : Nat) (st : EState),
    (st.hugim.map Prod.fst).Nodup →
    (enforcePassesF fuel st).2.2 = true →
    MinSat ((enforcePassesF fuel st).2.1).hugim := by
  intro fuel
  induction fuel with
  | zero =>
    intro st _ h
    simp [enforcePassesF] at h
  | succ n ih =>
    intro st hnd hdone
    cases hr : (cancelStage st).2 with
    | false =>
      have he : (enforcePassesF (n + 1) st).2.1 = reallocStage (cancelStage st).1 := by
        simp [enforcePassesF, hr]
      rw [he]
      obtain ⟨hfix, hmin⟩ := cancelStage_false st hnd hr
      apply minSat_reallocStage
      rw [hfix]
      exact hmin
    | true =>
      have he : (enforcePassesF (n + 1) st).2.1 =
          (enforcePassesF n (reallocStage (cancelStage st).1)).2.1 := by
        simp [enforcePassesF, hr]
      have hd2 : (enforcePassesF n (reallocStage (cancelStage st).1)).2.2 = true := by
        have he2 : (enforcePassesF (n + 1) st).2.2 =
            (enforcePassesF n (reallocStage (cancelStage st).1)).2.2 := by
          simp [enforcePassesF, hr]
        rw [← he2]
        exact hdone
      have hnd2 : ((reallocStage (cancelStage st).1).hugim.map Prod.fst).Nodup := by
        rw [keys_reallocStage, keys_cancelStage]
        exact hnd
      rw [he]
      exact ih _ hnd2 hd2

theorem minSat_enforceMinimums (g : GState) (hnd : (g.hugim.map Prod.fst).Nodup) :
    MinSat (enforceMinimums g).hugim := by
  unfold enforceMinimums
  simp only
  exact minSat_enforcePasses _ ⟨g.campers, g.hugim, emptyCanceled g.hugim⟩ hnd
    (enforcePasses_done _ _ (by omega)).1


theorem cancInv_cancelHug (st : EState) (period hug : String) (hci : CancInv st) :
    CancInv (cancelHug st period hug) := by
  obtain ⟨hreg, hcmp⟩ := hci
  constructor
  · intro p cs hcs h hh
    replace hcs : lookupA (setA st.canceled period
        (insertS ((lookupA st.canceled period).getD []) hug)) p = some cs := hcs
    show lookupA ((lookupA (updateA st.hugim period fun m => eraseA m hug) p).getD [])
      h = none
    rw [lookupA_setA] at hcs
    by_cases hp : p = period
    · rw [if_pos hp] at hcs
      cases hcs
      rw [hp, lookupA_updateA, if_pos rfl]
      cases hm : lookupA st.hugim period with
      | none =>
        rfl
      | some m =>
        show lookupA (eraseA m hug) h = none
        rcases mem_insertS.1 hh with h1 | h1
        · rw [lookupA_eraseA]
          by_cases hhe : h = hug
          · rw [if_pos hhe]
          · rw [if_neg hhe]
            cases hcanc : lookupA st.canceled period with
            | none =>
              rw [hcanc] at h1
              cases h1
            | some cs0 =>
              rw [hcanc] at h1
              have hold := hreg period cs0 hcanc h h1
              rw [hm] at hold
              exact hold
        · subst h1
          rw [lookupA_eraseA, if_pos rfl]
    · rw [if_neg hp] at hcs
      rw [lookupA_updateA_ne _ _ hp]
      exact hreg p cs hcs h hh
  · intro c hc p cs hcs h hh
    replace hc : c ∈ clearAssignments st.campers period hug := hc
    replace hcs : lookupA (setA st.canceled period
        (insertS ((lookupA st.canceled period).getD []) hug)) p = some cs := hcs
    obtain ⟨c0, hc0, hmap⟩ := List.mem_map.1 hc
    rw [lookupA_setA] at hcs
    by_cases hp : p = period
    · subst hp
      rw [if_pos rfl] at hcs
      cases hcs
      rcases mem_insertS.1 hh with h1 | h1
      · cases hcanc : lookupA st.canceled p with
        | none =>
          rw [hcanc] at h1
          cases h1
        | some cs0 =>
          rw [hcanc] at h1
          have hold := hcmp c0 hc0 p cs0 hcanc h h1
          by_cases hcl : (lookupAssn c0 p).hug == some hug
          · rw [if_pos hcl] at hmap
            subst hmap
            by_cases hks : (lookupA c0.assignments p).isSome
            · rw [lookupAssn_setAssn_self c0 _ hks]
              simp
            · rw [Option.not_isSome_iff_eq_none] at hks
              rw [setAssn_of_lookup_none c0 _ hks]
              exact hold
          · rw [if_neg hcl] at hmap
            subst hmap
            exact hold
      · subst h1
        by_cases hcl : (lookupAssn c0 p).hug == some h
        · rw [if_pos hcl] at hmap
          subst hmap
          by_cases hks : (lookupA c0.assignments p).isSome
          · rw [lookupAssn_setAssn_self c0 _ hks]
            simp
          · rw [Option.not_isSome_iff_eq_none] at hks
            rw [setAssn_of_lookup_none c0 _ hks]
            rw [lookupAssn, hks]
            simp
        · rw [if_neg hcl] at hmap
          subst hmap
          intro he
          exact hcl (by rw [he]; simp)
    · rw [if_neg hp] at hcs
      have hold := hcmp c0 hc0 p cs hcs h hh
      by_cases hcl : (lookupAssn c0 period).hug == some hug
      · rw [if_pos hcl] at hmap
        subst hmap
        rw [lookupAssn_setAssn_ne c0 _ hp]
        exact hold
      · rw [if_neg hcl] at hmap
        subst hmap
        exact hold

theorem cancInv_cancelPeriod (st : EState) (period : String) (hci : CancInv st) :
    CancInv (cancelPeriod st period).1 := by
  unfold cancelPeriod
  simp only
  apply foldl_pres (fun s : EState => CancInv s)
  · intro s hug _ hs
    exact cancInv_cancelHug s period hug hs
  · exact hci

theorem cancInv_cancelStage (st : EState) (hci : CancInv st) :
    CancInv (cancelStage st).1 := by
  unfold cancelStage
  exact foldl_pres (fun acc : EState × Bool => CancInv acc.1)
    cancelStep (st.hugim.map Prod.fst) (st, false)
    (fun acc p _ hacc => cancInv_cancelPeriod acc.1 p hacc) hci

theorem cancInv_tryRealloc (st : EState) (period : String) (idx : Nat)
    (hci : CancInv st) : CancInv (tryRealloc st period idx) := by
  obtain ⟨hreg, hcmp⟩ := hci
  unfold tryRealloc
  cases hg : st.campers.get? idx with
  | none => exact ⟨hreg, hcmp⟩
  | some c =>
    simp only
    by_cases hun : (lookupAssn c period).hug.isNone = true
    · rw [if_pos hun]
      cases hfp : findPref st.hugim st.canceled c period (lookupPrefs c period) 0 with
      | none => exact ⟨hreg, hcmp⟩
      | some pr =>
        obtain ⟨hj1, hj2, hncanc, info, hlinfo, hlt, hall⟩ :=
          findPref_spec st.hugim st.canceled c period (lookupPrefs c period) 0 pr.1 pr.2 hfp
        constructor
        · intro p cs hcs h hh
          replace hcs : lookupA st.canceled p = some cs := hcs
          show lookupA ((lookupA (updateA st.hugim period fun m =>
            updateA m pr.1 fun i2 =>
              { i2 with enrolled := insertS i2.enrolled c.camperID }) p).getD []) h = none
          have hold := hreg p cs hcs h hh
          by_cases hp : p = period
          · subst hp
            rw [lookupA_updateA, if_pos rfl]
            cases hm : lookupA st.hugim p with
            | none => rfl
            | some m =>
              show lookupA (updateA m pr.1 fun i2 =>
                { i2 with enrolled := insertS i2.enrolled c.camperID }) h = none
              rw [hm] at hold
              replace hold : lookupA m h = none := hold
              rw [lookupA_updateA]
              by_cases hhp : h = pr.1
              · exfalso
                rw [hhp] at hold
                replace hlinfo : lookupA m pr.1 = some info := by
                  rw [hm] at hlinfo
                  exact hlinfo
                rw [hold] at hlinfo
                cases hlinfo
              · rw [if_neg hhp]
                exact hold
          · rw [lookupA_updateA_ne _ _ hp]
            exact hold
        · intro c2 hc2 p cs hcs h hh
          replace hc2 : c2 ∈ st.campers.set idx
            (setAssn c period ⟨some pr.1, some (prefStr (pr.2 + 1))⟩) := hc2
          replace hcs : lookupA st.canceled p = some cs := hcs
          rcases List.mem_or_eq_of_mem_set hc2 with hA | hA
          · exact hcmp c2 hA p cs hcs h hh
          · subst hA
            by_cases hp : p = period
            · subst hp
              by_cases hks : (lookupA c.assignments p).isSome
              · rw [lookupAssn_setAssn_self c _ hks]
                intro he
                have he2 : some pr.1 = some h := he
                injection he2 with hinj
                apply hncanc
                rw [hcs, hinj]
                exact hh
              · rw [Option.not_isSome_iff_eq_none] at hks
                rw [setAssn_of_lookup_none c _ hks]
                exact hcmp c (List.get?_mem hg) p cs hcs h hh
            · rw [lookupAssn_setAssn_ne c _ hp]
              exact hcmp c (List.get?_mem hg) p cs hcs h hh
    · rw [if_neg hun]
      exact ⟨hreg, hcmp⟩

theorem cancInv_reallocStage (st : EState) (hci : CancInv st) :
    CancInv (reallocStage st) := by
  unfold reallocStage
  apply foldl_pres (fun s : EState => CancInv s)
  · intro s p _ hs
    apply foldl_pres (fun s2 : EState => CancInv s2)
    · intro s2 idx _ hs2
      exact cancInv_tryRealloc s2 p idx hs2
    · exact hs
  · exact hci

theorem cancInv_enforcePasses : ∀ (fuel : Nat) (st : EState), CancInv st →
    CancInv (enforcePassesF fuel st).2.1 := by
  intro fuel
  induction fuel with
  | zero => intro st h; exact h
  | succ n ih =>
    intro st h
    have h2 : CancInv (reallocStage (cancelStage st).1) :=
      cancInv_reallocStage _ (cancInv_cancelStage st h)
    cases hr : (cancelStage st).2 with
    | false =>
      have he : enforcePassesF (n + 1) st = (1, reallocStage (cancelStage st).1, true) := by
        simp [enforcePassesF, hr]
      rw [he]
      exact h2
    | true =>
      have he : (enforcePassesF (n + 1) st).2.1 =
          (enforcePassesF n (reallocStage (cancelStage st).1)).2.1 := by
        simp [enforcePassesF, hr]
      rw [he]
      exact ih _ h2

theorem lookup_emptyCanceled (hugim : AList (AList HugInfo)) (p : String)
    (cs : List String) (h : lookupA (emptyCanceled hugim) p = some cs) : cs = [] := by
  have hmem := lookupA_mem h
  unfold emptyCanceled at hmem
  obtain ⟨pp, hpp, he⟩ := List.mem_map.1 hmem
  injection he with e1 e2
  exact e2.symm

theorem cancInv_enforceMinimums (g : GState) : CancInv (enforceMinimums g) := by
  unfold enforceMinimums
  simp only
  apply cancInv_enforcePasses
  constructor
  · intro p cs hcs h hh
    rw [lookup_emptyCanceled g.hugim p cs hcs] at hh
    cases hh
  · intro c hc p cs hcs h hh
    rw [lookup_emptyCanceled g.hugim p cs hcs] at hh
    cases hh


theorem forall2_map_right {α : Type} {R : α → α → Prop} (f : α → α) :
    ∀ {l0 l : List α}, List.Forall₂ R l0 l → (∀ a b, R a b → R a (f b)) →
    List.Forall₂ R l0 (l.map f) := by
  intro l0 l h hf
  induction h with
  | nil => exact List.Forall₂.nil
  | cons hab h2 ih => exact List.Forall₂.cons (hf _ _ hab) ih

theorem reassignOK_refl (c : Camper) : ReassignOK c c :=
  ⟨rfl, rfl, rfl, rfl, fun p _ => Or.inl rfl⟩

theorem reassignOK_clear {c0 c : Camper} (period : String) (h : ReassignOK c0 c) :
    ReassignOK c0 (setAssn c period ⟨none, none⟩) := by
  obtain ⟨h1, h2, h3, h4, h5⟩ := h
  refine ⟨h1, h2, h3, by rw [keys_setAssn]; exact h4, ?_⟩
  intro p hp
  rw [keys_setAssn] at hp
  by_cases hpp : p = period
  · subst hpp
    exact Or.inr (Or.inl (lookupAssn_setAssn_self c _ (lookupA_isSome_iff.2 hp)))
  · rw [lookupAssn_setAssn_ne c _ hpp]
    exact h5 p hp

theorem reassignOK_pref {c0 c : Camper} {period h : String} {i : Nat}
    (hr : ReassignOK c0 c) (hpref : (lookupPrefs c0 period).get? i = some h) :
    ReassignOK c0 (setAssn c period ⟨some h, some (prefStr (i + 1))⟩) := by
  obtain ⟨h1, h2, h3, h4, h5⟩ := hr
  refine ⟨h1, h2, h3, by rw [keys_setAssn]; exact h4, ?_⟩
  intro p hp
  rw [keys_setAssn] at hp
  by_cases hpp : p = period
  · subst hpp
    exact Or.inr (Or.inr ⟨i, h, hpref,
      lookupAssn_setAssn_self c _ (lookupA_isSome_iff.2 hp)⟩)
  · rw [lookupAssn_setAssn_ne c _ hpp]
    exact h5 p hp

theorem reassign_clearAssignments {campers0 campers : List Camper}
    (period hug : String) (h : List.Forall₂ ReassignOK campers0 campers) :
    List.Forall₂ ReassignOK campers0 (clearAssignments campers period hug) := by
  refine forall2_map_right _ h ?_
  intro a b hab
  by_cases hcl : (lookupAssn b period).hug == some hug
  · rw [if_pos hcl]
    exact reassignOK_clear period hab
  · rw [if_neg hcl]
    exact hab

theorem reassign_cancelPeriod (st : EState) (period : String) {campers0 : List Camper}
    (h : List.Forall₂ ReassignOK campers0 st.campers) :
    List.Forall₂ ReassignOK campers0 (cancelPeriod st period).1.campers := by
  unfold cancelPeriod
  simp only
  apply foldl_pres (fun s : EState => List.Forall₂ ReassignOK campers0 s.campers)
  · intro s hug _ hs
    exact reassign_clearAssignments period hug hs
  · exact h

theorem reassign_cancelStage (st : EState) {campers0 : List Camper}
    (h : List.Forall₂ ReassignOK campers0 st.campers) :
    List.Forall₂ ReassignOK campers0 (cancelStage st).1.campers := by
  unfold cancelStage
  exact foldl_pres
    (fun acc : EState × Bool => List.Forall₂ ReassignOK campers0 acc.1.campers)
    cancelStep (st.hugim.map Prod.fst) (st, false)
    (fun acc p _ hacc => reassign_cancelPeriod acc.1 p hacc) h

theorem reassign_tryRealloc (st : EState) (period : String) (idx : Nat)
    {campers0 : List Camper}
    (h : List.Forall₂ ReassignOK campers0 st.campers) :
    List.Forall₂ ReassignOK campers0 (tryRealloc st period idx).campers := by
  unfold tryRealloc
  cases hg : st.campers.get? idx with
  | none => exact h
  | some c =>
    simp only
    by_cases hun : (lookupAssn c period).hug.isNone = true
    · rw [if_pos hun]
      cases hfp : findPref st.hugim st.canceled c period (lookupPrefs c period) 0 with
      | none => exact h
      | some pr =>
        obtain ⟨hj1, hj2, hncanc, info, hlinfo, hlt, hall⟩ :=
          findPref_spec st.hugim st.canceled c period (lookupPrefs c period) 0 pr.1 pr.2 hfp
        refine forall2_set_right h ?_
        intro c0 hc0
        obtain ⟨c1, hc1, hr⟩ := forall2_get_right h hg
        rw [hc1] at hc0
        cases hc0
        have hpref0 : (lookupPrefs c0 period).get? pr.2 = some pr.1 := by
          have hpe : lookupPrefs c period = lookupPrefs c0 period := by
            unfold lookupPrefs
            rw [hr.2.1]
          rw [← hpe]
          simpa using hj2
        exact reassignOK_pref hr hpref0
    · rw [if_neg hun]
      exact h

theorem reassign_reallocStage (st : EState) {campers0 : List Camper}
    (h : List.Forall₂ ReassignOK campers0 st.campers) :
    List.Forall₂ ReassignOK campers0 (reallocStage st).campers := by
  unfold reallocStage
  apply foldl_pres (fun s : EState => List.Forall₂ ReassignOK campers0 s.campers)
  · intro s p _ hs
    apply foldl_pres (fun s2 : EState => List.Forall₂ ReassignOK campers0 s2.campers)
    · intro s2 idx _ hs2
      exact reassign_tryRealloc s2 p idx hs2
    · exact hs
  · exact h

theorem reassign_enforcePasses : ∀ (fuel : Nat) (st : EState) (campers0 : List Camper),
    List.Forall₂ ReassignOK campers0 st.campers →
    List.Forall₂ ReassignOK campers0 (enforcePassesF fuel st).2.1.campers := by
  intro fuel
  induction fuel with
  | zero => intro st campers0 h; exact h
  | succ n ih =>
    intro st campers0 h
    have h2 : List.Forall₂ ReassignOK campers0
        (reallocStage (cancelStage st).1).campers :=
      reassign_reallocStage _ (reassign_cancelStage st h)
    cases hr : (cancelStage st).2 with
    | false =>
      have he : enforcePassesF (n + 1) st = (1, reallocStage (cancelStage st).1, true) := by
        simp [enforcePassesF, hr]
      rw [he]
      exact h2
    | true =>
      have he : (enforcePassesF (n + 1) st).2.1 =
          (enforcePassesF n (reallocStage (cancelStage st).1)).2.1 := by
        simp [enforcePassesF, hr]
      rw [he]
      exact ih _ _ h2

theorem reassign_enforceMinimums (g : GState) :
    List.Forall₂ ReassignOK g.campers (enforceMinimums g).campers := by
  unfold enforceMinimums
  simp only
  exact reassign_enforcePasses _ ⟨g.campers, g.hugim, emptyCanceled g.hugim⟩ g.campers
    (forall2_refl reassignOK_refl g.campers)

/-- C4: convergence of the cancel-and-reallocate Minimum Enforcer.  On a
registry with distinct period keys, when the enforcer terminates every
ActivityInstance still present meets its minimum; every canceled (period,
activity) pair is recorded in `canceled_hugs_by_period`, is absent from the
registry, and is nobody's assignment for that period; and every camper record
evolves only by keeping a period's record, clearing it, or reassigning it to
one of that camper's own preferences labelled with the preference rank
actually achieved (`Pref_{index+1}`). -/
theorem C4_cancelStrategyConvergence :
    ∀ g : GState, (g.hugim.map Prod.fst).Nodup →
    MinSat (enforceMinimums g).hugim ∧
    (∀ p cs, lookupA (enforceMinimums g).canceled p = some cs → ∀ h ∈ cs,
      lookupA ((lookupA (enforceMinimums g).hugim p).getD []) h = none ∧
      ∀ c ∈ (enforceMinimums g).campers, (lookupAssn c p).hug ≠ some h) ∧
    List.Forall₂ ReassignOK g.campers (enforceMinimums g).campers := by
  intro g hnd
  have hci := cancInv_enforceMinimums g
  refine ⟨minSat_enforceMinimums g hnd, ?_, reassign_enforceMinimums g⟩
  intro p cs hcs h hh
  exact ⟨hci.1 p cs hcs h hh, fun c hc => hci.2 c hc p cs hcs h hh⟩

/-- Witness for C4: at the concrete input (one camper enrolled in
under-minimum X with free alternative Y) the hypothesis holds and the
conclusion follows by the theorem. -/
theorem C4_cancelStrategyConvergence_witness :
    (gC4.hugim.map Prod.fst).Nodup ∧
    (MinSat (enforceMinimums gC4).hugim ∧
     (∀ p cs, lookupA (enforceMinimums gC4).canceled p = some cs → ∀ h ∈ cs,
       lookupA ((lookupA (enforceMinimums gC4).hugim p).getD []) h = none ∧
       ∀ c ∈ (enforceMinimums gC4).campers, (lookupAssn c p).hug ≠ some h) ∧
     List.Forall₂ ReassignOK gC4.campers (enforceMinimums gC4).campers) :=
  ⟨by decide, C4_cancelStrategyConvergence gC4 (by decide)⟩

end Hugim
